import Mathlib

/-!
# xv6 page-frame allocator (`kernel/kalloc.c`) and block cache (`kernel/bio.c`)

A shallow embedding of the two resource managers and the properties proved of them.

Conventions of the embedding.

* Physical addresses, core numbers, device numbers and block numbers are natural numbers.
* A pointer-linked list (`struct run *freelist`, the `prev`/`next` ring of a bucket) is the Lean
  list of the nodes met when following `next` from the list head; the null pointer ends a free
  list and is never an element of one.
* A free frame stores the link to the next free frame in its own first word, so in memory a
  frame is on at most one free list at a time.  The lists of the embedding describe memory as
  long as `kfree` pushes frames that are on no list; a `kfree` of a frame that is already on a
  list overwrites its link, and from then on only the list pushed onto is described.
* `panic(...)` never returns: an operation that can panic yields an `Outcome`, whose constructor
  `halt` carries the machine state at the moment of the panic.
* Spin locks serialise the critical sections and carry no data.  An operation is one
  uninterrupted execution of the C function, except where overlapping `bget` calls are studied:
  there `bget` is taken one critical section at a time (`bgetSection`), and run without
  interruption it is the `bget` of the other results (`bgetRun_bget`).
* `memset` only fills page contents, which no control decision reads, and is left out.
* The sleep lock of a buffer and the disk driver are outside `bio.c`: what `holdingsleep`
  answers is an input of `brelse` and `bwrite`, and the disk is a map from (device, block
  number) to block contents.
-/

/-- Result of running a kernel routine that may stop in `panic`. -/
inductive Outcome (σ : Type) (α : Type) where
  | ret (s : σ) (v : α)
  | halt (s : σ)

namespace Outcome

/-- The machine state an outcome leaves behind. -/
def state {σ α : Type} : Outcome σ α → σ
  | ret s _ => s
  | halt s => s

/-- Whether the routine returned to its caller. -/
def returned {σ α : Type} : Outcome σ α → Bool
  | ret _ _ => true
  | halt _ => false

end Outcome

namespace Kalloc

/-- Bytes per page (`riscv.h`; "Allocates whole 4096-byte pages"). -/
def PGSIZE : Nat := 4096

/-- Modelled from the spec: `PGROUNDUP` of `riscv.h` is not among the sources; it yields the
first page-aligned address at or after `sz`. -/
def PGROUNDUP (sz : Nat) : Nat := (sz + PGSIZE - 1) / PGSIZE * PGSIZE

/-- Compile-time configuration supplied from outside `kalloc.c` (`param.h`, `memlayout.h`,
`kernel.ld`): the core count, the base of physical memory, its top, and `end`, the first
address after the kernel image (a positive address; address 0 is the null pointer). -/
structure Cfg where
  NCPU : Nat
  KERNBASE : Nat
  PHYSTOP : Nat
  kernelEnd : Nat

/-- Modelled from the spec: the macro `PAGEREFID` of `kalloc.h` is not among the sources.  The
table `ref` has `(PHYSTOP - KERNBASE) >> PGSHIFT` entries, one per page frame from `KERNBASE`
on, so the entry of an address is the number of its frame counted from `KERNBASE`. -/
def PAGEREFID (cfg : Cfg) (pa : Nat) : Nat := (pa - cfg.KERNBASE) / PGSIZE

/-- The allocator's globals: `kmem i` is the chain `kmem[i].freelist`, and `ref k` is
`ref[k].num`.  Modelled from the spec: `struct ref` (`kalloc.h`) is not among the sources; its
counter is the signed count "(IncrementRef + initial allocation) − Free", an integer. -/
structure KState where
  kmem : Nat → List Nat
  ref : Nat → Int

/-- The zero-initialised globals before `kinit`. -/
def boot : KState := ⟨fun _ => [], fun _ => 0⟩

/-- The test at the top of `kfree` that leads to `panic("kfree")`. -/
def badPa (cfg : Cfg) (pa : Nat) : Prop :=
  pa % PGSIZE ≠ 0 ∨ pa < cfg.kernelEnd ∨ pa ≥ cfg.PHYSTOP

instance (cfg : Cfg) (pa : Nat) : Decidable (badPa cfg pa) := by
  unfold badPa; infer_instance

/-- The core whose list `kfree` pushes onto: `cpu_id`, or the running core `cur` (the value of
`cpuid()`) when `cpu_id == -1`. -/
def ownerCore (cur : Nat) (cpu_id : Int) : Nat := if cpu_id = -1 then cur else cpu_id.toNat

/-- `kfree(pa, cpu_id)` run on core `cur`. -/
def kfree (cfg : Cfg) (cur : Nat) (s : KState) (pa : Nat) (cpu_id : Int) : Outcome KState Unit :=
  if badPa cfg pa then .halt s
  else
    let cpu : Nat := ownerCore cur cpu_id
    let num : Int := s.ref (PAGEREFID cfg pa) - 1
    let s1 : KState := { s with ref := Function.update s.ref (PAGEREFID cfg pa) num }
    if num > 0 then .ret s1 ()
    else .ret { s1 with kmem := Function.update s1.kmem cpu (pa :: s1.kmem cpu) } ()

/-- The stealing loop of `kalloc`, `for (i = 0; i < NCPU; i++)`, over the cores still to visit. -/
def kallocSteal (cfg : Cfg) (s : KState) : List Nat → KState × Option Nat
  | [] => (s, none)
  | i :: rest =>
    match s.kmem i with
    | r :: next =>
      ({ kmem := Function.update s.kmem i next,
         ref := Function.update s.ref (PAGEREFID cfg r) 1 }, some r)
    | [] => kallocSteal cfg s rest

/-- `kalloc()` run on core `cpu_id`; `none` is the null pointer. -/
def kalloc (cfg : Cfg) (s : KState) (cpu_id : Nat) : KState × Option Nat :=
  match s.kmem cpu_id with
  | r :: next =>
    ({ kmem := Function.update s.kmem cpu_id next,
       ref := Function.update s.ref (PAGEREFID cfg r) 1 }, some r)
  | [] => kallocSteal cfg s (List.range cfg.NCPU)

/-- `kref(pa)`. -/
def kref (cfg : Cfg) (s : KState) (pa : Nat) : KState :=
  { s with ref := Function.update s.ref (PAGEREFID cfg pa) (s.ref (PAGEREFID cfg pa) + 1) }

/-- The loop of `freerange`; `n` is the number of iterations left, `(pa_end - p) / PGSIZE`. -/
def freerangeLoop (cfg : Cfg) (cur : Nat) (pa_end : Nat) :
    Nat → KState → Nat → Nat → Outcome KState Unit
  | 0, s, _, _ => .ret s ()
  | n + 1, s, p, cpu_id =>
    if p + PGSIZE ≤ pa_end then
      match kfree cfg cur s p cpu_id with
      | .ret s1 _ => freerangeLoop cfg cur pa_end n s1 (p + PGSIZE) ((cpu_id + 1) % cfg.NCPU)
      | .halt s1 => .halt s1
    else .ret s ()

/-- `freerange(pa_start, pa_end)`. -/
def freerange (cfg : Cfg) (cur : Nat) (s : KState) (pa_start pa_end : Nat) :
    Outcome KState Unit :=
  freerangeLoop cfg cur pa_end ((pa_end - PGROUNDUP pa_start) / PGSIZE) s (PGROUNDUP pa_start) 0

/-- `kinit()`: every table entry is set to 1, then the range from `end` to `PHYSTOP` is freed. -/
def kinit (cfg : Cfg) (cur : Nat) (s : KState) : Outcome KState Unit :=
  let s1 : KState :=
    { s with ref := fun i => if i < (cfg.PHYSTOP - cfg.KERNBASE) / PGSIZE then 1 else s.ref i }
  freerange cfg cur s1 cfg.kernelEnd cfg.PHYSTOP

/-- Core `i` gave up its first free frame `r`, whose count became 1; nothing else changed. -/
def Popped (cfg : Cfg) (s s' : KState) (r i : Nat) : Prop :=
  s.kmem i = r :: s'.kmem i ∧ (∀ j, j ≠ i → s'.kmem j = s.kmem j) ∧
    s'.ref = Function.update s.ref (PAGEREFID cfg r) 1

/-- Number of times address `a` occurs on the free lists of the `NCPU` cores, in total. -/
def occ (cfg : Cfg) (s : KState) (a : Nat) : Nat :=
  ((List.range cfg.NCPU).map (fun i => (s.kmem i).count a)).sum

/-- Number of frames on the free lists of the `NCPU` cores, in total. -/
def total (cfg : Cfg) (s : KState) : Nat :=
  ((List.range cfg.NCPU).map (fun i => (s.kmem i).length)).sum

/-- A whole page frame of the managed range: page-aligned, not below `end`, and ending at or
below `PHYSTOP`. -/
def managed (cfg : Cfg) (a : Nat) : Prop :=
  a % PGSIZE = 0 ∧ cfg.kernelEnd ≤ a ∧ a + PGSIZE ≤ cfg.PHYSTOP

instance (cfg : Cfg) (a : Nat) : Decidable (managed cfg a) := by
  unfold managed; infer_instance

/-- The calls of the allocator's interface: `kalloc()` on a core, `kfree(pa, cpu_id)` on core
`cur`, and `kref(pa)`. -/
inductive KOp where
  | alloc (cpu : Nat)
  | free (cur : Nat) (pa : Nat) (cpu_id : Int)
  | incref (pa : Nat)

/-- One call; the value is the pointer `kalloc` returned, `none` for null and for the two
`void` routines. -/
def kstep (cfg : Cfg) (s : KState) : KOp → Outcome KState (Option Nat)
  | .alloc cpu => .ret (kalloc cfg s cpu).1 (kalloc cfg s cpu).2
  | .free cur pa cpu_id =>
    match kfree cfg cur s pa cpu_id with
    | .ret s1 _ => .ret s1 none
    | .halt s1 => .halt s1
  | .incref pa => .ret (kref cfg s pa) none

/-- The core numbers of a call index `kmem`: the running core is below `NCPU`, and an explicit
`cpu_id` is `-1` or below `NCPU`. -/
def coresOk (cfg : Cfg) : KOp → Prop
  | .alloc cpu => cpu < cfg.NCPU
  | .free cur _ cpu_id => ownerCore cur cpu_id < cfg.NCPU ∧ -1 ≤ cpu_id
  | .incref _ => True

instance (cfg : Cfg) (op : KOp) : Decidable (coresOk cfg op) := by
  cases op <;> (unfold coresOk; infer_instance)

/-- No restriction on how the interface is used. -/
def anyUse : KState → KOp → Prop := fun _ _ => True

/-- The usage the comment on `kfree` asks for: `kfree` and `kref` are applied to a frame somebody
holds, one whose count is at least 1. -/
def heldUse (cfg : Cfg) : KState → KOp → Prop
  | _, .alloc _ => True
  | s, .free _ pa _ => 1 ≤ s.ref (PAGEREFID cfg pa)
  | s, .incref pa => 1 ≤ s.ref (PAGEREFID cfg pa)

instance (cfg : Cfg) (s : KState) (op : KOp) : Decidable (heldUse cfg s op) := by
  cases op <;> (unfold heldUse; infer_instance)

/-- States reached from `kinit` on the zeroed globals by calls that return and satisfy `use`. -/
inductive Reach (cfg : Cfg) (use : KState → KOp → Prop) : KState → Prop where
  | init (cur : Nat) (s0 : KState) (h : kinit cfg cur boot = .ret s0 ()) : Reach cfg use s0
  | step (s s1 : KState) (op : KOp) (v : Option Nat) (hs : Reach cfg use s)
      (hc : coresOk cfg op) (hu : use s op) (h : kstep cfg s op = .ret s1 v) : Reach cfg use s1

/-- A sequence of calls, run until one panics; the value lists what each call returned. -/
def kexec (cfg : Cfg) : KState → List KOp → Outcome KState (List (Option Nat))
  | s, [] => .ret s []
  | s, op :: ops =>
    match kstep cfg s op with
    | .ret s1 v =>
      match kexec cfg s1 ops with
      | .ret s2 vs => .ret s2 (v :: vs)
      | .halt s2 => .halt s2
    | .halt s1 => .halt s1

/-- Number of `kref` calls of a sequence that address the frame of `a`. -/
def countRef (cfg : Cfg) (a : Nat) : List KOp → Nat
  | [] => 0
  | .incref pa :: ops =>
    (if PAGEREFID cfg pa = PAGEREFID cfg a then 1 else 0) + countRef cfg a ops
  | _ :: ops => countRef cfg a ops

/-- Number of `kfree` calls of a sequence whose address is `a`. -/
def countFree (a : Nat) : List KOp → Nat
  | [] => 0
  | .free _ pa _ :: ops => (if pa = a then 1 else 0) + countFree a ops
  | _ :: ops => countFree a ops

/-- Successive `kalloc` calls, one from each core of the list, with what each returned. -/
def kallocMany (cfg : Cfg) : KState → List Nat → KState × List (Option Nat)
  | s, [] => (s, [])
  | s, cpu :: cpus =>
    ((kallocMany cfg (kalloc cfg s cpu).1 cpus).1,
      (kalloc cfg s cpu).2 :: (kallocMany cfg (kalloc cfg s cpu).1 cpus).2)

/-- Every address on a free list is one `kfree` accepts. -/
def ListsValid (cfg : Cfg) (s : KState) : Prop :=
  ∀ i r, r ∈ s.kmem i → ¬ badPa cfg r

/-- The free-list invariant: an address `kfree` accepts is on the free lists at most once, and
then its count is 0; a whole frame of the managed range whose count is 0 is on them. -/
def Inv (cfg : Cfg) (s : KState) : Prop :=
  ListsValid cfg s ∧
  (∀ a, ¬ badPa cfg a → occ cfg s a ≤ 1 ∧ (occ cfg s a = 1 → s.ref (PAGEREFID cfg a) = 0)) ∧
  (∀ a, managed cfg a → s.ref (PAGEREFID cfg a) = 0 → occ cfg s a = 1)

/-- A small machine used to evaluate the allocator: 2 cores, memory from 4096 to 20480, kernel
image ending at 4196, hence the three whole frames 8192, 12288 and 16384. -/
def demoCfg : Cfg := ⟨2, 4096, 20480, 4196⟩

/-- A machine with a pool of exactly 4 page frames, 8192 to 20480, and 2 cores. -/
def poolCfg : Cfg := ⟨2, 4096, 24576, 4196⟩

/-- The allocator of `demoCfg` right after `kinit`: core 0 holds 16384 and 8192, core 1 holds
12288, and these three frames have count 0. -/
def demoState : KState := (kinit demoCfg 0 boot).state

/-- A run on the demo machine after `kalloc` on core 0 returned 16384: share the frame, drop one
reference, allocate on core 1 (which returns 12288), share the frame again. -/
def demoOps : List KOp := [.incref 16384, .free 0 16384 1, .alloc 1, .incref 16384]

end Kalloc

namespace Kalloc

/-- The inner loop of `kcollect`, `for(r = kmem[i].freelist; r; r = r->next) amount += PGSIZE`,
along one chain; `amount` is a `uint64`. -/
def kcollectChain (amount : Nat) : List Nat → Nat
  | [] => amount
  | _ :: rest => kcollectChain ((amount + PGSIZE) % 2 ^ 64) rest

/-- The outer loop of `kcollect`, `for (i = 0; i < NCPU; i++)`, over the cores still to
visit. -/
def kcollectLoop (s : KState) : Nat → List Nat → Nat
  | amount, [] => amount
  | amount, i :: rest => kcollectLoop s (kcollectChain amount (s.kmem i)) rest

/-- `kcollect()`: the state it leaves and the amount it returns. -/
def kcollect (cfg : Cfg) (s : KState) : KState × Nat :=
  (s, kcollectLoop s 0 (List.range cfg.NCPU))

/-- The `k`-th whole page frame of the managed range, counted from 0 at the first page-aligned
address at or after `end`. -/
def frameAt (cfg : Cfg) (k : Nat) : Nat := PGROUNDUP cfg.kernelEnd + k * PGSIZE

/-- The number of whole page frames between `end` and `PHYSTOP`. -/
def frameCount (cfg : Cfg) : Nat := (cfg.PHYSTOP - PGROUNDUP cfg.kernelEnd) / PGSIZE

/-- A machine of 3 cores whose memory ends 100 bytes into a page: 4 whole frames, 8192 to
20480, and a partial page at 24576. -/
def oddCfg : Cfg := ⟨3, 4096, 24676, 4196⟩

end Kalloc

namespace Bio

/-- Compile-time configuration supplied from outside `bio.c` (`param.h`): the size of the buffer
pool and the number of hash buckets. -/
structure BioCfg where
  NBUF : Nat
  NBUFHASH : Nat

/-- The fields of `struct buf` that `bio.c` reads or writes, except the list links and the sleep
lock.  Modelled from the spec: `buf.h` is not among the sources.  The reference count is the
"count of outstanding logical owners", kept as an integer; it agrees with a 32-bit unsigned
counter on every run with fewer than 2^32 count updates, a decrement of 0 giving a non-zero
count in both.  The payload is the list of the block's bytes. -/
structure Buf where
  valid : Bool
  dev : Nat
  blockno : Nat
  refcnt : Int
  data : List Nat

/-- The global `bcache`: `buf b` is `bcache.buf[b]`, and `head i` is the ring of bucket `i`,
the buffers met from `bcache.head[i].next` on following `next`, most recently used first. -/
structure Bcache where
  buf : Nat → Buf
  head : Nat → List Nat

/-- The zero-initialised global before `binit`. -/
def bootCache : Bcache := ⟨fun _ => ⟨false, 0, 0, 0, []⟩, fun _ => []⟩

/-- The second loop of `binit`: `n` buffers are still to be linked, `b` is the next one, each is
put right after the head of `bucket`. -/
def binitLoop (cfg : BioCfg) : Nat → Nat → Nat → (Nat → List Nat) → Nat → List Nat
  | 0, _, _, head => head
  | n + 1, b, bucket, head =>
    binitLoop cfg n (b + 1) ((bucket + 1) % cfg.NBUFHASH)
      (Function.update head bucket (b :: head bucket))

/-- `binit()`: every ring is made empty, then the buffers are dealt to the buckets in turn. -/
def binit (cfg : BioCfg) (s : Bcache) : Bcache :=
  { buf := s.buf
    head := binitLoop cfg cfg.NBUF 0 0 (fun i => if i < cfg.NBUFHASH then [] else s.head i) }

/-- The test `b->dev == dev && b->blockno == blockno`. -/
def isBlock (s : Bcache) (dev blockno : Nat) (b : Nat) : Bool :=
  decide ((s.buf b).dev = dev ∧ (s.buf b).blockno = blockno)

/-- The test `b->refcnt == 0`. -/
def isUnused (s : Bcache) (b : Nat) : Bool := decide ((s.buf b).refcnt = 0)

/-- The scan `for(b = head.prev; b != &head; b = b->prev)` for an unused buffer: the ring is
walked backwards, from the least recently used end. -/
def lruUnused (s : Bcache) (i : Nat) : Option Nat := (s.head i).reverse.find? (isUnused s)

/-- The four assignments `b->dev = dev; b->blockno = blockno; b->valid = 0; b->refcnt = 1`. -/
def relabel (x : Buf) (dev blockno : Nat) : Buf :=
  { x with dev := dev, blockno := blockno, valid := false, refcnt := 1 }

/-- The statement `b->refcnt++`. -/
def incr (s : Bcache) (b : Nat) : Bcache :=
  { s with buf := Function.update s.buf b { s.buf b with refcnt := (s.buf b).refcnt + 1 } }

/-- The statement `b->refcnt--`. -/
def decr (s : Bcache) (b : Nat) : Bcache :=
  { s with buf := Function.update s.buf b { s.buf b with refcnt := (s.buf b).refcnt - 1 } }

/-- Buffer `b` recycled where it is: only its label changes. -/
def recycled (s : Bcache) (b dev blockno : Nat) : Bcache :=
  { s with buf := Function.update s.buf b (relabel (s.buf b) dev blockno) }

/-- Buffer `b` unlinked from the ring of bucket `i`, linked right after the head of `bucket`, and
relabelled. -/
def stolen (s : Bcache) (b dev blockno i bucket : Nat) : Bcache :=
  { buf := Function.update s.buf b (relabel (s.buf b) dev blockno)
    head := Function.update (Function.update s.head i ((s.head i).erase b)) bucket
      (b :: s.head bucket) }

/-- Buffer `b` unlinked from whichever ring it is in and linked right after the head of
`bucket`. -/
def relinked (s : Bcache) (b bucket : Nat) : Bcache :=
  { s with head := fun i =>
      if i = bucket then b :: (s.head i).erase b else (s.head i).erase b }

/-- The loop of `bget` over the other buckets, `for (i = 0; i < NBUFHASH; i++)`, given the
buckets still to visit; it ends in `panic("bget: no buffers")`. -/
def bgetSteal (s : Bcache) (dev blockno bucket : Nat) : List Nat → Outcome Bcache Nat
  | [] => .halt s
  | i :: rest =>
    if i = bucket then bgetSteal s dev blockno bucket rest
    else
      match lruUnused s i with
      | some b => .ret (stolen s b dev blockno i bucket) b
      | none => bgetSteal s dev blockno bucket rest

/-- `bget(dev, blockno)` up to the point where the bucket locks are released: the buffer it
chooses and the cache it leaves.  The sleep lock of a buffer is an external primitive;
`acquiresleep`, which may suspend the caller afterwards, does not touch the cache. -/
def bget (cfg : BioCfg) (s : Bcache) (dev blockno : Nat) : Outcome Bcache Nat :=
  let bucket := blockno % cfg.NBUFHASH
  match (s.head bucket).find? (isBlock s dev blockno) with
  | some b => .ret (incr s b) b
  | none =>
    match lruUnused s bucket with
    | some b => .ret (recycled s b dev blockno) b
    | none => bgetSteal s dev blockno bucket (List.range cfg.NBUFHASH)

/-- `brelse(b)`; `holding` is what `holdingsleep(&b->lock)` answers.  The count is lowered, and
if it is then 0 the buffer is moved right after the head of the bucket computed from its block
number. -/
def brelse (cfg : BioCfg) (s : Bcache) (b : Nat) (holding : Bool) : Outcome Bcache Unit :=
  if !holding then .halt s
  else
    let bucket := (s.buf b).blockno % cfg.NBUFHASH
    if ((decr s b).buf b).refcnt = 0 then .ret (relinked (decr s b) b bucket) ()
    else .ret (decr s b) ()

/-- `bpin(b)`. -/
def bpin (s : Bcache) (b : Nat) : Bcache := incr s b

/-- `bunpin(b)`. -/
def bunpin (s : Bcache) (b : Nat) : Bcache := decr s b

/-- The calls of the cache interface that touch the reference counts and the rings. -/
inductive BOp where
  | get (dev blockno : Nat)
  | release (b : Nat) (holding : Bool)
  | pin (b : Nat)
  | unpin (b : Nat)

/-- One call; the value is the buffer `bget` chose, `none` for the `void` routines. -/
def bstep (cfg : BioCfg) (s : Bcache) : BOp → Outcome Bcache (Option Nat)
  | .get dev blockno =>
    match bget cfg s dev blockno with
    | .ret s1 b => .ret s1 (some b)
    | .halt s1 => .halt s1
  | .release b holding =>
    match brelse cfg s b holding with
    | .ret s1 _ => .ret s1 none
    | .halt s1 => .halt s1
  | .pin b => .ret (bpin s b) none
  | .unpin b => .ret (bunpin s b) none

/-- The ways a call that returns changes the cache: `bget` finds the block cached (`hit`),
recycles the least recently used unused buffer of the home bucket (`recycle`) or of another
bucket (`steal`); `brelse` brings the count to 0 and relinks (`relZero`) or not (`relKeep`);
`bpin`; `bunpin`. -/
inductive Change (cfg : BioCfg) (s : Bcache) : BOp → Bcache → Option Nat → Prop where
  | hit (dev blockno b : Nat) (l1 l2 : List Nat)
      (hl : s.head (blockno % cfg.NBUFHASH) = l1 ++ b :: l2)
      (hid : (s.buf b).dev = dev ∧ (s.buf b).blockno = blockno)
      (hfirst : ∀ a ∈ l1, ¬ ((s.buf a).dev = dev ∧ (s.buf a).blockno = blockno)) :
      Change cfg s (.get dev blockno) (incr s b) (some b)
  | recycle (dev blockno b : Nat) (l1 l2 : List Nat)
      (hnone : ∀ a ∈ s.head (blockno % cfg.NBUFHASH),
        ¬ ((s.buf a).dev = dev ∧ (s.buf a).blockno = blockno))
      (hl : s.head (blockno % cfg.NBUFHASH) = l1 ++ b :: l2) (h0 : (s.buf b).refcnt = 0)
      (hno : ∀ a ∈ l2, (s.buf a).refcnt ≠ 0) :
      Change cfg s (.get dev blockno) (recycled s b dev blockno) (some b)
  | steal (dev blockno i b : Nat) (l1 l2 : List Nat) (hi : i < cfg.NBUFHASH)
      (hib : i ≠ blockno % cfg.NBUFHASH)
      (hhome : ∀ a ∈ s.head (blockno % cfg.NBUFHASH),
        ¬ ((s.buf a).dev = dev ∧ (s.buf a).blockno = blockno) ∧ (s.buf a).refcnt ≠ 0)
      (hl : s.head i = l1 ++ b :: l2) (h0 : (s.buf b).refcnt = 0)
      (hno : ∀ a ∈ l2, (s.buf a).refcnt ≠ 0) :
      Change cfg s (.get dev blockno) (stolen s b dev blockno i (blockno % cfg.NBUFHASH))
        (some b)
  | relZero (b : Nat) (h1 : (s.buf b).refcnt = 1) :
      Change cfg s (.release b true)
        (relinked (decr s b) b ((s.buf b).blockno % cfg.NBUFHASH)) none
  | relKeep (b : Nat) (h1 : (s.buf b).refcnt ≠ 1) :
      Change cfg s (.release b true) (decr s b) none
  | pin (b : Nat) : Change cfg s (.pin b) (incr s b) none
  | unpin (b : Nat) : Change cfg s (.unpin b) (decr s b) none

/-- Book-keeping beside a run: the calls made so far with what they returned, latest first, and
for each buffer the number of the call that last brought its count from non-zero to 0 (0 when
that never happened, the count being 0 since `binit`). -/
structure Ghost where
  hist : List (BOp × Option Nat)
  since : Nat → Nat

/-- The book-keeping after one more call took the cache from `s` to `s1`. -/
def Ghost.record (g : Ghost) (s s1 : Bcache) (op : BOp) (v : Option Nat) : Ghost :=
  { hist := (op, v) :: g.hist
    since := fun b =>
      if (s.buf b).refcnt ≠ 0 ∧ (s1.buf b).refcnt = 0 then g.hist.length + 1 else g.since b }

/-- No restriction on how the interface is used. -/
def anyCalls : Bcache → BOp → Prop := fun _ _ => True

/-- `brelse`, `bpin` and `bunpin` are applied only to a buffer that `bget` returned and that is
not yet fully released: one whose count is at least 1. -/
def heldCalls : Bcache → BOp → Prop
  | _, .get _ _ => True
  | s, .release b _ => 1 ≤ (s.buf b).refcnt
  | s, .pin b => 1 ≤ (s.buf b).refcnt
  | s, .unpin b => 1 ≤ (s.buf b).refcnt

/-- `brelse` is applied only to a buffer whose count is at least 1, and `bunpin` only while
another reference is held, so that it never brings a count to 0. -/
def pinnedCalls : Bcache → BOp → Prop
  | _, .get _ _ => True
  | s, .release b _ => 1 ≤ (s.buf b).refcnt
  | _, .pin _ => True
  | s, .unpin b => 2 ≤ (s.buf b).refcnt

instance (s : Bcache) (op : BOp) : Decidable (heldCalls s op) := by
  cases op <;> (unfold heldCalls; infer_instance)

instance (s : Bcache) (op : BOp) : Decidable (pinnedCalls s op) := by
  cases op <;> (unfold pinnedCalls; infer_instance)

/-- States reached from `binit` on the zeroed global by calls that return and satisfy `use`,
with the book-keeping of the run. -/
inductive BRun (cfg : BioCfg) (use : Bcache → BOp → Prop) : Ghost → Bcache → Prop where
  | init : BRun cfg use ⟨[], fun _ => 0⟩ (binit cfg bootCache)
  | step (g : Ghost) (s s1 : Bcache) (op : BOp) (v : Option Nat) (hr : BRun cfg use g s)
      (hu : use s op) (h : bstep cfg s op = .ret s1 v) : BRun cfg use (g.record s s1 op v) s1

/-- Calls on buffer `b` in a history: the `bget` that chose it and the `bpin` count 1, the
`brelse` and the `bunpin` count -1. -/
def holders (b : Nat) : List (BOp × Option Nat) → Int
  | [] => 0
  | (.get _ _, v) :: h => (if v = some b then 1 else 0) + holders b h
  | (.pin x, _) :: h => (if x = b then 1 else 0) + holders b h
  | (.release x _, _) :: h => holders b h - (if x = b then 1 else 0)
  | (.unpin x, _) :: h => holders b h - (if x = b then 1 else 0)

/-- Two buffers carry the same (device, block number). -/
def sameBlock (s : Bcache) (x y : Nat) : Prop :=
  (s.buf x).dev = (s.buf y).dev ∧ (s.buf x).blockno = (s.buf y).blockno

/-- Every ring is free of repetitions and no buffer is in two rings. -/
def Linked (s : Bcache) : Prop :=
  (∀ i, (s.head i).Nodup) ∧ ∀ i j b, b ∈ s.head i → b ∈ s.head j → i = j

/-- A buffer with a positive count is in the ring of the bucket of its block number. -/
def HeldHome (cfg : BioCfg) (s : Bcache) : Prop :=
  ∀ b, 1 ≤ (s.buf b).refcnt → b ∈ s.head ((s.buf b).blockno % cfg.NBUFHASH)

/-- Of two buffers of one ring that carry the same block, the one further from the head has
count 0. -/
def FirstHeld (s : Bcache) : Prop :=
  ∀ i, (s.head i).Pairwise (fun x y => sameBlock s x y → (s.buf y).refcnt = 0)

/-- Among the unused buffers of a ring, one nearer to the head was brought to count 0 no earlier
than one further from it. -/
def LruOrdered (g : Ghost) (s : Bcache) : Prop :=
  ∀ i, (s.head i).Pairwise
    (fun x y => (s.buf x).refcnt = 0 → (s.buf y).refcnt = 0 → g.since y ≤ g.since x)

/-- A cache of 2 buffers in 1 bucket. -/
def smallCfg : BioCfg := ⟨2, 1⟩

/-- The 2-buffer cache after `binit` and `bget(0, 0)`, which chose buffer 1. -/
def demoHeld : Bcache := (bget smallCfg (binit smallCfg bootCache) 0 0).state

/-- The book-keeping of the run `binit`, `bget(0, 0)`. -/
def demoGhost : Ghost :=
  Ghost.record ⟨[], fun _ => 0⟩ (binit smallCfg bootCache) demoHeld (.get 0 0) (some 1)

/-- The run continued by `bget(1, 5)`, which recycles buffer 0. -/
def lruS2 : Bcache := (bget smallCfg demoHeld 1 5).state

/-- The book-keeping after `bget(1, 5)`. -/
def lruG2 : Ghost := demoGhost.record demoHeld lruS2 (.get 1 5) (some 0)

/-- The run continued by `brelse` of buffer 1 (call 3), which brings its count to 0. -/
def lruS3 : Bcache := (brelse smallCfg lruS2 1 true).state

/-- The book-keeping after `brelse` of buffer 1. -/
def lruG3 : Ghost := lruG2.record lruS2 lruS3 (.release 1 true) none

/-- The run continued by `bunpin` of buffer 0 (call 4), which brings its count to 0 without
moving it. -/
def lruS4 : Bcache := bunpin lruS3 0

/-- The book-keeping after `bunpin` of buffer 0. -/
def lruG4 : Ghost := lruG3.record lruS3 lruS4 (.unpin 0) none

/-- The run continued instead by `brelse` of buffer 0 (call 4). -/
def lruT4 : Bcache := (brelse smallCfg lruS3 0 true).state

/-- The book-keeping after `brelse` of buffer 0. -/
def lruH4 : Ghost := lruG3.record lruS3 lruT4 (.release 0 true) none

end Bio

namespace Bio

/-- `brelse`, `bpin` and `bunpin` are handed a buffer of the pool, `&bcache.buf[b]` with
`b < NBUF`; nothing else is asked of the calls. -/
def poolCalls (cfg : BioCfg) : Bcache → BOp → Prop
  | _, .get _ _ => True
  | _, .release b _ => b < cfg.NBUF
  | _, .pin b => b < cfg.NBUF
  | _, .unpin b => b < cfg.NBUF

instance (cfg : BioCfg) (s : Bcache) (op : BOp) : Decidable (poolCalls cfg s op) := by
  cases op <;> (unfold poolCalls; infer_instance)

/-- The rings hold buffers of the pool in buckets that exist, and every buffer of the pool is
in a ring. -/
def Pooled (cfg : BioCfg) (s : Bcache) : Prop :=
  (∀ j x, x ∈ s.head j → j < cfg.NBUFHASH ∧ x < cfg.NBUF) ∧
  ∀ x, x < cfg.NBUF → ∃ i, x ∈ s.head i

/-- What `bget` does to locks, in program order: `acquire` and `release` of the spin lock of a
bucket, `acquiresleep` of the content lock of a buffer, the `return`, and the `panic`. -/
inductive LockEv where
  | acquire (i : Nat)
  | release (i : Nat)
  | acquiresleep (b : Nat)
  | done
  | stop
  deriving DecidableEq

/-- The lock events of the loop of `bget` over the other buckets; `first` and `second` are the
two bucket numbers in increasing order, as the code computes them. -/
def bgetStealEv (s : Bcache) (bucket : Nat) : List Nat → List LockEv
  | [] => [.stop]
  | i :: rest =>
    if i = bucket then bgetStealEv s bucket rest
    else
      let first := if bucket > i then i else bucket
      let second := if bucket > i then bucket else i
      match lruUnused s i with
      | some b =>
        [.acquire first, .acquire second, .release second, .release first,
          .acquiresleep b, .done]
      | none =>
        [.acquire first, .acquire second, .release second, .release first] ++
          bgetStealEv s bucket rest

/-- The lock events of `bget(dev, blockno)`, decided by the same scans as `bget`. -/
def bgetEv (cfg : BioCfg) (s : Bcache) (dev blockno : Nat) : List LockEv :=
  let bucket := blockno % cfg.NBUFHASH
  match (s.head bucket).find? (isBlock s dev blockno) with
  | some b => [.acquire bucket, .release bucket, .acquiresleep b, .done]
  | none =>
    match lruUnused s bucket with
    | some b => [.acquire bucket, .release bucket, .acquiresleep b, .done]
    | none =>
      [.acquire bucket, .release bucket] ++ bgetStealEv s bucket (List.range cfg.NBUFHASH)

/-- The lock discipline along a sequence of events, given the bucket locks held before it: a
bucket lock is acquired only while every held bucket lock has a smaller index and fewer than two
are held; a released lock is one that is held; and no bucket lock is held at an `acquiresleep`,
at the `return`, at the `panic`, or when the sequence ends. -/
def locksOk : List Nat → List LockEv → Prop
  | held, [] => held = []
  | held, .acquire i :: evs => (∀ j ∈ held, j < i) ∧ held.length < 2 ∧ locksOk (i :: held) evs
  | held, .release i :: evs => i ∈ held ∧ locksOk (held.erase i) evs
  | held, .acquiresleep _ :: evs => held = [] ∧ locksOk held evs
  | held, .done :: evs => held = [] ∧ locksOk held evs
  | held, .stop :: evs => held = [] ∧ locksOk held evs

/-- A cache of 2 buffers in 2 buckets: buffer 0 in bucket 0, buffer 1 in bucket 1. -/
def pairCfg : BioCfg := ⟨2, 2⟩

/-- The cache of `pairCfg` after `binit` and `bget(1, 0)`, which holds buffer 0 of bucket 0. -/
def pairHeld : Bcache := (bget pairCfg (binit pairCfg bootCache) 1 0).state

end Bio

namespace Bio

/-! ### The cache in front of the disk -/

/-- The buffer cache together with the disk behind it; `disk dev blockno` is the content of the
block with that device and block number. -/
structure Machine where
  cache : Bcache
  disk : Nat → Nat → List Nat

/-- Buffer `b` with its payload replaced by `data`. -/
def setData (s : Bcache) (b : Nat) (data : List Nat) : Bcache :=
  { s with buf := Function.update s.buf b { s.buf b with data := data } }

/-- Modelled from the spec: `virtio_disk_rw(b, write)` of the disk driver, which is not among the
sources, over a disk that is a map from (device, block number) to block contents.  With `write`
set the payload of `b` becomes the content of the block `b` is labelled with; otherwise the
content of that block becomes the payload of `b`. -/
def virtio_disk_rw (m : Machine) (b : Nat) (write : Bool) : Machine :=
  if write then
    { m with disk := fun d n =>
        if d = (m.cache.buf b).dev ∧ n = (m.cache.buf b).blockno then (m.cache.buf b).data
        else m.disk d n }
  else
    { m with cache := setData m.cache b (m.disk (m.cache.buf b).dev (m.cache.buf b).blockno) }

/-- The statement `b->valid = 1`. -/
def setValid (s : Bcache) (b : Nat) : Bcache :=
  { s with buf := Function.update s.buf b { s.buf b with valid := true } }

/-- `bread(dev, blockno)`: the buffer `bget` chose, filled from the disk when its validity flag
is clear. -/
def bread (cfg : BioCfg) (m : Machine) (dev blockno : Nat) : Outcome Machine Nat :=
  match bget cfg m.cache dev blockno with
  | .halt s1 => .halt { m with cache := s1 }
  | .ret s1 b =>
    if (s1.buf b).valid = false then
      .ret
        { (virtio_disk_rw { m with cache := s1 } b false) with
          cache := setValid (virtio_disk_rw { m with cache := s1 } b false).cache b } b
    else .ret { m with cache := s1 } b

/-- `bwrite(b)`; `holding` is what `holdingsleep(&b->lock)` answers. -/
def bwrite (m : Machine) (b : Nat) (holding : Bool) : Outcome Machine Unit :=
  if !holding then .halt m else .ret (virtio_disk_rw m b true) ()

/-- The holder of buffer `b` overwrites its payload ("changing buffer data" in the comment at the
top of `bio.c`); done by the callers of the cache, through the pointer `bread` gave them. -/
def store (m : Machine) (b : Nat) (data : List Nat) : Machine :=
  { m with cache := setData m.cache b data }

/-- The calls on the cache in front of the disk: the calls of `BOp`, `bread`, `bwrite`, and a
change of a buffer's payload by its holder. -/
inductive MOp where
  | cache (op : BOp)
  | read (dev blockno : Nat)
  | write (b : Nat) (holding : Bool)
  | store (b : Nat) (data : List Nat)

/-- One call; the value is the buffer `bget` or `bread` returned, `none` otherwise. -/
def mstep (cfg : BioCfg) (m : Machine) : MOp → Outcome Machine (Option Nat)
  | .cache op =>
    match bstep cfg m.cache op with
    | .ret s1 v => .ret { m with cache := s1 } v
    | .halt s1 => .halt { m with cache := s1 }
  | .read dev blockno =>
    match bread cfg m dev blockno with
    | .ret m1 b => .ret m1 (some b)
    | .halt m1 => .halt m1
  | .write b holding =>
    match bwrite m b holding with
    | .ret m1 _ => .ret m1 none
    | .halt m1 => .halt m1
  | .store b data => .ret (store m b data) none

/-- `brelse`, `bpin` and `bunpin` are applied only to buffers whose count is at least 1. -/
def heldOps : Machine → MOp → Prop
  | m, .cache op => heldCalls m.cache op
  | _, .read _ _ => True
  | _, .write _ _ => True
  | _, .store _ _ => True

instance (m : Machine) (op : MOp) : Decidable (heldOps m op) := by
  cases op <;> (unfold heldOps; infer_instance)

/-- States reached from `binit` on the zeroed global, over any disk, by calls that return and
satisfy `heldOps`. -/
inductive MRun (cfg : BioCfg) : Machine → Prop where
  | init (disk : Nat → Nat → List Nat) : MRun cfg ⟨binit cfg bootCache, disk⟩
  | step (m m1 : Machine) (op : MOp) (v : Option Nat) (hr : MRun cfg m) (hu : heldOps m op)
      (h : mstep cfg m op = .ret m1 v) : MRun cfg m1

/-- Calls that neither write block (`dev`, `blockno`) to the disk nor change the payload of a
buffer labelled with it: all `bget`, `bread`, `brelse`, `bpin` and `bunpin` calls, and `bwrite`
and payload changes on buffers labelled with another block. -/
def quietOp (dev blockno : Nat) : Machine → MOp → Prop
  | _, .cache _ => True
  | _, .read _ _ => True
  | m, .write b _ => ¬ ((m.cache.buf b).dev = dev ∧ (m.cache.buf b).blockno = blockno)
  | m, .store b _ => ¬ ((m.cache.buf b).dev = dev ∧ (m.cache.buf b).blockno = blockno)

instance (dev blockno : Nat) (m : Machine) (op : MOp) : Decidable (quietOp dev blockno m op) := by
  cases op <;> (unfold quietOp; infer_instance)

/-- A finite sequence of returning `quietOp` calls leads from the first machine state to the
second. -/
inductive QuietRun (cfg : BioCfg) (dev blockno : Nat) : Machine → Machine → Prop where
  | done (m : Machine) : QuietRun cfg dev blockno m m
  | step (m m1 m2 : Machine) (op : MOp) (v : Option Nat) (hq : quietOp dev blockno m op)
      (h : mstep cfg m op = .ret m1 v) (hr : QuietRun cfg dev blockno m1 m2) :
      QuietRun cfg dev blockno m m2

/-- Block (`dev`, `blockno`) is still cached in its bucket, or some bucket has an unused buffer:
the condition under which `bget(dev, blockno)` finds a buffer. -/
def available (cfg : BioCfg) (s : Bcache) (dev blockno : Nat) : Prop :=
  (∃ a ∈ s.head (blockno % cfg.NBUFHASH), (s.buf a).dev = dev ∧ (s.buf a).blockno = blockno) ∨
  ∃ i, i < cfg.NBUFHASH ∧ ∃ a ∈ s.head i, (s.buf a).refcnt = 0

/-- Of two buffers of one ring that carry the same block, the one further from the head has a
clear validity flag. -/
def FirstValid (s : Bcache) : Prop :=
  ∀ i, (s.head i).Pairwise (fun x y => sameBlock s x y → (s.buf y).valid = false)

/-- A buffer whose validity flag is set is in the ring of the bucket of its block number. -/
def ValidHome (cfg : BioCfg) (s : Bcache) : Prop :=
  ∀ b, (s.buf b).valid = true → b ∈ s.head ((s.buf b).blockno % cfg.NBUFHASH)

/-- The ring invariants of a cache that is used as intended. -/
def Sound (cfg : BioCfg) (s : Bcache) : Prop :=
  Linked s ∧ HeldHome cfg s ∧ FirstHeld s ∧ FirstValid s ∧ ValidHome cfg s

/-- The disk holds `c` as block (`dev`, `blockno`), and so does every buffer labelled with that
block whose validity flag is set. -/
def Coherent (dev blockno : Nat) (c : List Nat) (m : Machine) : Prop :=
  m.disk dev blockno = c ∧
  ∀ x, (m.cache.buf x).dev = dev → (m.cache.buf x).blockno = blockno →
    (m.cache.buf x).valid = true → (m.cache.buf x).data = c

/-- A cache of 1 buffer in 1 bucket. -/
def oneCfg : BioCfg := ⟨1, 1⟩

/-- The 1-buffer cache over an empty disk after `binit`, `bread(0, 5)`, which returned buffer 0,
and the holder setting its payload to `[7]`. -/
def fullM : Machine :=
  store (bread oneCfg ⟨binit oneCfg bootCache, fun _ _ => []⟩ 0 5).state 0 [7]

/-- The run continued by `bwrite` of buffer 0. -/
def fullM1 : Machine := (bwrite fullM 0 true).state

/-- The run continued by `brelse` of buffer 0, which brings its count to 0. -/
def fullM2 : Machine := (mstep oneCfg fullM1 (.cache (.release 0 true))).state

/-- The run continued by `bread(0, 9)`, which recycles buffer 0 and holds it. -/
def fullM3 : Machine := (bread oneCfg fullM2 0 9).state

/-- The 2-buffer, 1-bucket cache over an empty disk after `binit`, `bread(0, 5)`, which returned
buffer 0, and the holder setting its payload to `[7]`. -/
def wrM : Machine :=
  store (bread smallCfg ⟨binit smallCfg bootCache, fun _ _ => []⟩ 0 5).state 0 [7]

/-- The run continued by `bwrite` of buffer 0. -/
def wrM1 : Machine := (bwrite wrM 0 true).state

/-- The run continued by `brelse` of buffer 0. -/
def wrM2 : Machine := (mstep smallCfg wrM1 (.cache (.release 0 true))).state

/-- The run continued by `bread(0, 9)`, which recycles buffer 1. -/
def wrM3 : Machine := (bread smallCfg wrM2 0 9).state

/-- The run continued by `bread(0, 13)`, which recycles buffer 0, the only unused one. -/
def wrM4 : Machine := (bread smallCfg wrM3 0 13).state

/-- The run continued by `brelse` of buffer 1. -/
def wrM5 : Machine := (mstep smallCfg wrM4 (.cache (.release 1 true))).state

/-- The run continued by `brelse` of buffer 0. -/
def wrM6 : Machine := (mstep smallCfg wrM5 (.cache (.release 0 true))).state

end Bio

namespace Bio

/-! ### `bget` one critical section at a time -/

/-- Where a `bget` call stands between two of its critical sections: before the section under
the lock of the home bucket; in the loop over the other buckets, before iteration `i`; past the
release of the bucket locks with buffer `b` chosen; stopped in `panic("bget: no buffers")`. -/
inductive GetPc where
  | home
  | visit (i : Nat)
  | got (b : Nat)
  | stuck
  deriving DecidableEq

/-- The next critical section of a `bget(dev, blockno)` call that stands at the given point, run
on the cache as it is then.  At `home`: from `acquire(&bcache.lock[bucket])` to the `release` of
that lock, the scan for the cached block and the scan for an unused buffer of the home ring.  At
`visit i`: one iteration of `for (int i = 0; i < NBUFHASH; i++)`, which skips the home bucket
and otherwise scans the ring of bucket `i` under the locks of both buckets; the home ring is not
scanned again.  A call that has chosen a buffer or has stopped does nothing more. -/
def bgetSection (cfg : BioCfg) (s : Bcache) (dev blockno : Nat) : GetPc → Bcache × GetPc
  | .home =>
    match (s.head (blockno % cfg.NBUFHASH)).find? (isBlock s dev blockno) with
    | some b => (incr s b, .got b)
    | none =>
      match lruUnused s (blockno % cfg.NBUFHASH) with
      | some b => (recycled s b dev blockno, .got b)
      | none => (s, .visit 0)
  | .visit i =>
    if i < cfg.NBUFHASH then
      if i = blockno % cfg.NBUFHASH then (s, .visit (i + 1))
      else
        match lruUnused s i with
        | some b => (stolen s b dev blockno i (blockno % cfg.NBUFHASH), .got b)
        | none => (s, .visit (i + 1))
    else (s, .stuck)
  | .got b => (s, .got b)
  | .stuck => (s, .stuck)

/-- The next `n` critical sections of one `bget(dev, blockno)` call, with no other call in
between. -/
def bgetRun (cfg : BioCfg) (dev blockno : Nat) : Nat → Bcache × GetPc → Bcache × GetPc
  | 0, x => x
  | n + 1, x => bgetRun cfg dev blockno n (bgetSection cfg x.1 dev blockno x.2)

/-- The point a finished `bget` stands at, with the cache it leaves. -/
def endOf : Outcome Bcache Nat → Bcache × GetPc
  | .ret s b => (s, .got b)
  | .halt s => (s, .stuck)

/-- A `bget(dev, blockno)` call in progress on some core. -/
structure Getter where
  dev : Nat
  blockno : Nat
  pc : GetPc

/-- One critical section of the call `g`. -/
def Getter.advance (cfg : BioCfg) (s : Bcache) (g : Getter) : Bcache × Getter :=
  ((bgetSection cfg s g.dev g.blockno g.pc).1,
    { g with pc := (bgetSection cfg s g.dev g.blockno g.pc).2 })

/-- Two `bget` calls on two cores.  The bucket locks make their critical sections run one at a
time; the schedule gives the order, `false` for the next section of the first call and `true`
for the next section of the second. -/
def overlap (cfg : BioCfg) : Bcache × Getter × Getter → List Bool → Bcache × Getter × Getter
  | x, [] => x
  | x, false :: rest => overlap cfg ((x.2.1.advance cfg x.1).1, (x.2.1.advance cfg x.1).2, x.2.2) rest
  | x, true :: rest => overlap cfg ((x.2.2.advance cfg x.1).1, x.2.1, (x.2.2.advance cfg x.1).2) rest

/-- A cache of 3 buffers in 2 buckets: buffers 0 and 2 in bucket 0, buffer 1 in bucket 1. -/
def raceCfg : BioCfg := ⟨3, 2⟩

/-- The cache of `raceCfg` after `binit` and `bget(1, 1)`, which holds buffer 1, the only buffer
of bucket 1. -/
def raceHeld : Bcache := (bget raceCfg (binit raceCfg bootCache) 1 1).state

/-- The book-keeping of the run `binit`, `bget(1, 1)`. -/
def raceGhost : Ghost :=
  Ghost.record ⟨[], fun _ => 0⟩ (binit raceCfg bootCache) raceHeld (.get 1 1) (some 1)

/-- Two calls `bget(1, 3)` started on `raceHeld`, their critical sections taken in turn: both
miss in bucket 1, then each visits bucket 0. -/
def raceEnd : Bcache × Getter × Getter :=
  overlap raceCfg (raceHeld, ⟨1, 3, .home⟩, ⟨1, 3, .home⟩) [false, true, false, true]

/-- The same two calls `bget(1, 3)`, the second started when the first has finished. -/
def raceSeq : Bcache × Getter × Getter :=
  overlap raceCfg (raceHeld, ⟨1, 3, .home⟩, ⟨1, 3, .home⟩) [false, false, true]

end Bio
namespace Kalloc

/-! ### Sums over the cores -/

theorem sum_range_congr (f g : Nat → Nat) (n : Nat) (h : ∀ j, j < n → g j = f j) :
    ((List.range n).map g).sum = ((List.range n).map f).sum := by
  congr 1
  apply List.map_congr_left
  intro j hj
  exact h j (List.mem_range.mp hj)

theorem sum_range_update (f g : Nat → Nat) (n i : Nat) (hi : i < n)
    (h : ∀ j, j ≠ i → g j = f j) :
    ((List.range n).map g).sum + f i = ((List.range n).map f).sum + g i := by
  induction n with
  | zero => omega
  | succ n ih =>
    simp only [List.range_succ, List.map_append, List.sum_append, List.map_cons, List.map_nil,
      List.sum_cons, List.sum_nil, Nat.add_zero]
    by_cases hin : i = n
    · subst hin
      have := sum_range_congr f g i (fun j hj => h j (by omega))
      omega
    · have h1 := ih (by omega)
      have h2 := h n (fun e => hin e.symm)
      omega

theorem sum_range_pos_iff (f : Nat → Nat) (n : Nat) :
    0 < ((List.range n).map f).sum ↔ ∃ i, i < n ∧ 0 < f i := by
  induction n with
  | zero => simp
  | succ n ih =>
    simp only [List.range_succ, List.map_append, List.sum_append, List.map_cons, List.map_nil,
      List.sum_cons, List.sum_nil, Nat.add_zero]
    constructor
    · intro h
      by_cases hn : 0 < f n
      · exact ⟨n, by omega, hn⟩
      · obtain ⟨i, hi, hf⟩ := ih.mp (by omega)
        exact ⟨i, by omega, hf⟩
    · rintro ⟨i, hi, hf⟩
      by_cases hin : i = n
      · subst hin; omega
      · have := ih.mpr ⟨i, by omega, hf⟩
        omega

theorem occ_pos_iff (cfg : Cfg) (s : KState) (a : Nat) :
    0 < occ cfg s a ↔ ∃ i, i < cfg.NCPU ∧ a ∈ s.kmem i := by
  unfold occ
  rw [sum_range_pos_iff]
  simp only [List.count_pos_iff]

theorem occ_eq_zero_iff (cfg : Cfg) (s : KState) (a : Nat) :
    occ cfg s a = 0 ↔ ∀ i, i < cfg.NCPU → a ∉ s.kmem i := by
  have := occ_pos_iff cfg s a
  constructor
  · intro h i hi hmem
    have : 0 < occ cfg s a := this.mpr ⟨i, hi, hmem⟩
    omega
  · intro h
    by_contra hne
    obtain ⟨i, hi, hmem⟩ := this.mp (Nat.pos_of_ne_zero hne)
    exact h i hi hmem

theorem total_eq_zero_iff (cfg : Cfg) (s : KState) :
    total cfg s = 0 ↔ ∀ i, i < cfg.NCPU → s.kmem i = [] := by
  have := sum_range_pos_iff (fun i => (s.kmem i).length) cfg.NCPU
  unfold total
  constructor
  · intro h i hi
    by_contra hne
    have : 0 < ((List.range cfg.NCPU).map (fun i => (s.kmem i).length)).sum :=
      this.mpr ⟨i, hi, List.length_pos.mpr hne⟩
    omega
  · intro h
    by_contra hne
    obtain ⟨i, hi, hpos⟩ := this.mp (Nat.pos_of_ne_zero hne)
    simp [h i hi] at hpos

theorem occ_of_kmem_eq (cfg : Cfg) (s s' : KState) (a : Nat)
    (h : ∀ i, i < cfg.NCPU → s'.kmem i = s.kmem i) : occ cfg s' a = occ cfg s a := by
  unfold occ
  exact sum_range_congr _ _ _ (fun j hj => by rw [h j hj])

theorem total_of_kmem_eq (cfg : Cfg) (s s' : KState)
    (h : ∀ i, i < cfg.NCPU → s'.kmem i = s.kmem i) : total cfg s' = total cfg s := by
  unfold total
  exact sum_range_congr _ _ _ (fun j hj => by rw [h j hj])

theorem occ_popped (cfg : Cfg) (s s' : KState) (r i a : Nat) (hi : i < cfg.NCPU)
    (hp : Popped cfg s s' r i) :
    occ cfg s a = occ cfg s' a + (if a = r then 1 else 0) := by
  obtain ⟨h1, h2, _⟩ := hp
  have := sum_range_update (fun j => (s.kmem j).count a) (fun j => (s'.kmem j).count a)
    cfg.NCPU i hi (fun j hj => by simp only [h2 j hj])
  simp only [h1, List.count_cons] at this
  unfold occ
  by_cases har : a = r
  · subst har; simp at this ⊢; omega
  · have hra : ¬ r = a := fun e => har e.symm
    simp [har, hra] at this ⊢; omega

theorem total_popped (cfg : Cfg) (s s' : KState) (r i : Nat) (hi : i < cfg.NCPU)
    (hp : Popped cfg s s' r i) : total cfg s = total cfg s' + 1 := by
  obtain ⟨h1, h2, _⟩ := hp
  have := sum_range_update (fun j => (s.kmem j).length) (fun j => (s'.kmem j).length)
    cfg.NCPU i hi (fun j hj => by simp only [h2 j hj])
  simp only [h1, List.length_cons] at this
  unfold total
  omega

theorem occ_pushed (cfg : Cfg) (s s' : KState) (pa c a : Nat) (hc : c < cfg.NCPU)
    (h : s'.kmem = Function.update s.kmem c (pa :: s.kmem c)) :
    occ cfg s' a = occ cfg s a + (if a = pa then 1 else 0) := by
  have := sum_range_update (fun j => (s.kmem j).count a) (fun j => (s'.kmem j).count a)
    cfg.NCPU c hc (fun j hj => by simp only [h, Function.update_noteq hj])
  have hcc : s'.kmem c = pa :: s.kmem c := by rw [h, Function.update_same]
  simp only [hcc, List.count_cons] at this
  unfold occ
  by_cases har : a = pa
  · subst har; simp at this ⊢; omega
  · have hra : ¬ pa = a := fun e => har e.symm
    simp [har, hra] at this ⊢; omega

theorem total_pushed (cfg : Cfg) (s s' : KState) (pa c : Nat) (hc : c < cfg.NCPU)
    (h : s'.kmem = Function.update s.kmem c (pa :: s.kmem c)) :
    total cfg s' = total cfg s + 1 := by
  have := sum_range_update (fun j => (s.kmem j).length) (fun j => (s'.kmem j).length)
    cfg.NCPU c hc (fun j hj => by simp only [h, Function.update_noteq hj])
  have hcc : s'.kmem c = pa :: s.kmem c := by rw [h, Function.update_same]
  simp only [hcc, List.length_cons] at this
  unfold total
  omega

/-! ### The table index of a frame -/

theorem PAGEREFID_inj (cfg : Cfg) (a b : Nat) (ha : a % PGSIZE = 0) (hb : b % PGSIZE = 0)
    (hka : cfg.KERNBASE ≤ a) (hkb : cfg.KERNBASE ≤ b)
    (h : PAGEREFID cfg a = PAGEREFID cfg b) : a = b := by
  unfold PAGEREFID PGSIZE at *
  omega

/-! ### `kfree`, case by case -/

theorem kfree_bad (cfg : Cfg) (cur : Nat) (s : KState) (pa : Nat) (cpu_id : Int)
    (h : badPa cfg pa) : kfree cfg cur s pa cpu_id = .halt s := by
  simp [kfree, h]

theorem kfree_keep (cfg : Cfg) (cur : Nat) (s : KState) (pa : Nat) (cpu_id : Int)
    (h : ¬ badPa cfg pa) (hc : 1 < s.ref (PAGEREFID cfg pa)) :
    kfree cfg cur s pa cpu_id =
      .ret ⟨s.kmem, Function.update s.ref (PAGEREFID cfg pa) (s.ref (PAGEREFID cfg pa) - 1)⟩
        () := by
  have : s.ref (PAGEREFID cfg pa) - 1 > 0 := by omega
  simp [kfree, h, this]

theorem kfree_push (cfg : Cfg) (cur : Nat) (s : KState) (pa : Nat) (cpu_id : Int)
    (h : ¬ badPa cfg pa) (hc : s.ref (PAGEREFID cfg pa) ≤ 1) :
    kfree cfg cur s pa cpu_id =
      .ret ⟨Function.update s.kmem (ownerCore cur cpu_id) (pa :: s.kmem (ownerCore cur cpu_id)),
        Function.update s.ref (PAGEREFID cfg pa) (s.ref (PAGEREFID cfg pa) - 1)⟩ () := by
  have : ¬ (s.ref (PAGEREFID cfg pa) - 1 > 0) := by omega
  simp [kfree, h, this]

theorem ownerCore_natCast (cur c : Nat) : ownerCore cur (c : Int) = c := by
  unfold ownerCore
  have : ¬ ((c : Int) = -1) := by omega
  simp [this]

/-! ### `kalloc`, case by case -/

theorem kallocSteal_none (cfg : Cfg) (s : KState) (l : List Nat) :
    (kallocSteal cfg s l).2 = none ↔ ∀ i ∈ l, s.kmem i = [] := by
  induction l with
  | nil => simp [kallocSteal]
  | cons i rest ih =>
    unfold kallocSteal
    cases h : s.kmem i with
    | nil => simpa [h] using ih
    | cons r next => simp [h]

theorem kallocSteal_none_state (cfg : Cfg) (s : KState) (l : List Nat)
    (h : (kallocSteal cfg s l).2 = none) : (kallocSteal cfg s l).1 = s := by
  induction l with
  | nil => simp [kallocSteal]
  | cons i rest ih =>
    unfold kallocSteal at h ⊢
    cases hi : s.kmem i with
    | nil => simp only [hi] at h ⊢; exact ih h
    | cons r next => simp [hi] at h

theorem kallocSteal_some (cfg : Cfg) (s : KState) (l : List Nat) (r : Nat)
    (h : (kallocSteal cfg s l).2 = some r) :
    ∃ i ∈ l, Popped cfg s (kallocSteal cfg s l).1 r i := by
  induction l with
  | nil => simp [kallocSteal] at h
  | cons i rest ih =>
    unfold kallocSteal at h ⊢
    cases hi : s.kmem i with
    | nil =>
      simp only [hi] at h ⊢
      obtain ⟨j, hj, hp⟩ := ih h
      exact ⟨j, List.mem_cons_of_mem _ hj, hp⟩
    | cons r' next =>
      simp only [hi, Option.some.injEq] at h ⊢
      subst h
      refine ⟨i, List.mem_cons_self _ _, ?_, ?_, rfl⟩
      · simp [hi]
      · intro j hj; simp [Function.update_noteq hj]

theorem kalloc_none (cfg : Cfg) (s : KState) (cpu : Nat) (hc : cpu < cfg.NCPU) :
    (kalloc cfg s cpu).2 = none ↔ ∀ i, i < cfg.NCPU → s.kmem i = [] := by
  unfold kalloc
  cases h : s.kmem cpu with
  | nil => simp only [kallocSteal_none, List.mem_range]
  | cons r next =>
    simp only [reduceCtorEq, false_iff]
    intro hall
    simp [hall cpu hc] at h

theorem kalloc_none_state (cfg : Cfg) (s : KState) (cpu : Nat)
    (h : (kalloc cfg s cpu).2 = none) : (kalloc cfg s cpu).1 = s := by
  unfold kalloc at h ⊢
  cases hi : s.kmem cpu with
  | nil => simp only [hi] at h ⊢; exact kallocSteal_none_state cfg s _ h
  | cons r next => simp [hi] at h

theorem kalloc_some (cfg : Cfg) (s : KState) (cpu r : Nat) (hc : cpu < cfg.NCPU)
    (h : (kalloc cfg s cpu).2 = some r) :
    ∃ i, i < cfg.NCPU ∧ Popped cfg s (kalloc cfg s cpu).1 r i := by
  unfold kalloc at h ⊢
  cases hi : s.kmem cpu with
  | nil =>
    simp only [hi] at h ⊢
    obtain ⟨j, hj, hp⟩ := kallocSteal_some cfg s _ r h
    exact ⟨j, List.mem_range.mp hj, hp⟩
  | cons r' next =>
    simp only [hi, Option.some.injEq] at h ⊢
    subst h
    refine ⟨cpu, hc, ?_, ?_, rfl⟩
    · simp [hi]
    · intro j hj; simp [Function.update_noteq hj]

/-- A `kalloc` that returns a frame took it from the head of a list, whatever the core number. -/
theorem kalloc_some_any (cfg : Cfg) (s : KState) (cpu r : Nat)
    (h : (kalloc cfg s cpu).2 = some r) :
    ∃ i, Popped cfg s (kalloc cfg s cpu).1 r i := by
  unfold kalloc at h ⊢
  cases hi : s.kmem cpu with
  | nil =>
    simp only [hi] at h ⊢
    obtain ⟨j, _, hp⟩ := kallocSteal_some cfg s _ r h
    exact ⟨j, hp⟩
  | cons r' next =>
    simp only [hi, Option.some.injEq] at h ⊢
    subst h
    refine ⟨cpu, ?_, ?_, rfl⟩
    · simp [hi]
    · intro j hj; simp [Function.update_noteq hj]

/-! ### `freerange` and `kinit` -/

theorem freerangeLoop_spec (cfg : Cfg) (cur pa_end : Nat)
    (hk : cfg.KERNBASE ≤ cfg.kernelEnd) (hend : pa_end ≤ cfg.PHYSTOP) :
    ∀ (n : Nat) (s : KState) (p c : Nat), p % PGSIZE = 0 → cfg.kernelEnd ≤ p → c < cfg.NCPU →
      n = (pa_end - p) / PGSIZE →
      (∀ q, q % PGSIZE = 0 → p ≤ q → q + PGSIZE ≤ pa_end → s.ref (PAGEREFID cfg q) = 1) →
      ∃ s', freerangeLoop cfg cur pa_end n s p c = .ret s' () ∧
        (∀ a, occ cfg s' a = occ cfg s a +
          if a % PGSIZE = 0 ∧ p ≤ a ∧ a + PGSIZE ≤ pa_end then 1 else 0) ∧
        (∀ q, q % PGSIZE = 0 → p ≤ q → q + PGSIZE ≤ pa_end → s'.ref (PAGEREFID cfg q) = 0) ∧
        (∀ k, (∀ q, q % PGSIZE = 0 → p ≤ q → q + PGSIZE ≤ pa_end → k ≠ PAGEREFID cfg q) →
          s'.ref k = s.ref k) ∧
        total cfg s' = total cfg s + n ∧
        (∀ i r, r ∈ s'.kmem i →
          r ∈ s.kmem i ∨ (r % PGSIZE = 0 ∧ p ≤ r ∧ r + PGSIZE ≤ pa_end)) := by
  intro n
  induction n with
  | zero =>
    intro s p c hp hpe hc hn href
    refine ⟨s, rfl, ?_, ?_, ?_, rfl, ?_⟩
    · intro a
      have : ¬ (a % PGSIZE = 0 ∧ p ≤ a ∧ a + PGSIZE ≤ pa_end) := by
        unfold PGSIZE at *; omega
      simp [this]
    · intro q hq hpq hqe
      exfalso; unfold PGSIZE at *; omega
    · intro k _; rfl
    · intro i r hr; exact Or.inl hr
  | succ n ih =>
    intro s p c hp hpe hc hn href
    have hguard : p + PGSIZE ≤ pa_end := by unfold PGSIZE at *; omega
    have hgood : ¬ badPa cfg p := by unfold badPa; unfold PGSIZE at *; omega
    have hone : s.ref (PAGEREFID cfg p) = 1 := href p hp (le_refl _) hguard
    have hfree := kfree_push cfg cur s p (c : Int) hgood (by omega)
    rw [ownerCore_natCast, hone] at hfree
    have hc' : (c + 1) % cfg.NCPU < cfg.NCPU := Nat.mod_lt _ (by omega)
    obtain ⟨s', hrun, hocc, hz, hoth, htot, hmem⟩ :=
      ih ⟨Function.update s.kmem c (p :: s.kmem c),
          Function.update s.ref (PAGEREFID cfg p) (1 - 1)⟩ (p + PGSIZE) ((c + 1) % cfg.NCPU)
        (by unfold PGSIZE at *; omega) (by omega) hc' (by unfold PGSIZE at *; omega)
        (by
          intro q hq hpq hqe
          have hne : PAGEREFID cfg q ≠ PAGEREFID cfg p := by
            intro e
            have := PAGEREFID_inj cfg q p hq hp (by omega) (by omega) e
            unfold PGSIZE at *; omega
          simp only [Function.update_noteq hne]
          exact href q hq (by omega) hqe)
    refine ⟨s', ?_, ?_, ?_, ?_, ?_, ?_⟩
    · simp only [freerangeLoop, hguard, if_true, hfree]
      exact hrun
    · intro a
      rw [hocc a, occ_pushed cfg s _ p c a hc rfl]
      by_cases hap : a = p
      · subst hap
        have h1 : ¬ (a % PGSIZE = 0 ∧ a + PGSIZE ≤ a ∧ a + PGSIZE ≤ pa_end) := by
          unfold PGSIZE; omega
        have h2 : a % PGSIZE = 0 ∧ a ≤ a ∧ a + PGSIZE ≤ pa_end := ⟨hp, le_refl _, hguard⟩
        rw [if_neg h1, if_pos h2, if_pos rfl]
      · by_cases hin : a % PGSIZE = 0 ∧ p ≤ a ∧ a + PGSIZE ≤ pa_end
        · have h1 : a % PGSIZE = 0 ∧ p + PGSIZE ≤ a ∧ a + PGSIZE ≤ pa_end := by
            unfold PGSIZE at *; omega
          simp [hap, hin, h1]
        · have h1 : ¬ (a % PGSIZE = 0 ∧ p + PGSIZE ≤ a ∧ a + PGSIZE ≤ pa_end) := by
            unfold PGSIZE at *; omega
          simp [hap, hin, h1]
    · intro q hq hpq hqe
      by_cases hqp : q = p
      · subst hqp
        rw [hoth]
        · simp
        · intro q' hq' hpq' _ e
          have := PAGEREFID_inj cfg q q' hp hq' (by omega) (by unfold PGSIZE at *; omega) e
          unfold PGSIZE at *; omega
      · exact hz q hq (by unfold PGSIZE at *; omega) hqe
    · intro k hk'
      rw [hoth k (fun q hq hpq hqe => hk' q hq (by omega) hqe)]
      have hne : k ≠ PAGEREFID cfg p := hk' p hp (le_refl _) hguard
      simp [Function.update_noteq hne]
    · rw [htot, total_pushed cfg s _ p c hc rfl]; omega
    · intro i r hr
      rcases hmem i r hr with h | h
      · by_cases hic : i = c
        · subst hic
          simp only [Function.update_same, List.mem_cons] at h
          rcases h with h | h
          · subst h; exact Or.inr ⟨hp, le_refl _, hguard⟩
          · exact Or.inl h
        · simp only [Function.update_noteq hic] at h
          exact Or.inl h
      · exact Or.inr ⟨h.1, by omega, h.2.2⟩

theorem PGROUNDUP_spec (x : Nat) :
    PGROUNDUP x % PGSIZE = 0 ∧ x ≤ PGROUNDUP x ∧ PGROUNDUP x < x + PGSIZE := by
  unfold PGROUNDUP PGSIZE
  omega

theorem occ_boot (cfg : Cfg) (a : Nat) : occ cfg boot a = 0 := by
  rw [occ_eq_zero_iff]
  intro i _
  simp [boot]

theorem total_boot (cfg : Cfg) : total cfg boot = 0 := by
  rw [total_eq_zero_iff]
  intro i _
  simp [boot]

/-- What `kinit` leaves behind when run on the zeroed globals. -/
theorem kinit_spec (cfg : Cfg) (cur : Nat) (hn : 0 < cfg.NCPU)
    (hk : cfg.KERNBASE ≤ cfg.kernelEnd) :
    ∃ s0, kinit cfg cur boot = .ret s0 () ∧
      (∀ a, occ cfg s0 a = if managed cfg a then 1 else 0) ∧
      (∀ a, managed cfg a → s0.ref (PAGEREFID cfg a) = 0) ∧
      total cfg s0 = (cfg.PHYSTOP - PGROUNDUP cfg.kernelEnd) / PGSIZE ∧
      (∀ i r, r ∈ s0.kmem i → managed cfg r) := by
  obtain ⟨hal, hge, hlt⟩ := PGROUNDUP_spec cfg.kernelEnd
  obtain ⟨s0, hrun, hocc, hz, _, htot, hmem⟩ :=
    freerangeLoop_spec cfg cur cfg.PHYSTOP hk (le_refl _)
      ((cfg.PHYSTOP - PGROUNDUP cfg.kernelEnd) / PGSIZE)
      ⟨boot.kmem, fun i => if i < (cfg.PHYSTOP - cfg.KERNBASE) / PGSIZE then 1 else boot.ref i⟩
      (PGROUNDUP cfg.kernelEnd) 0 hal hge hn rfl
      (by
        intro q hq hpq hqe
        have : PAGEREFID cfg q < (cfg.PHYSTOP - cfg.KERNBASE) / PGSIZE := by
          unfold PAGEREFID PGSIZE at *; omega
        simp [this])
  have hman : ∀ a, managed cfg a ↔
      a % PGSIZE = 0 ∧ PGROUNDUP cfg.kernelEnd ≤ a ∧ a + PGSIZE ≤ cfg.PHYSTOP := by
    intro a
    unfold managed
    unfold PGSIZE at *
    omega
  refine ⟨s0, ?_, ?_, ?_, ?_, ?_⟩
  · exact hrun
  · intro a
    rw [hocc a]
    have h0 : occ cfg ⟨boot.kmem, fun i =>
        if i < (cfg.PHYSTOP - cfg.KERNBASE) / PGSIZE then 1 else boot.ref i⟩ a = 0 := by
      exact (occ_of_kmem_eq cfg boot _ a (fun _ _ => rfl)).trans (occ_boot cfg a)
    rw [h0]
    simp only [hman a, Nat.zero_add]
  · intro a ha
    obtain ⟨h1, h2, h3⟩ := (hman a).mp ha
    exact hz a h1 h2 h3
  · have h0 := (total_of_kmem_eq cfg boot ⟨boot.kmem, fun i =>
        if i < (cfg.PHYSTOP - cfg.KERNBASE) / PGSIZE then 1 else boot.ref i⟩
        (fun _ _ => rfl)).trans (total_boot cfg)
    rw [htot, h0]
    omega
  · intro i r hr
    rcases hmem i r hr with h | h
    · simp [boot] at h
    · exact (hman r).mpr h

/-! ### The free-list invariant -/

theorem managed_not_bad (cfg : Cfg) (a : Nat) (h : managed cfg a) : ¬ badPa cfg a := by
  unfold managed at h
  unfold badPa
  unfold PGSIZE at *
  omega

theorem not_bad_iff (cfg : Cfg) (a : Nat) :
    ¬ badPa cfg a ↔ a % PGSIZE = 0 ∧ cfg.kernelEnd ≤ a ∧ a < cfg.PHYSTOP := by
  unfold badPa
  omega

theorem PAGEREFID_ne (cfg : Cfg) (hk : cfg.KERNBASE ≤ cfg.kernelEnd) (a b : Nat)
    (ha : ¬ badPa cfg a) (hb : ¬ badPa cfg b) (hab : a ≠ b) :
    PAGEREFID cfg a ≠ PAGEREFID cfg b := by
  rw [not_bad_iff] at ha hb
  intro e
  exact hab (PAGEREFID_inj cfg a b ha.1 hb.1 (by omega) (by omega) e)

theorem popped_mem (cfg : Cfg) (s s' : KState) (r i : Nat) (hp : Popped cfg s s' r i)
    (j x : Nat) (hx : x ∈ s'.kmem j) : x ∈ s.kmem j := by
  obtain ⟨h1, h2, _⟩ := hp
  by_cases hji : j = i
  · subst hji; rw [h1]; exact List.mem_cons_of_mem _ hx
  · rw [← h2 j hji]; exact hx

theorem listsValid_kalloc (cfg : Cfg) (s : KState) (cpu : Nat) (h : ListsValid cfg s) :
    ListsValid cfg (kalloc cfg s cpu).1 := by
  cases hr : (kalloc cfg s cpu).2 with
  | none => rw [kalloc_none_state cfg s cpu hr]; exact h
  | some r =>
    obtain ⟨i, hp⟩ := kalloc_some_any cfg s cpu r hr
    intro j x hx
    exact h j x (popped_mem cfg s _ r i hp j x hx)

theorem listsValid_kfree (cfg : Cfg) (cur : Nat) (s s' : KState) (pa : Nat) (cpu_id : Int)
    (h : ListsValid cfg s) (hf : kfree cfg cur s pa cpu_id = .ret s' ()) :
    ListsValid cfg s' := by
  by_cases hb : badPa cfg pa
  · rw [kfree_bad cfg cur s pa cpu_id hb] at hf; cases hf
  · by_cases hc : 1 < s.ref (PAGEREFID cfg pa)
    · rw [kfree_keep cfg cur s pa cpu_id hb hc] at hf
      cases hf
      exact h
    · rw [kfree_push cfg cur s pa cpu_id hb (by omega)] at hf
      cases hf
      intro j x hx
      by_cases hj : j = ownerCore cur cpu_id
      · subst hj
        simp only [Function.update_same, List.mem_cons] at hx
        rcases hx with hx | hx
        · subst hx; exact hb
        · exact h _ x hx
      · simp only [Function.update_noteq hj] at hx
        exact h j x hx

theorem inv_kalloc (cfg : Cfg) (hk : cfg.KERNBASE ≤ cfg.kernelEnd) (s : KState) (cpu : Nat)
    (hc : cpu < cfg.NCPU) (h : Inv cfg s) : Inv cfg (kalloc cfg s cpu).1 := by
  cases hr : (kalloc cfg s cpu).2 with
  | none => rw [kalloc_none_state cfg s cpu hr]; exact h
  | some r =>
    obtain ⟨i, hi, hp⟩ := kalloc_some cfg s cpu r hc hr
    obtain ⟨hJ, hI1, hI2⟩ := h
    have hrv : ¬ badPa cfg r := hJ i r (by rw [hp.1]; exact List.mem_cons_self _ _)
    have hocc := fun a => occ_popped cfg s _ r i a hi hp
    have href := hp.2.2
    refine ⟨listsValid_kalloc cfg s cpu hJ, ?_, ?_⟩
    · intro a ha
      by_cases har : a = r
      · subst har
        have h1 := hocc a
        have h2 := (hI1 a ha).1
        simp only [if_true] at h1
        constructor <;> omega
      · have h1 := hocc a
        simp only [har, if_false, Nat.add_zero] at h1
        rw [← h1, href, Function.update_noteq (PAGEREFID_ne cfg hk a r ha hrv har)]
        exact hI1 a ha
    · intro a ha hz
      have hav := managed_not_bad cfg a ha
      by_cases har : a = r
      · subst har
        rw [href, Function.update_same] at hz
        omega
      · have h1 := hocc a
        simp only [har, if_false, Nat.add_zero] at h1
        rw [href, Function.update_noteq (PAGEREFID_ne cfg hk a r hav hrv har)] at hz
        rw [← h1]
        exact hI2 a ha hz

theorem inv_kfree (cfg : Cfg) (hk : cfg.KERNBASE ≤ cfg.kernelEnd) (cur : Nat) (s s' : KState)
    (pa : Nat) (cpu_id : Int) (hc : ownerCore cur cpu_id < cfg.NCPU)
    (hheld : 1 ≤ s.ref (PAGEREFID cfg pa)) (h : Inv cfg s)
    (hf : kfree cfg cur s pa cpu_id = .ret s' ()) : Inv cfg s' := by
  have hJ' := listsValid_kfree cfg cur s s' pa cpu_id h.1 hf
  obtain ⟨hJ, hI1, hI2⟩ := h
  by_cases hb : badPa cfg pa
  · rw [kfree_bad cfg cur s pa cpu_id hb] at hf; cases hf
  have hpa0 : occ cfg s pa = 0 := by
    have := hI1 pa hb
    by_contra hne
    have h1 : occ cfg s pa = 1 := by omega
    have := this.2 h1
    omega
  by_cases hgt : 1 < s.ref (PAGEREFID cfg pa)
  · rw [kfree_keep cfg cur s pa cpu_id hb hgt] at hf
    cases hf
    have hocc : ∀ a, occ cfg ⟨s.kmem, Function.update s.ref (PAGEREFID cfg pa)
        (s.ref (PAGEREFID cfg pa) - 1)⟩ a = occ cfg s a :=
      fun a => occ_of_kmem_eq cfg s _ a (fun _ _ => rfl)
    refine ⟨hJ', ?_, ?_⟩
    · intro a ha
      rw [hocc a]
      by_cases hap : a = pa
      · subst hap
        constructor <;> omega
      · simp only [Function.update_noteq (PAGEREFID_ne cfg hk a pa ha hb hap)]
        exact hI1 a ha
    · intro a ha hz
      have hav := managed_not_bad cfg a ha
      rw [hocc a]
      by_cases hap : a = pa
      · subst hap
        simp only [Function.update_same] at hz
        omega
      · simp only [Function.update_noteq (PAGEREFID_ne cfg hk a pa hav hb hap)] at hz
        exact hI2 a ha hz
  · have hone : s.ref (PAGEREFID cfg pa) = 1 := by omega
    rw [kfree_push cfg cur s pa cpu_id hb (by omega)] at hf
    cases hf
    have hocc := fun a => occ_pushed cfg s
      ⟨Function.update s.kmem (ownerCore cur cpu_id) (pa :: s.kmem (ownerCore cur cpu_id)),
        Function.update s.ref (PAGEREFID cfg pa) (s.ref (PAGEREFID cfg pa) - 1)⟩
      pa (ownerCore cur cpu_id) a hc rfl
    refine ⟨hJ', ?_, ?_⟩
    · intro a ha
      rw [hocc a]
      by_cases hap : a = pa
      · subst hap
        simp only [if_true, Function.update_same]
        constructor <;> omega
      · simp only [hap, if_false, Nat.add_zero,
          Function.update_noteq (PAGEREFID_ne cfg hk a pa ha hb hap)]
        exact hI1 a ha
    · intro a ha hz
      have hav := managed_not_bad cfg a ha
      rw [hocc a]
      by_cases hap : a = pa
      · subst hap
        simp only [if_true]
        omega
      · simp only [Function.update_noteq (PAGEREFID_ne cfg hk a pa hav hb hap)] at hz
        simp only [hap, if_false, Nat.add_zero]
        exact hI2 a ha hz

theorem inv_kref (cfg : Cfg) (s : KState) (pa : Nat)
    (hheld : 1 ≤ s.ref (PAGEREFID cfg pa)) (h : Inv cfg s) : Inv cfg (kref cfg s pa) := by
  obtain ⟨hJ, hI1, hI2⟩ := h
  have hocc : ∀ a, occ cfg (kref cfg s pa) a = occ cfg s a :=
    fun a => occ_of_kmem_eq cfg s _ a (fun _ _ => rfl)
  refine ⟨hJ, ?_, ?_⟩
  · intro a ha
    rw [hocc a]
    have := hI1 a ha
    by_cases hidx : PAGEREFID cfg a = PAGEREFID cfg pa
    · rw [hidx] at this
      constructor
      · exact this.1
      · intro h1
        have := this.2 h1
        omega
    · simp only [kref, Function.update_noteq hidx]
      exact this
  · intro a ha hz
    rw [hocc a]
    by_cases hidx : PAGEREFID cfg a = PAGEREFID cfg pa
    · simp only [kref, hidx, Function.update_same] at hz
      omega
    · simp only [kref, Function.update_noteq hidx] at hz
      exact hI2 a ha hz

theorem inv_kinit (cfg : Cfg) (cur : Nat) (hn : 0 < cfg.NCPU)
    (hk : cfg.KERNBASE ≤ cfg.kernelEnd) (s0 : KState)
    (h : kinit cfg cur boot = .ret s0 ()) : Inv cfg s0 := by
  obtain ⟨s0', hrun, hocc, hz, _, hmem⟩ := kinit_spec cfg cur hn hk
  rw [hrun] at h
  cases h
  refine ⟨fun i r hr => managed_not_bad cfg r (hmem i r hr), ?_, ?_⟩
  · intro a _
    rw [hocc a]
    by_cases hm : managed cfg a
    · simp only [hm, if_true]
      exact ⟨le_refl _, fun _ => hz a hm⟩
    · simp [hm]
  · intro a hm _
    rw [hocc a]
    simp [hm]

theorem kstep_listsValid (cfg : Cfg) (s s1 : KState) (op : KOp) (v : Option Nat)
    (h : ListsValid cfg s) (hs : kstep cfg s op = .ret s1 v) : ListsValid cfg s1 := by
  cases op with
  | alloc cpu =>
    simp only [kstep, Outcome.ret.injEq] at hs
    rw [← hs.1]
    exact listsValid_kalloc cfg s cpu h
  | free cur pa cpu_id =>
    simp only [kstep] at hs
    cases hf : kfree cfg cur s pa cpu_id with
    | ret s2 u =>
      rw [hf] at hs
      simp only [Outcome.ret.injEq] at hs
      rw [← hs.1]
      exact listsValid_kfree cfg cur s s2 pa cpu_id h hf
    | halt s2 => rw [hf] at hs; cases hs
  | incref pa =>
    simp only [kstep, Outcome.ret.injEq] at hs
    rw [← hs.1]
    exact h

theorem reach_listsValid (cfg : Cfg) (use : KState → KOp → Prop) (hn : 0 < cfg.NCPU)
    (hk : cfg.KERNBASE ≤ cfg.kernelEnd) (s : KState) (h : Reach cfg use s) :
    ListsValid cfg s := by
  induction h with
  | init cur s0 h0 => exact (inv_kinit cfg cur hn hk s0 h0).1
  | step s s1 op v _ _ _ hs ih => exact kstep_listsValid cfg s s1 op v ih hs

theorem reach_inv (cfg : Cfg) (hn : 0 < cfg.NCPU) (hk : cfg.KERNBASE ≤ cfg.kernelEnd)
    (s : KState) (h : Reach cfg (heldUse cfg) s) : Inv cfg s := by
  induction h with
  | init cur s0 h0 => exact inv_kinit cfg cur hn hk s0 h0
  | step s s1 op v _ hc hu hs ih =>
    cases op with
    | alloc cpu =>
      simp only [kstep, Outcome.ret.injEq] at hs
      rw [← hs.1]
      exact inv_kalloc cfg hk s cpu hc ih
    | free cur pa cpu_id =>
      simp only [kstep] at hs
      cases hf : kfree cfg cur s pa cpu_id with
      | ret s2 u =>
        rw [hf] at hs
        simp only [Outcome.ret.injEq] at hs
        rw [← hs.1]
        exact inv_kfree cfg hk cur s s2 pa cpu_id hc.1 hu ih hf
      | halt s2 => rw [hf] at hs; cases hs
    | incref pa =>
      simp only [kstep, Outcome.ret.injEq] at hs
      rw [← hs.1]
      exact inv_kref cfg s pa hu ih

end Kalloc
namespace Kalloc

/-! ### Helper lemmas for the allocation scenario -/

theorem kalloc_ref_one (cfg : Cfg) (s : KState) (cpu k : Nat) (h : s.ref k = 1) :
    (kalloc cfg s cpu).1.ref k = 1 := by
  cases hr : (kalloc cfg s cpu).2 with
  | none => rw [kalloc_none_state cfg s cpu hr]; exact h
  | some r =>
    obtain ⟨i, hp⟩ := kalloc_some_any cfg s cpu r hr
    rw [hp.2.2]
    by_cases hk : k = PAGEREFID cfg r
    · subst hk; simp
    · simp [Function.update_noteq hk, h]

theorem kallocMany_ref_one (cfg : Cfg) (cpus : List Nat) :
    ∀ (s : KState) (k : Nat), s.ref k = 1 → (kallocMany cfg s cpus).1.ref k = 1 := by
  induction cpus with
  | nil => intro s k h; exact h
  | cons c cs ih =>
    intro s k h
    simp only [kallocMany]
    exact ih _ k (kalloc_ref_one cfg s c k h)

theorem kallocMany_spec (cfg : Cfg) (cpus : List Nat) :
    ∀ s : KState, (∀ c ∈ cpus, c < cfg.NCPU) → cpus.length ≤ total cfg s →
      ∃ frames : List Nat, (kallocMany cfg s cpus).2 = frames.map some ∧
        total cfg (kallocMany cfg s cpus).1 + cpus.length = total cfg s ∧
        (∀ a, occ cfg s a = occ cfg (kallocMany cfg s cpus).1 a + frames.count a) ∧
        (∀ a ∈ frames, (kallocMany cfg s cpus).1.ref (PAGEREFID cfg a) = 1) := by
  induction cpus with
  | nil =>
    intro s _ _
    exact ⟨[], rfl, rfl, fun a => by simp [kallocMany], fun a ha => by simp at ha⟩
  | cons c cs ih =>
    intro s hc hlen
    have hcn : c < cfg.NCPU := hc c (List.mem_cons_self _ _)
    simp only [List.length_cons] at hlen
    cases hr : (kalloc cfg s c).2 with
    | none =>
      have := (total_eq_zero_iff cfg s).mpr ((kalloc_none cfg s c hcn).mp hr)
      omega
    | some r =>
      obtain ⟨i, hi, hp⟩ := kalloc_some cfg s c r hcn hr
      have htot := total_popped cfg s _ r i hi hp
      obtain ⟨frames, hres, htot', hocc, href⟩ :=
        ih (kalloc cfg s c).1 (fun x hx => hc x (List.mem_cons_of_mem _ hx)) (by omega)
      refine ⟨r :: frames, ?_, ?_, ?_, ?_⟩
      · simp only [kallocMany, hr, hres, List.map_cons]
      · simp only [kallocMany, List.length_cons]; omega
      · intro a
        have h1 := occ_popped cfg s _ r i a hi hp
        have h2 := hocc a
        simp only [kallocMany, List.count_cons]
        by_cases har : a = r
        · subst har; simp at h1 ⊢; omega
        · have hra : ¬ r = a := fun e => har e.symm
          simp [har, hra] at h1 ⊢; omega
      · intro a ha
        simp only [kallocMany]
        rcases List.mem_cons.mp ha with h | h
        · subst h
          apply kallocMany_ref_one
          rw [hp.2.2]; simp
        · exact href a h

theorem kalloc_only_frame (cfg : Cfg) (s : KState) (c a : Nat) (rest : List Nat)
    (hc : c < cfg.NCPU) (hhead : s.kmem c = a :: rest)
    (hoth : ∀ j, j < cfg.NCPU → j ≠ c → s.kmem j = []) (c' : Nat) (hc' : c' < cfg.NCPU) :
    (kalloc cfg s c').2 = some a := by
  cases hr : (kalloc cfg s c').2 with
  | none =>
    have := (kalloc_none cfg s c' hc').mp hr c hc
    rw [hhead] at this
    cases this
  | some r =>
    obtain ⟨i, hi, hp⟩ := kalloc_some cfg s c' r hc' hr
    by_cases hic : i = c
    · subst hic
      have := hp.1
      rw [hhead] at this
      simp only [List.cons.injEq] at this
      rw [this.1]
    · have := hp.1
      rw [hoth i hi hic] at this
      cases this

/-! ### The claims about the page allocator -/

/-- C1. For every allocator state and every calling core, `kalloc` returns the null pointer
exactly when the free list of every core is empty; whenever it returns a frame, the frame was the
head of some core's free list, that list lost exactly this head, every other list is unchanged,
and the frame's reference count is 1 afterwards. -/
theorem kalloc_fails_iff_no_free_frame (cfg : Cfg) (s : KState) (cpu : Nat)
    (hc : cpu < cfg.NCPU) :
    ((kalloc cfg s cpu).2 = none ↔ ∀ i, i < cfg.NCPU → s.kmem i = []) ∧
    ∀ r, (kalloc cfg s cpu).2 = some r →
      ∃ i, i < cfg.NCPU ∧ s.kmem i = r :: (kalloc cfg s cpu).1.kmem i ∧
        (∀ j, j ≠ i → (kalloc cfg s cpu).1.kmem j = s.kmem j) ∧
        (kalloc cfg s cpu).1.ref (PAGEREFID cfg r) = 1 := by
  refine ⟨kalloc_none cfg s cpu hc, ?_⟩
  intro r hr
  obtain ⟨i, hi, h1, h2, h3⟩ := kalloc_some cfg s cpu r hc hr
  exact ⟨i, hi, h1, h2, by rw [h3]; simp⟩

/-- Witness for C1: core 1 of the demo machine, right after `kinit`. -/
theorem kalloc_fails_iff_no_free_frame_witness :
    1 < demoCfg.NCPU ∧
    (((kalloc demoCfg demoState 1).2 = none ↔ ∀ i, i < demoCfg.NCPU → demoState.kmem i = []) ∧
    ∀ r, (kalloc demoCfg demoState 1).2 = some r →
      ∃ i, i < demoCfg.NCPU ∧ demoState.kmem i = r :: (kalloc demoCfg demoState 1).1.kmem i ∧
        (∀ j, j ≠ i → (kalloc demoCfg demoState 1).1.kmem j = demoState.kmem j) ∧
        (kalloc demoCfg demoState 1).1.ref (PAGEREFID demoCfg r) = 1) :=
  ⟨by decide, kalloc_fails_iff_no_free_frame demoCfg demoState 1 (by decide)⟩

/-- C2. On a machine whose managed range holds exactly `n` whole page frames, `kinit` returns,
the next `n` calls of `kalloc`, from any cores, all return frames and these are pairwise distinct,
one more `kalloc` from any core returns null and changes nothing, and after `kfree` of any one of
the returned frames (onto any core) a `kalloc` from any core returns that very frame. -/
theorem kinit_alloc_all_fail_free_alloc (cfg : Cfg) (cur n : Nat) (hcpu : 0 < cfg.NCPU)
    (hk : cfg.KERNBASE ≤ cfg.kernelEnd)
    (hfit : (cfg.PHYSTOP - PGROUNDUP cfg.kernelEnd) / PGSIZE = n) :
    ∃ s0, kinit cfg cur boot = .ret s0 () ∧
      ∀ cpus : List Nat, cpus.length = n → (∀ c ∈ cpus, c < cfg.NCPU) →
        ∃ frames : List Nat, (kallocMany cfg s0 cpus).2 = frames.map some ∧ frames.Nodup ∧
          (∀ c, c < cfg.NCPU →
            kalloc cfg (kallocMany cfg s0 cpus).1 c = ((kallocMany cfg s0 cpus).1, none)) ∧
          ∀ a ∈ frames, ∀ (cur' : Nat) (cpu_id : Int),
            ownerCore cur' cpu_id < cfg.NCPU → -1 ≤ cpu_id →
            ∃ s2, kfree cfg cur' (kallocMany cfg s0 cpus).1 a cpu_id = .ret s2 () ∧
              ∀ c, c < cfg.NCPU → (kalloc cfg s2 c).2 = some a := by
  obtain ⟨s0, hrun, hocc0, _, htot0, _⟩ := kinit_spec cfg cur hcpu hk
  refine ⟨s0, hrun, ?_⟩
  intro cpus hlen hcs
  obtain ⟨frames, hres, htot, hocc, href⟩ :=
    kallocMany_spec cfg cpus s0 hcs (by omega)
  have hzero : total cfg (kallocMany cfg s0 cpus).1 = 0 := by omega
  have hempty := (total_eq_zero_iff cfg _).mp hzero
  have hcount : ∀ a, frames.count a ≤ if managed cfg a then 1 else 0 := by
    intro a
    have h1 := hocc a
    rw [hocc0 a] at h1
    omega
  refine ⟨frames, hres, ?_, ?_, ?_⟩
  · rw [List.nodup_iff_count_le_one]
    intro a
    have := hcount a
    split at this <;> omega
  · intro c hc
    have hnone := (kalloc_none cfg _ c hc).mpr hempty
    exact Prod.ext (kalloc_none_state cfg _ c hnone) hnone
  · intro a ha cur' cpu_id hown _
    have hman : managed cfg a := by
      have h1 := hcount a
      have h2 : 0 < frames.count a := List.count_pos_iff.mpr ha
      by_contra hm
      simp only [hm, if_false] at h1
      omega
    have hv := managed_not_bad cfg a hman
    have h1 := href a ha
    refine ⟨_, kfree_push cfg cur' _ a cpu_id hv (by omega), ?_⟩
    intro c hc
    apply kalloc_only_frame cfg _ (ownerCore cur' cpu_id) a [] hown _ _ c hc
    · simp [hempty _ hown]
    · intro j hj hne
      simp [Function.update_noteq hne, hempty j hj]

/-- Witness for C2: the scenario of the specification, a pool of 4 page frames. -/
theorem kinit_alloc_all_fail_free_alloc_witness :
    (0 < poolCfg.NCPU ∧ poolCfg.KERNBASE ≤ poolCfg.kernelEnd ∧
      (poolCfg.PHYSTOP - PGROUNDUP poolCfg.kernelEnd) / PGSIZE = 4) ∧
    ∃ s0, kinit poolCfg 0 boot = .ret s0 () ∧
      ∀ cpus : List Nat, cpus.length = 4 → (∀ c ∈ cpus, c < poolCfg.NCPU) →
        ∃ frames : List Nat,
          (kallocMany poolCfg s0 cpus).2 = frames.map some ∧ frames.Nodup ∧
          (∀ c, c < poolCfg.NCPU →
            kalloc poolCfg (kallocMany poolCfg s0 cpus).1 c =
              ((kallocMany poolCfg s0 cpus).1, none)) ∧
          ∀ a ∈ frames, ∀ (cur' : Nat) (cpu_id : Int),
            ownerCore cur' cpu_id < poolCfg.NCPU → -1 ≤ cpu_id →
            ∃ s2, kfree poolCfg cur' (kallocMany poolCfg s0 cpus).1 a cpu_id = .ret s2 () ∧
              ∀ c, c < poolCfg.NCPU → (kalloc poolCfg s2 c).2 = some a :=
  ⟨⟨by decide, by decide, by decide⟩,
    kinit_alloc_all_fail_free_alloc poolCfg 0 4 (by decide) (by decide) (by decide)⟩

/-- C3, counterexample. On the demo machine frame 8192 is free right after `kinit`, with
reference count 0, not 1; `kfree(8192, 1)` is accepted, and pushes the frame onto the list of
core 1 all the same. -/
theorem kfree_pushes_at_count_zero :
    ¬ badPa demoCfg 8192 ∧ demoState.ref (PAGEREFID demoCfg 8192) = 0 ∧
      demoState.kmem 1 = [12288] ∧
      (kfree demoCfg 0 demoState 8192 1).state.kmem 1 = [8192, 12288] := by
  decide

/-- C3, amended. For every address `kfree` accepts and every reference count of at least 1
before the call, `kfree` returns, and it pushes the frame onto the free list of the owner core
if and only if that count was exactly 1; for every larger count no free list is changed. -/
theorem kfree_pushes_iff_count_one (cfg : Cfg) (cur : Nat) (s : KState) (pa : Nat)
    (cpu_id : Int) (hv : ¬ badPa cfg pa) (hheld : 1 ≤ s.ref (PAGEREFID cfg pa)) :
    (kfree cfg cur s pa cpu_id).returned = true ∧
    ((kfree cfg cur s pa cpu_id).state.kmem (ownerCore cur cpu_id) =
        pa :: s.kmem (ownerCore cur cpu_id) ↔ s.ref (PAGEREFID cfg pa) = 1) ∧
    (s.ref (PAGEREFID cfg pa) ≠ 1 → (kfree cfg cur s pa cpu_id).state.kmem = s.kmem) := by
  by_cases hgt : 1 < s.ref (PAGEREFID cfg pa)
  · rw [kfree_keep cfg cur s pa cpu_id hv hgt]
    refine ⟨rfl, ⟨?_, fun h => by omega⟩, fun _ => rfl⟩
    intro h
    simp only [Outcome.state] at h
    have hlen := congrArg List.length h
    simp at hlen
  · rw [kfree_push cfg cur s pa cpu_id hv (by omega)]
    exact ⟨rfl, ⟨fun _ => by omega, fun _ => by simp [Outcome.state]⟩, fun h => by omega⟩

/-- Witness for C3: frame 16384 of the demo machine, held once after the `kalloc` on core 0 that
returned it, and freed onto core 1. -/
theorem kfree_pushes_iff_count_one_witness :
    (¬ badPa demoCfg 16384 ∧
      1 ≤ (kalloc demoCfg demoState 0).1.ref (PAGEREFID demoCfg 16384)) ∧
    ((kfree demoCfg 0 (kalloc demoCfg demoState 0).1 16384 1).returned = true ∧
    ((kfree demoCfg 0 (kalloc demoCfg demoState 0).1 16384 1).state.kmem (ownerCore 0 1) =
        16384 :: (kalloc demoCfg demoState 0).1.kmem (ownerCore 0 1) ↔
      (kalloc demoCfg demoState 0).1.ref (PAGEREFID demoCfg 16384) = 1) ∧
    ((kalloc demoCfg demoState 0).1.ref (PAGEREFID demoCfg 16384) ≠ 1 →
      (kfree demoCfg 0 (kalloc demoCfg demoState 0).1 16384 1).state.kmem =
        (kalloc demoCfg demoState 0).1.kmem)) :=
  ⟨⟨by decide, by decide⟩,
    kfree_pushes_iff_count_one demoCfg 0 (kalloc demoCfg demoState 0).1 16384 1 (by decide)
      (by decide)⟩

/-- C4, counterexample. On the demo machine, `kinit` followed by `kref(8192)` is a sequence of
the calls the claim allows; it leaves the managed frame 8192 on a free list (once) although its
reference count is 1, not 0. -/
theorem incref_on_free_frame_breaks_invariant :
    Reach demoCfg anyUse (kref demoCfg demoState 8192) ∧ managed demoCfg 8192 ∧
      (kref demoCfg demoState 8192).ref (PAGEREFID demoCfg 8192) = 1 ∧
      occ demoCfg (kref demoCfg demoState 8192) 8192 = 1 :=
  ⟨Reach.step demoState (kref demoCfg demoState 8192) (.incref 8192) none
      (Reach.init 0 demoState rfl) trivial trivial rfl,
    by decide, by decide, by decide⟩

/-- C4, amended. In every state reached from `kinit` by `kalloc` calls and by `kfree` (on
addresses it accepts) and `kref` calls applied to frames whose reference count is at least 1,
each whole frame of the managed range occurs on the per-core free lists exactly once in total
when its reference count is 0, and on none of them when its count is not 0. -/
theorem free_list_iff_count_zero (cfg : Cfg) (hn : 0 < cfg.NCPU)
    (hk : cfg.KERNBASE ≤ cfg.kernelEnd) (s : KState) (hr : Reach cfg (heldUse cfg) s)
    (a : Nat) (ha : managed cfg a) :
    (s.ref (PAGEREFID cfg a) = 0 → occ cfg s a = 1) ∧
    (s.ref (PAGEREFID cfg a) ≠ 0 → occ cfg s a = 0) := by
  obtain ⟨_, hI1, hI2⟩ := reach_inv cfg hn hk s hr
  refine ⟨hI2 a ha, ?_⟩
  intro hne
  have := hI1 a (managed_not_bad cfg a ha)
  by_contra h0
  have h1 : occ cfg s a = 1 := by omega
  exact hne (this.2 h1)

/-- Witness for C4: the demo machine after `kinit` and one `kalloc` on core 0, frame 16384. -/
theorem free_list_iff_count_zero_witness :
    (0 < demoCfg.NCPU ∧ demoCfg.KERNBASE ≤ demoCfg.kernelEnd ∧
      Reach demoCfg (heldUse demoCfg) (kalloc demoCfg demoState 0).1 ∧ managed demoCfg 16384) ∧
    (((kalloc demoCfg demoState 0).1.ref (PAGEREFID demoCfg 16384) = 0 →
        occ demoCfg (kalloc demoCfg demoState 0).1 16384 = 1) ∧
    ((kalloc demoCfg demoState 0).1.ref (PAGEREFID demoCfg 16384) ≠ 0 →
        occ demoCfg (kalloc demoCfg demoState 0).1 16384 = 0)) :=
  ⟨⟨by decide, by decide,
      Reach.step demoState (kalloc demoCfg demoState 0).1 (.alloc 0) (some 16384)
        (Reach.init 0 demoState rfl) (by decide) trivial rfl,
      by decide⟩,
    free_list_iff_count_zero demoCfg (by decide) (by decide) (kalloc demoCfg demoState 0).1
      (Reach.step demoState (kalloc demoCfg demoState 0).1 (.alloc 0) (some 16384)
        (Reach.init 0 demoState rfl) (by decide) trivial rfl)
      16384 (by decide)⟩

/-- C5. `kfree` stops in `panic` if and only if the address is not a multiple of 4096, or lies
below `end`, or is at or above `PHYSTOP`; when it panics the state is the one it was called in,
and when it returns it has lowered the reference count of the addressed frame by exactly 1 and
left every other count as it was. -/
theorem kfree_halts_iff_bad_address (cfg : Cfg) (cur : Nat) (s : KState) (pa : Nat)
    (cpu_id : Int) :
    ((kfree cfg cur s pa cpu_id).returned = false ↔
      (pa % 4096 ≠ 0 ∨ pa < cfg.kernelEnd ∨ cfg.PHYSTOP ≤ pa)) ∧
    ((kfree cfg cur s pa cpu_id).returned = false → (kfree cfg cur s pa cpu_id).state = s) ∧
    ((kfree cfg cur s pa cpu_id).returned = true →
      (kfree cfg cur s pa cpu_id).state.ref (PAGEREFID cfg pa) = s.ref (PAGEREFID cfg pa) - 1 ∧
      ∀ k, k ≠ PAGEREFID cfg pa → (kfree cfg cur s pa cpu_id).state.ref k = s.ref k) := by
  have hbad : badPa cfg pa ↔ (pa % 4096 ≠ 0 ∨ pa < cfg.kernelEnd ∨ cfg.PHYSTOP ≤ pa) := by
    unfold badPa PGSIZE; rfl
  by_cases hb : badPa cfg pa
  · rw [kfree_bad cfg cur s pa cpu_id hb]
    exact ⟨⟨fun _ => hbad.mp hb, fun _ => rfl⟩, fun _ => rfl, fun h => (by cases h)⟩
  · by_cases hgt : 1 < s.ref (PAGEREFID cfg pa)
    · rw [kfree_keep cfg cur s pa cpu_id hb hgt]
      refine ⟨⟨fun h => (by cases h), fun h => absurd (hbad.mpr h) hb⟩, fun h => (by cases h), ?_⟩
      intro _
      exact ⟨by simp [Outcome.state], fun k hk => by simp [Outcome.state, hk]⟩
    · rw [kfree_push cfg cur s pa cpu_id hb (by omega)]
      refine ⟨⟨fun h => (by cases h), fun h => absurd (hbad.mpr h) hb⟩, fun h => (by cases h), ?_⟩
      intro _
      exact ⟨by simp [Outcome.state], fun k hk => by simp [Outcome.state, hk]⟩

/-- The count of a frame along a run: calls that return change it by the `kref` calls on the
frame minus the `kfree` calls on it, as long as no `kalloc` of the run returns the frame. -/
theorem kexec_ref (cfg : Cfg) (hk : cfg.KERNBASE ≤ cfg.kernelEnd) (a : Nat)
    (hv : ¬ badPa cfg a) (ops : List KOp) :
    ∀ (s1 s2 : KState) (rets : List (Option Nat)), ListsValid cfg s1 →
      kexec cfg s1 ops = .ret s2 rets → some a ∉ rets →
      s2.ref (PAGEREFID cfg a) =
        s1.ref (PAGEREFID cfg a) + (countRef cfg a ops : Int) - (countFree a ops : Int) := by
  induction ops with
  | nil =>
    intro s1 s2 rets _ hrun _
    simp only [kexec, Outcome.ret.injEq] at hrun
    rw [← hrun.1]
    simp [countRef, countFree]
  | cons op ops ih =>
    intro s1 s2 rets hJ hrun hnot
    simp only [kexec] at hrun
    cases hstep : kstep cfg s1 op with
    | halt s3 => rw [hstep] at hrun; cases hrun
    | ret s3 v =>
      rw [hstep] at hrun
      simp only at hrun
      cases hrest : kexec cfg s3 ops with
      | halt s4 => rw [hrest] at hrun; cases hrun
      | ret s4 vs =>
        rw [hrest] at hrun
        simp only [Outcome.ret.injEq] at hrun
        obtain ⟨hs, hrets⟩ := hrun
        subst hs
        subst hrets
        have hv_ne : v ≠ some a := fun e => hnot (by rw [e]; exact List.mem_cons_self _ _)
        have hnot' : some a ∉ vs := fun h => hnot (List.mem_cons_of_mem _ h)
        have hJ3 := kstep_listsValid cfg s1 s3 op v hJ hstep
        have hih := ih s3 s4 vs hJ3 hrest hnot'
        rw [hih]
        cases op with
        | alloc cpu =>
          simp only [kstep, Outcome.ret.injEq] at hstep
          obtain ⟨hs3, hval⟩ := hstep
          have hsame : s3.ref (PAGEREFID cfg a) = s1.ref (PAGEREFID cfg a) := by
            cases hr : (kalloc cfg s1 cpu).2 with
            | none => rw [← hs3, kalloc_none_state cfg s1 cpu hr]
            | some r =>
              obtain ⟨i, hp⟩ := kalloc_some_any cfg s1 cpu r hr
              have hra : r ≠ a := by
                intro e; subst e; exact hv_ne (by rw [← hval, hr])
              have hrv : ¬ badPa cfg r := hJ i r (by rw [hp.1]; exact List.mem_cons_self _ _)
              rw [← hs3, hp.2.2, Function.update_noteq (PAGEREFID_ne cfg hk a r hv hrv hra.symm)]
          simp only [countRef, countFree, hsame]
        | free cur pa cpu_id =>
          simp only [kstep] at hstep
          cases hf : kfree cfg cur s1 pa cpu_id with
          | halt s5 => rw [hf] at hstep; cases hstep
          | ret s5 u =>
            rw [hf] at hstep
            simp only [Outcome.ret.injEq] at hstep
            obtain ⟨hs3, _⟩ := hstep
            subst hs3
            have hb : ¬ badPa cfg pa := by
              intro hb
              rw [kfree_bad cfg cur s1 pa cpu_id hb] at hf
              cases hf
            have href : s5.ref = Function.update s1.ref (PAGEREFID cfg pa)
                (s1.ref (PAGEREFID cfg pa) - 1) := by
              by_cases hgt : 1 < s1.ref (PAGEREFID cfg pa)
              · rw [kfree_keep cfg cur s1 pa cpu_id hb hgt] at hf
                cases hf; rfl
              · rw [kfree_push cfg cur s1 pa cpu_id hb (by omega)] at hf
                cases hf; rfl
            by_cases hpa : pa = a
            · subst hpa
              simp only [countRef, countFree, href, Function.update_same, if_true]
              push_cast
              omega
            · have hne := PAGEREFID_ne cfg hk a pa hv hb (fun e => hpa e.symm)
              simp only [countRef, countFree, href, Function.update_noteq hne, hpa, if_false]
              push_cast
              omega
        | incref pa =>
          simp only [kstep, Outcome.ret.injEq] at hstep
          obtain ⟨hs3, _⟩ := hstep
          subst hs3
          by_cases hidx : PAGEREFID cfg pa = PAGEREFID cfg a
          · simp only [countRef, countFree, kref, hidx, Function.update_same, if_true]
            push_cast
            omega
          · have hne : PAGEREFID cfg a ≠ PAGEREFID cfg pa := fun e => hidx e.symm
            simp only [countRef, countFree, kref, hidx, Function.update_noteq hne, if_false]
            push_cast
            omega

/-- C6. Take any state reached from `kinit` by `kalloc` calls and by `kfree` and `kref` calls on
held frames, and in it a frame `a` that `kfree` accepts (every frame `kalloc` returns is one)
whose reference count is 1.  Then `kfree(a, c)` returns, puts `a` at the head of the free list
of core `c` in front of the previous list, leaves the list of every other core unchanged with
`a` on none of them, and a `kalloc` issued next on core `c` returns `a`, with count 1. -/
theorem kfree_then_kalloc_returns_frame (cfg : Cfg) (hn : 0 < cfg.NCPU)
    (hk : cfg.KERNBASE ≤ cfg.kernelEnd) (s : KState) (hr : Reach cfg (heldUse cfg) s)
    (a : Nat) (hv : ¬ badPa cfg a) (hone : s.ref (PAGEREFID cfg a) = 1)
    (cur : Nat) (cpu_id : Int) (hc : ownerCore cur cpu_id < cfg.NCPU) (_hid : -1 ≤ cpu_id) :
    ∃ s1, kfree cfg cur s a cpu_id = .ret s1 () ∧
      s1.kmem (ownerCore cur cpu_id) = a :: s.kmem (ownerCore cur cpu_id) ∧
      a ∉ s.kmem (ownerCore cur cpu_id) ∧
      (∀ j, j ≠ ownerCore cur cpu_id → s1.kmem j = s.kmem j) ∧
      (∀ j, j < cfg.NCPU → j ≠ ownerCore cur cpu_id → a ∉ s1.kmem j) ∧
      (kalloc cfg s1 (ownerCore cur cpu_id)).2 = some a ∧
      (kalloc cfg s1 (ownerCore cur cpu_id)).1.ref (PAGEREFID cfg a) = 1 := by
  obtain ⟨_, hI1, _⟩ := reach_inv cfg hn hk s hr
  have hocc : occ cfg s a = 0 := by
    have := hI1 a hv
    by_contra h0
    have h1 : occ cfg s a = 1 := by omega
    have := this.2 h1
    omega
  have hnot := (occ_eq_zero_iff cfg s a).mp hocc
  refine ⟨_, kfree_push cfg cur s a cpu_id hv (by omega), ?_, hnot _ hc, ?_, ?_, ?_, ?_⟩
  · simp
  · intro j hj; simp [Function.update_noteq hj]
  · intro j hjn hj
    simp only [Function.update_noteq hj]
    exact hnot j hjn
  · simp [kalloc]
  · simp [kalloc]

/-- Witness for C6: frame 16384 of the demo machine, returned by `kalloc` on core 0 and freed
onto core 1. -/
theorem kfree_then_kalloc_returns_frame_witness :
    (0 < demoCfg.NCPU ∧ demoCfg.KERNBASE ≤ demoCfg.kernelEnd ∧
      Reach demoCfg (heldUse demoCfg) (kalloc demoCfg demoState 0).1 ∧
      ¬ badPa demoCfg 16384 ∧
      (kalloc demoCfg demoState 0).1.ref (PAGEREFID demoCfg 16384) = 1 ∧
      ownerCore 0 1 < demoCfg.NCPU ∧ (-1 : Int) ≤ 1) ∧
    ∃ s1, kfree demoCfg 0 (kalloc demoCfg demoState 0).1 16384 1 = .ret s1 () ∧
      s1.kmem (ownerCore 0 1) = 16384 :: (kalloc demoCfg demoState 0).1.kmem (ownerCore 0 1) ∧
      16384 ∉ (kalloc demoCfg demoState 0).1.kmem (ownerCore 0 1) ∧
      (∀ j, j ≠ ownerCore 0 1 → s1.kmem j = (kalloc demoCfg demoState 0).1.kmem j) ∧
      (∀ j, j < demoCfg.NCPU → j ≠ ownerCore 0 1 → 16384 ∉ s1.kmem j) ∧
      (kalloc demoCfg s1 (ownerCore 0 1)).2 = some 16384 ∧
      (kalloc demoCfg s1 (ownerCore 0 1)).1.ref (PAGEREFID demoCfg 16384) = 1 :=
  ⟨⟨by decide, by decide,
      Reach.step demoState (kalloc demoCfg demoState 0).1 (.alloc 0) (some 16384)
        (Reach.init 0 demoState rfl) (by decide) trivial rfl,
      by decide, by decide, by decide, by decide⟩,
    kfree_then_kalloc_returns_frame demoCfg (by decide) (by decide) (kalloc demoCfg demoState 0).1
      (Reach.step demoState (kalloc demoCfg demoState 0).1 (.alloc 0) (some 16384)
        (Reach.init 0 demoState rfl) (by decide) trivial rfl)
      16384 (by decide) (by decide) 0 1 (by decide) (by decide)⟩

/-- C7. Let `kalloc` return frame `a` in a state reached from `kinit` by any calls, and let any
sequence of `kref`, `kfree` and `kalloc` calls follow that runs without panic and in which no
`kalloc` returns `a` again.  Then the reference count of `a` afterwards is 1, plus the number of
`kref` calls on the frame, minus the number of `kfree(a)` calls; in particular a sequence made
only of calls on other frames leaves the count at 1.  (Every prefix of a sequence is such a
sequence, so this is the count after each step.) -/
theorem ref_count_is_one_plus_refs_minus_frees (cfg : Cfg) (hn : 0 < cfg.NCPU)
    (hk : cfg.KERNBASE ≤ cfg.kernelEnd) (s0 : KState) (hr : Reach cfg anyUse s0)
    (cpu a : Nat) (ha : (kalloc cfg s0 cpu).2 = some a)
    (ops : List KOp) (s2 : KState) (rets : List (Option Nat))
    (hrun : kexec cfg (kalloc cfg s0 cpu).1 ops = .ret s2 rets) (hnot : some a ∉ rets) :
    s2.ref (PAGEREFID cfg a) = 1 + (countRef cfg a ops : Int) - (countFree a ops : Int) ∧
    (countRef cfg a ops = 0 → countFree a ops = 0 → s2.ref (PAGEREFID cfg a) = 1) := by
  have hJ := reach_listsValid cfg anyUse hn hk s0 hr
  obtain ⟨i, hp⟩ := kalloc_some_any cfg s0 cpu a ha
  have hv : ¬ badPa cfg a := hJ i a (by rw [hp.1]; exact List.mem_cons_self _ _)
  have hone : (kalloc cfg s0 cpu).1.ref (PAGEREFID cfg a) = 1 := by rw [hp.2.2]; simp
  have := kexec_ref cfg hk a hv ops _ s2 rets (listsValid_kalloc cfg s0 cpu hJ) hrun hnot
  rw [hone] at this
  refine ⟨this, ?_⟩
  intro h1 h2
  rw [this, h1, h2]
  simp

/-- Witness for C7: the run `demoOps` after `kalloc` on core 0 of the demo machine returned
frame 16384; two `kref` and one `kfree` leave the count at 2. -/
theorem ref_count_is_one_plus_refs_minus_frees_witness :
    (0 < demoCfg.NCPU ∧ demoCfg.KERNBASE ≤ demoCfg.kernelEnd ∧ Reach demoCfg anyUse demoState ∧
      (kalloc demoCfg demoState 0).2 = some 16384 ∧
      kexec demoCfg (kalloc demoCfg demoState 0).1 demoOps =
        .ret (kexec demoCfg (kalloc demoCfg demoState 0).1 demoOps).state
          [none, none, some 12288, none] ∧
      some 16384 ∉ [none, none, some 12288, none]) ∧
    ((kexec demoCfg (kalloc demoCfg demoState 0).1 demoOps).state.ref (PAGEREFID demoCfg 16384) =
        1 + (countRef demoCfg 16384 demoOps : Int) - (countFree 16384 demoOps : Int) ∧
    (countRef demoCfg 16384 demoOps = 0 → countFree 16384 demoOps = 0 →
      (kexec demoCfg (kalloc demoCfg demoState 0).1 demoOps).state.ref
        (PAGEREFID demoCfg 16384) = 1)) :=
  ⟨⟨by decide, by decide, Reach.init 0 demoState rfl, by decide, rfl, by decide⟩,
    ref_count_is_one_plus_refs_minus_frees demoCfg (by decide) (by decide) demoState
      (Reach.init 0 demoState rfl) 0 16384 (by decide) demoOps
      (kexec demoCfg (kalloc demoCfg demoState 0).1 demoOps).state
      [none, none, some 12288, none] rfl (by decide)⟩

end Kalloc

namespace Kalloc

/-! ### `kcollect` -/

theorem kcollectChain_spec (l : List Nat) :
    ∀ amount, amount < 2 ^ 64 →
      kcollectChain amount l = (amount + PGSIZE * l.length) % 2 ^ 64 := by
  induction l with
  | nil => intro amount h; simp only [kcollectChain, List.length_nil]; omega
  | cons a t ih =>
    intro amount _
    simp only [kcollectChain, List.length_cons]
    rw [ih _ (Nat.mod_lt _ (by norm_num))]
    unfold PGSIZE
    omega

theorem kcollectLoop_spec (s : KState) (l : List Nat) :
    ∀ amount, amount < 2 ^ 64 →
      kcollectLoop s amount l =
        (amount + PGSIZE * (l.map (fun i => (s.kmem i).length)).sum) % 2 ^ 64 := by
  induction l with
  | nil => intro amount h; simp only [kcollectLoop, List.map_nil, List.sum_nil]; omega
  | cons a t ih =>
    intro amount h
    simp only [kcollectLoop, List.map_cons, List.sum_cons]
    rw [kcollectChain_spec _ _ h, ih _ (Nat.mod_lt _ (by norm_num))]
    unfold PGSIZE
    omega

/-- C17, counterexample. On the demo machine right after `kinit` the free lists hold 3 frames in
total, and `kcollect` returns 12288, the number of free bytes, not 3. -/
theorem kcollect_returns_bytes :
    total demoCfg demoState = 3 ∧ (kcollect demoCfg demoState).2 = 12288 := by
  decide

/-- C17, amended. For every allocator state, `kcollect` returns `PGSIZE` = 4096 times the sum
over all cores of the number of frames on that core's free list, as a 64-bit value (so exactly
that product whenever there are fewer than 2^52 free frames), and it leaves every free list and
every reference count unchanged. -/
theorem kcollect_returns_free_bytes (cfg : Cfg) (s : KState) :
    (kcollect cfg s).2 = (4096 * total cfg s) % 2 ^ 64 ∧
    (total cfg s < 2 ^ 52 → (kcollect cfg s).2 = 4096 * total cfg s) ∧
    (kcollect cfg s).1 = s := by
  have h : (kcollect cfg s).2 = (4096 * total cfg s) % 2 ^ 64 := by
    simp only [kcollect]
    rw [kcollectLoop_spec s _ 0 (by norm_num)]
    unfold total PGSIZE
    simp
  refine ⟨h, ?_, rfl⟩
  intro hlt
  rw [h]
  omega

/-- Witness for C17: the demo machine right after `kinit`, with 3 free frames. -/
theorem kcollect_returns_free_bytes_witness :
    total demoCfg demoState < 2 ^ 52 ∧
    (kcollect demoCfg demoState).2 = 4096 * total demoCfg demoState :=
  ⟨by decide, (kcollect_returns_free_bytes demoCfg demoState).2.1 (by decide)⟩

/-! ### The round-robin distribution of `kinit` -/

theorem divmod_succ (N q r : Nat) (hr : r < N) :
    (r + 1 < N → (N * q + (r + 1)) / N = q ∧ (N * q + (r + 1)) % N = r + 1) ∧
    (r + 1 = N → (N * q + (r + 1)) / N = q + 1 ∧ (N * q + (r + 1)) % N = 0) := by
  have hN : 0 < N := by omega
  refine ⟨fun h => ?_, fun h => ?_⟩
  · rw [Nat.mul_add_div hN, Nat.mul_add_mod, Nat.div_eq_of_lt h, Nat.mod_eq_of_lt h]
    exact ⟨rfl, rfl⟩
  · rw [Nat.mul_add_div hN, Nat.mul_add_mod, h, Nat.div_self hN, Nat.mod_self]
    exact ⟨rfl, rfl⟩

/-- Dealing one more frame in turn adds it to the core whose number is the count so far modulo
the number of cores. -/
theorem deal_succ (N k i : Nat) (hN : 0 < N) (hi : i < N) :
    (k + 1) / N + (if i < (k + 1) % N then 1 else 0) =
      k / N + (if i < k % N then 1 else 0) + (if i = k % N then 1 else 0) := by
  have hdm := Nat.div_add_mod k N
  have hlt := Nat.mod_lt k hN
  have hk : k + 1 = N * (k / N) + (k % N + 1) := by omega
  have hds := divmod_succ N (k / N) (k % N) hlt
  by_cases hr : k % N + 1 < N
  · obtain ⟨h1, h2⟩ := hds.1 hr
    rw [← hk] at h1 h2
    rw [h1, h2]
    split_ifs <;> omega
  · obtain ⟨h1, h2⟩ := hds.2 (by omega)
    rw [← hk] at h1 h2
    rw [h1, h2]
    split_ifs <;> omega

theorem freerangeLoop_lists (cfg : Cfg) (cur pa_end : Nat) (hN : 0 < cfg.NCPU)
    (hk : cfg.KERNBASE ≤ cfg.kernelEnd) (hend : pa_end ≤ cfg.PHYSTOP) :
    ∀ (n : Nat) (s : KState) (p k0 : Nat), p % PGSIZE = 0 → cfg.kernelEnd ≤ p →
      n = (pa_end - p) / PGSIZE →
      (∀ q, q % PGSIZE = 0 → p ≤ q → q + PGSIZE ≤ pa_end → s.ref (PAGEREFID cfg q) = 1) →
      (∀ i, i < cfg.NCPU →
        (s.kmem i).length = k0 / cfg.NCPU + (if i < k0 % cfg.NCPU then 1 else 0)) →
      ∃ s', freerangeLoop cfg cur pa_end n s p (k0 % cfg.NCPU) = .ret s' () ∧
        (∀ i x, x ∈ s'.kmem i ↔
          (x ∈ s.kmem i ∨ ∃ j, j < n ∧ x = p + j * PGSIZE ∧ (k0 + j) % cfg.NCPU = i)) ∧
        (∀ i, i < cfg.NCPU → (s'.kmem i).length =
          (k0 + n) / cfg.NCPU + (if i < (k0 + n) % cfg.NCPU then 1 else 0)) := by
  intro n
  induction n with
  | zero =>
    intro s p k0 _ _ _ _ hlen
    refine ⟨s, rfl, ?_, hlen⟩
    intro i x
    constructor
    · exact fun h => Or.inl h
    · rintro (h | ⟨j, hj, _⟩)
      · exact h
      · omega
  | succ n ih =>
    intro s p k0 hp hpe hn href hlen
    have hguard : p + PGSIZE ≤ pa_end := by unfold PGSIZE at *; omega
    have hgood : ¬ badPa cfg p := by unfold badPa; unfold PGSIZE at *; omega
    have hone : s.ref (PAGEREFID cfg p) = 1 := href p hp (le_refl _) hguard
    have hfree := kfree_push cfg cur s p ((k0 % cfg.NCPU : Nat) : Int) hgood (by omega)
    rw [ownerCore_natCast, hone] at hfree
    have hcpu : (k0 % cfg.NCPU + 1) % cfg.NCPU = (k0 + 1) % cfg.NCPU := by
      rw [Nat.add_mod k0 1, Nat.add_mod (k0 % cfg.NCPU) 1, Nat.mod_mod]
    obtain ⟨s', hrun, hmem, hlen'⟩ :=
      ih ⟨Function.update s.kmem (k0 % cfg.NCPU) (p :: s.kmem (k0 % cfg.NCPU)),
          Function.update s.ref (PAGEREFID cfg p) (1 - 1)⟩ (p + PGSIZE) (k0 + 1)
        (by unfold PGSIZE at *; omega) (by omega) (by unfold PGSIZE at *; omega)
        (by
          intro q hq hpq hqe
          have hne : PAGEREFID cfg q ≠ PAGEREFID cfg p := by
            intro e
            have := PAGEREFID_inj cfg q p hq hp (by omega) (by omega) e
            unfold PGSIZE at *; omega
          simp only [Function.update_noteq hne]
          exact href q hq (by omega) hqe)
        (by
          intro i hi
          rw [deal_succ cfg.NCPU k0 i hN hi, ← hlen i hi]
          by_cases hic : i = k0 % cfg.NCPU
          · subst hic; simp
          · simp [Function.update_noteq hic, hic])
    refine ⟨s', ?_, ?_, ?_⟩
    · simp only [freerangeLoop, hguard, if_true, hfree, hcpu]
      exact hrun
    · intro i x
      rw [hmem i x]
      constructor
      · rintro (h | ⟨j, hj, hx, hji⟩)
        · by_cases hic : i = k0 % cfg.NCPU
          · subst hic
            simp only [Function.update_same, List.mem_cons] at h
            rcases h with h | h
            · exact Or.inr ⟨0, by omega, by omega, by simp⟩
            · exact Or.inl h
          · simp only [Function.update_noteq hic] at h
            exact Or.inl h
        · refine Or.inr ⟨j + 1, by omega, ?_, ?_⟩
          · rw [hx]; unfold PGSIZE; omega
          · rw [← hji]; congr 1; omega
      · rintro (h | ⟨j, hj, hx, hji⟩)
        · left
          by_cases hic : i = k0 % cfg.NCPU
          · subst hic
            simp only [Function.update_same, List.mem_cons]
            exact Or.inr h
          · simp only [Function.update_noteq hic]
            exact h
        · cases j with
          | zero =>
            left
            simp only [Nat.add_zero] at hji
            subst hji
            simp only [Function.update_same, List.mem_cons]
            left; rw [hx]; omega
          | succ j =>
            refine Or.inr ⟨j, by omega, ?_, ?_⟩
            · rw [hx]; unfold PGSIZE; omega
            · rw [← hji]; congr 1; omega
    · intro i hi
      rw [hlen' i hi]
      have e : k0 + 1 + n = k0 + (n + 1) := by omega
      rw [e]

theorem count_le_occ (cfg : Cfg) (s : KState) (a i : Nat) (hi : i < cfg.NCPU) :
    (s.kmem i).count a ≤ occ cfg s a := by
  have := sum_range_update (fun j => (s.kmem j).count a)
    (fun j => if j = i then 0 else (s.kmem j).count a) cfg.NCPU i hi
    (fun j hj => by simp [hj])
  simp only [if_true] at this
  unfold occ
  omega

/-- C18. After `kinit` on the zeroed globals (at least one core, `KERNBASE` not above `end`),
the `k`-th whole page frame of the range from `end` to `PHYSTOP`, counted from 0 at the first
page-aligned address at or after `end`, is on the free list of core `k % NCPU`, once, and on no
other list; the lists hold nothing but these whole frames, so a partial trailing page is on no
list; and the lengths of the free lists of any two cores differ by at most 1. -/
theorem kinit_deals_frames_round_robin (cfg : Cfg) (cur : Nat) (hN : 0 < cfg.NCPU)
    (hk : cfg.KERNBASE ≤ cfg.kernelEnd) :
    ∃ s0, kinit cfg cur boot = .ret s0 () ∧
      (∀ k, k < frameCount cfg →
        frameAt cfg k ∈ s0.kmem (k % cfg.NCPU) ∧
        (s0.kmem (k % cfg.NCPU)).count (frameAt cfg k) = 1 ∧
        ∀ i, frameAt cfg k ∈ s0.kmem i → i = k % cfg.NCPU) ∧
      (∀ i x, x ∈ s0.kmem i → ∃ k, k < frameCount cfg ∧ x = frameAt cfg k) ∧
      (∀ i x, x ∈ s0.kmem i → x + PGSIZE ≤ cfg.PHYSTOP) ∧
      (∀ i j, i < cfg.NCPU → j < cfg.NCPU →
        (s0.kmem i).length ≤ (s0.kmem j).length + 1) := by
  obtain ⟨hal, hge, _⟩ := PGROUNDUP_spec cfg.kernelEnd
  obtain ⟨s1, hrun1, hocc, _, _, hman⟩ := kinit_spec cfg cur hN hk
  obtain ⟨s0, hrun, hmem, hlen⟩ :=
    freerangeLoop_lists cfg cur cfg.PHYSTOP hN hk (le_refl _)
      ((cfg.PHYSTOP - PGROUNDUP cfg.kernelEnd) / PGSIZE)
      ⟨boot.kmem, fun i => if i < (cfg.PHYSTOP - cfg.KERNBASE) / PGSIZE then 1 else boot.ref i⟩
      (PGROUNDUP cfg.kernelEnd) 0 hal hge rfl
      (by
        intro q hq hpq hqe
        have : PAGEREFID cfg q < (cfg.PHYSTOP - cfg.KERNBASE) / PGSIZE := by
          unfold PAGEREFID PGSIZE at *; omega
        simp [this])
      (by intro i _; simp [boot])
  have hkinit : kinit cfg cur boot = .ret s0 () := by
    rw [Nat.zero_mod] at hrun
    exact hrun
  have hs : s1 = s0 := by
    rw [hrun1] at hkinit
    simp only [Outcome.ret.injEq, and_true] at hkinit
    exact hkinit
  subst hs
  have hmem' : ∀ i x, x ∈ s1.kmem i ↔
      ∃ j, j < frameCount cfg ∧ x = frameAt cfg j ∧ j % cfg.NCPU = i := by
    intro i x
    rw [hmem i x]
    simp only [boot, List.not_mem_nil, false_or, Nat.zero_add, frameCount, frameAt]
  refine ⟨s1, hrun1, ?_, ?_, ?_, ?_⟩
  · intro k hkc
    have hin : frameAt cfg k ∈ s1.kmem (k % cfg.NCPU) := (hmem' _ _).mpr ⟨k, hkc, rfl, rfl⟩
    refine ⟨hin, ?_, ?_⟩
    · have h1 := count_le_occ cfg s1 (frameAt cfg k) (k % cfg.NCPU) (Nat.mod_lt _ hN)
      have h2 := hocc (frameAt cfg k)
      have h3 : 0 < (s1.kmem (k % cfg.NCPU)).count (frameAt cfg k) := List.count_pos_iff.mpr hin
      split at h2 <;> omega
    · intro i hi
      obtain ⟨j, _, hx, hji⟩ := (hmem' _ _).mp hi
      have : j = k := by
        unfold frameAt PGSIZE at hx; omega
      rw [← hji, this]
  · intro i x hx
    obtain ⟨j, hj, hxj, _⟩ := (hmem' _ _).mp hx
    exact ⟨j, hj, hxj⟩
  · intro i x hx
    exact (hman i x hx).2.2
  · intro i j hi hj
    have hli := hlen i hi
    have hlj := hlen j hj
    simp only [Nat.zero_add] at hli hlj
    rw [hli, hlj]
    split_ifs <;> omega

/-- Witness for C18: 3 cores and a range of 4 whole frames followed by a partial page. -/
theorem kinit_deals_frames_round_robin_witness :
    (0 < oddCfg.NCPU ∧ oddCfg.KERNBASE ≤ oddCfg.kernelEnd) ∧
    ∃ s0, kinit oddCfg 0 boot = .ret s0 () ∧
      (∀ k, k < frameCount oddCfg →
        frameAt oddCfg k ∈ s0.kmem (k % oddCfg.NCPU) ∧
        (s0.kmem (k % oddCfg.NCPU)).count (frameAt oddCfg k) = 1 ∧
        ∀ i, frameAt oddCfg k ∈ s0.kmem i → i = k % oddCfg.NCPU) ∧
      (∀ i x, x ∈ s0.kmem i → ∃ k, k < frameCount oddCfg ∧ x = frameAt oddCfg k) ∧
      (∀ i x, x ∈ s0.kmem i → x + PGSIZE ≤ oddCfg.PHYSTOP) ∧
      (∀ i j, i < oddCfg.NCPU → j < oddCfg.NCPU →
        (s0.kmem i).length ≤ (s0.kmem j).length + 1) :=
  ⟨⟨by decide, by decide⟩, kinit_deals_frames_round_robin oddCfg 0 (by decide) (by decide)⟩

end Kalloc

namespace Bio

/-! ### Lists -/

theorem pairwise_change {α : Type} (R S : α → α → Prop) (l : List α) (h : l.Pairwise R)
    (hn : l.Nodup) (himp : ∀ x y, x ∈ l → y ∈ l → x ≠ y → R x y → S x y) : l.Pairwise S :=
  (h.and hn).imp_of_mem (fun hx hy hr => himp _ _ hx hy hr.2 hr.1)

theorem pairwise_before {α : Type} (R S : α → α → Prop) (b : α) (l : List α)
    (h : l.Pairwise R) (h1 : ∀ x y, x ∈ l → y ∈ l → y ≠ b → R x y → S x y)
    (h2 : ∀ l1 l2, l = l1 ++ b :: l2 → ∀ x ∈ l1, S x b) : l.Pairwise S := by
  induction l with
  | nil => exact List.Pairwise.nil
  | cons a t ih =>
    rw [List.pairwise_cons] at h ⊢
    constructor
    · intro y hy
      by_cases hyb : y = b
      · subst hyb
        obtain ⟨t1, t2, ht⟩ := List.append_of_mem hy
        exact h2 (a :: t1) t2 (by rw [ht]; rfl) a (List.mem_cons_self _ _)
      · exact h1 a y (List.mem_cons_self _ _) (List.mem_cons_of_mem _ hy) hyb (h.1 y hy)
    · apply ih h.2
      · intro x y hx hy hyb hr
        exact h1 x y (List.mem_cons_of_mem _ hx) (List.mem_cons_of_mem _ hy) hyb hr
      · intro l1 l2 hl x hx
        exact h2 (a :: l1) l2 (by rw [hl]; rfl) x (List.mem_cons_of_mem _ hx)

theorem pairwise_either {α : Type} (R : α → α → Prop) (l : List α) (h : l.Pairwise R)
    (x y : α) (hx : x ∈ l) (hy : y ∈ l) (hne : x ≠ y) : R x y ∨ R y x := by
  induction l with
  | nil => cases hx
  | cons a t ih =>
    rw [List.pairwise_cons] at h
    rcases List.mem_cons.mp hx with hxa | hxt
    · rcases List.mem_cons.mp hy with hya | hyt
      · exact absurd (hxa.trans hya.symm) hne
      · subst hxa; exact Or.inl (h.1 y hyt)
    · rcases List.mem_cons.mp hy with hya | hyt
      · subst hya; exact Or.inr (h.1 x hxt)
      · exact ih h.2 hxt hyt

/-! ### The scans of `bget` -/

theorem isUnused_iff (s : Bcache) (b : Nat) : isUnused s b = true ↔ (s.buf b).refcnt = 0 := by
  simp [isUnused]

theorem isBlock_iff (s : Bcache) (dev blockno b : Nat) :
    isBlock s dev blockno b = true ↔ (s.buf b).dev = dev ∧ (s.buf b).blockno = blockno := by
  simp [isBlock]

theorem lruUnused_some (s : Bcache) (i b : Nat) (h : lruUnused s i = some b) :
    ∃ l1 l2, s.head i = l1 ++ b :: l2 ∧ (s.buf b).refcnt = 0 ∧
      ∀ a ∈ l2, (s.buf a).refcnt ≠ 0 := by
  unfold lruUnused at h
  obtain ⟨hb, l2r, l1r, hrev, hno⟩ := List.find?_eq_some.mp h
  refine ⟨l1r.reverse, l2r.reverse, ?_, (isUnused_iff s b).mp hb, ?_⟩
  · have := congrArg List.reverse hrev
    simpa using this
  · intro a ha
    have := hno a (List.mem_reverse.mp ha)
    intro h0
    rw [(isUnused_iff s a).mpr h0] at this
    simp at this

theorem lruUnused_none (s : Bcache) (i : Nat) (h : lruUnused s i = none) :
    ∀ a ∈ s.head i, (s.buf a).refcnt ≠ 0 := by
  unfold lruUnused at h
  intro a ha h0
  exact List.find?_eq_none.mp h a (List.mem_reverse.mpr ha) ((isUnused_iff s a).mpr h0)

theorem bgetSteal_cases (s : Bcache) (dev blockno bucket : Nat) (l : List Nat) :
    (bgetSteal s dev blockno bucket l = .halt s ∧
      ∀ i ∈ l, i ≠ bucket → ∀ a ∈ s.head i, (s.buf a).refcnt ≠ 0) ∨
    ∃ i b l1 l2, i ∈ l ∧ i ≠ bucket ∧ s.head i = l1 ++ b :: l2 ∧ (s.buf b).refcnt = 0 ∧
      (∀ a ∈ l2, (s.buf a).refcnt ≠ 0) ∧
      bgetSteal s dev blockno bucket l = .ret (stolen s b dev blockno i bucket) b := by
  induction l with
  | nil => exact Or.inl ⟨rfl, fun i hi => by cases hi⟩
  | cons i rest ih =>
    unfold bgetSteal
    by_cases hib : i = bucket
    · simp only [hib, if_true]
      rcases ih with ⟨h1, h2⟩ | ⟨j, b, l1, l2, hj, hjb, hl, h0, hno, hres⟩
      · refine Or.inl ⟨h1, ?_⟩
        intro j hj hjb
        rcases List.mem_cons.mp hj with h | h
        · exact absurd h hjb
        · exact h2 j h hjb
      · exact Or.inr ⟨j, b, l1, l2, List.mem_cons_of_mem _ hj, hjb, hl, h0, hno, hres⟩
    · simp only [hib, if_false]
      cases hfind : lruUnused s i with
      | some b =>
        obtain ⟨l1, l2, hl, h0, hno⟩ := lruUnused_some s i b hfind
        exact Or.inr ⟨i, b, l1, l2, List.mem_cons_self _ _, hib, hl, h0, hno, rfl⟩
      | none =>
        simp only
        rcases ih with ⟨h1, h2⟩ | ⟨j, b, l1, l2, hj, hjb, hl, h0, hno, hres⟩
        · refine Or.inl ⟨h1, ?_⟩
          intro j hj hjb
          rcases List.mem_cons.mp hj with h | h
          · subst h; exact lruUnused_none s j hfind
          · exact h2 j h hjb
        · exact Or.inr ⟨j, b, l1, l2, List.mem_cons_of_mem _ hj, hjb, hl, h0, hno, hres⟩

theorem bget_hit (cfg : BioCfg) (s : Bcache) (dev blockno b : Nat)
    (h : (s.head (blockno % cfg.NBUFHASH)).find? (isBlock s dev blockno) = some b) :
    bget cfg s dev blockno = .ret (incr s b) b := by
  simp only [bget, h]

theorem bget_local (cfg : BioCfg) (s : Bcache) (dev blockno b : Nat)
    (h : (s.head (blockno % cfg.NBUFHASH)).find? (isBlock s dev blockno) = none)
    (h2 : lruUnused s (blockno % cfg.NBUFHASH) = some b) :
    bget cfg s dev blockno = .ret (recycled s b dev blockno) b := by
  simp only [bget, h, h2]

theorem bget_other (cfg : BioCfg) (s : Bcache) (dev blockno : Nat)
    (h : (s.head (blockno % cfg.NBUFHASH)).find? (isBlock s dev blockno) = none)
    (h2 : lruUnused s (blockno % cfg.NBUFHASH) = none) :
    bget cfg s dev blockno =
      bgetSteal s dev blockno (blockno % cfg.NBUFHASH) (List.range cfg.NBUFHASH) := by
  simp only [bget, h, h2]

/-- The four ways `bget` can go: the block is cached; an unused buffer of the home bucket is
recycled; an unused buffer of another bucket is moved over; or there is no unused buffer. -/
theorem bget_cases (cfg : BioCfg) (s : Bcache) (dev blockno : Nat) :
    (∃ b l1 l2, s.head (blockno % cfg.NBUFHASH) = l1 ++ b :: l2 ∧
      ((s.buf b).dev = dev ∧ (s.buf b).blockno = blockno) ∧
      (∀ a ∈ l1, ¬ ((s.buf a).dev = dev ∧ (s.buf a).blockno = blockno)) ∧
      bget cfg s dev blockno = .ret (incr s b) b) ∨
    (∃ b l1 l2, (∀ a ∈ s.head (blockno % cfg.NBUFHASH),
        ¬ ((s.buf a).dev = dev ∧ (s.buf a).blockno = blockno)) ∧
      s.head (blockno % cfg.NBUFHASH) = l1 ++ b :: l2 ∧ (s.buf b).refcnt = 0 ∧
      (∀ a ∈ l2, (s.buf a).refcnt ≠ 0) ∧
      bget cfg s dev blockno = .ret (recycled s b dev blockno) b) ∨
    (∃ i b l1 l2, i < cfg.NBUFHASH ∧ i ≠ blockno % cfg.NBUFHASH ∧
      (∀ a ∈ s.head (blockno % cfg.NBUFHASH),
        ¬ ((s.buf a).dev = dev ∧ (s.buf a).blockno = blockno) ∧ (s.buf a).refcnt ≠ 0) ∧
      s.head i = l1 ++ b :: l2 ∧ (s.buf b).refcnt = 0 ∧ (∀ a ∈ l2, (s.buf a).refcnt ≠ 0) ∧
      bget cfg s dev blockno = .ret (stolen s b dev blockno i (blockno % cfg.NBUFHASH)) b) ∨
    (bget cfg s dev blockno = .halt s ∧
      (∀ a ∈ s.head (blockno % cfg.NBUFHASH),
        ¬ ((s.buf a).dev = dev ∧ (s.buf a).blockno = blockno)) ∧
      ∀ i, i < cfg.NBUFHASH → ∀ a ∈ s.head i, (s.buf a).refcnt ≠ 0) := by
  cases hfind : (s.head (blockno % cfg.NBUFHASH)).find? (isBlock s dev blockno) with
  | some b =>
    obtain ⟨hb, l1, l2, hl, hno⟩ := List.find?_eq_some.mp hfind
    refine Or.inl ⟨b, l1, l2, hl, (isBlock_iff s dev blockno b).mp hb, ?_,
      bget_hit cfg s dev blockno b hfind⟩
    intro a ha hab
    have := hno a ha
    rw [(isBlock_iff s dev blockno a).mpr hab] at this
    simp at this
  | none =>
    have hnone : ∀ a ∈ s.head (blockno % cfg.NBUFHASH),
        ¬ ((s.buf a).dev = dev ∧ (s.buf a).blockno = blockno) := by
      intro a ha hab
      exact List.find?_eq_none.mp hfind a ha ((isBlock_iff s dev blockno a).mpr hab)
    cases hlru : lruUnused s (blockno % cfg.NBUFHASH) with
    | some b =>
      obtain ⟨l1, l2, hl, h0, hno⟩ := lruUnused_some s _ b hlru
      exact Or.inr (Or.inl ⟨b, l1, l2, hnone, hl, h0, hno,
        bget_local cfg s dev blockno b hfind hlru⟩)
    | none =>
      have hused := lruUnused_none s _ hlru
      rw [bget_other cfg s dev blockno hfind hlru]
      rcases bgetSteal_cases s dev blockno (blockno % cfg.NBUFHASH) (List.range cfg.NBUFHASH)
        with ⟨h1, h2⟩ | ⟨i, b, l1, l2, hi, hib, hl, h0, hno, hres⟩
      · refine Or.inr (Or.inr (Or.inr ⟨h1, hnone, ?_⟩))
        intro i hi a ha
        by_cases hib : i = blockno % cfg.NBUFHASH
        · subst hib; exact hused a ha
        · exact h2 i (List.mem_range.mpr hi) hib a ha
      · exact Or.inr (Or.inr (Or.inl ⟨i, b, l1, l2, List.mem_range.mp hi, hib,
          fun a ha => ⟨hnone a ha, hused a ha⟩, hl, h0, hno, hres⟩))

/-! ### What each state change does to the fields -/

@[simp] theorem incr_head (s : Bcache) (b : Nat) : (incr s b).head = s.head := rfl

@[simp] theorem decr_head (s : Bcache) (b : Nat) : (decr s b).head = s.head := rfl

@[simp] theorem recycled_head (s : Bcache) (b dev blockno : Nat) :
    (recycled s b dev blockno).head = s.head := rfl

@[simp] theorem relinked_buf (s : Bcache) (b bucket : Nat) : (relinked s b bucket).buf = s.buf :=
  rfl

@[simp] theorem stolen_buf (s : Bcache) (b dev blockno i bucket : Nat) :
    (stolen s b dev blockno i bucket).buf = (recycled s b dev blockno).buf := rfl

theorem incr_buf (s : Bcache) (b x : Nat) :
    (incr s b).buf x =
      if x = b then { s.buf b with refcnt := (s.buf b).refcnt + 1 } else s.buf x := by
  simp only [incr, Function.update_apply]

theorem decr_buf (s : Bcache) (b x : Nat) :
    (decr s b).buf x =
      if x = b then { s.buf b with refcnt := (s.buf b).refcnt - 1 } else s.buf x := by
  simp only [decr, Function.update_apply]

theorem recycled_buf (s : Bcache) (b dev blockno x : Nat) :
    (recycled s b dev blockno).buf x =
      if x = b then relabel (s.buf b) dev blockno else s.buf x := by
  simp only [recycled, Function.update_apply]

@[simp] theorem incr_dev (s : Bcache) (b x : Nat) : ((incr s b).buf x).dev = (s.buf x).dev := by
  rw [incr_buf]; split <;> simp_all

@[simp] theorem incr_blockno (s : Bcache) (b x : Nat) :
    ((incr s b).buf x).blockno = (s.buf x).blockno := by
  rw [incr_buf]; split <;> simp_all

@[simp] theorem incr_valid (s : Bcache) (b x : Nat) :
    ((incr s b).buf x).valid = (s.buf x).valid := by
  rw [incr_buf]; split <;> simp_all

@[simp] theorem incr_data (s : Bcache) (b x : Nat) :
    ((incr s b).buf x).data = (s.buf x).data := by
  rw [incr_buf]; split <;> simp_all

theorem incr_refcnt (s : Bcache) (b x : Nat) :
    ((incr s b).buf x).refcnt = if x = b then (s.buf x).refcnt + 1 else (s.buf x).refcnt := by
  rw [incr_buf]; split <;> simp_all

@[simp] theorem decr_dev (s : Bcache) (b x : Nat) : ((decr s b).buf x).dev = (s.buf x).dev := by
  rw [decr_buf]; split <;> simp_all

@[simp] theorem decr_blockno (s : Bcache) (b x : Nat) :
    ((decr s b).buf x).blockno = (s.buf x).blockno := by
  rw [decr_buf]; split <;> simp_all

theorem decr_refcnt (s : Bcache) (b x : Nat) :
    ((decr s b).buf x).refcnt = if x = b then (s.buf x).refcnt - 1 else (s.buf x).refcnt := by
  rw [decr_buf]; split <;> simp_all

theorem recycled_dev (s : Bcache) (b dev blockno x : Nat) :
    ((recycled s b dev blockno).buf x).dev = if x = b then dev else (s.buf x).dev := by
  rw [recycled_buf]; split <;> simp_all [relabel]

theorem recycled_blockno (s : Bcache) (b dev blockno x : Nat) :
    ((recycled s b dev blockno).buf x).blockno =
      if x = b then blockno else (s.buf x).blockno := by
  rw [recycled_buf]; split <;> simp_all [relabel]

theorem recycled_refcnt (s : Bcache) (b dev blockno x : Nat) :
    ((recycled s b dev blockno).buf x).refcnt = if x = b then 1 else (s.buf x).refcnt := by
  rw [recycled_buf]; split <;> simp_all [relabel]

theorem recycled_valid (s : Bcache) (b dev blockno x : Nat) :
    ((recycled s b dev blockno).buf x).valid = if x = b then false else (s.buf x).valid := by
  rw [recycled_buf]; split <;> simp_all [relabel]

@[simp] theorem recycled_data (s : Bcache) (b dev blockno x : Nat) :
    ((recycled s b dev blockno).buf x).data = (s.buf x).data := by
  rw [recycled_buf]; split <;> simp_all [relabel]

theorem stolen_head (s : Bcache) (b dev blockno i bucket j : Nat) :
    (stolen s b dev blockno i bucket).head j =
      if j = bucket then b :: s.head bucket
      else if j = i then (s.head i).erase b else s.head j := by
  simp only [stolen, Function.update_apply]

theorem relinked_head (s : Bcache) (b bucket j : Nat) :
    (relinked s b bucket).head j =
      if j = bucket then b :: (s.head j).erase b else (s.head j).erase b := rfl

@[simp] theorem sameBlock_incr (s : Bcache) (b x y : Nat) :
    sameBlock (incr s b) x y ↔ sameBlock s x y := by
  simp [sameBlock]

@[simp] theorem sameBlock_decr (s : Bcache) (b x y : Nat) :
    sameBlock (decr s b) x y ↔ sameBlock s x y := by
  simp [sameBlock]

@[simp] theorem sameBlock_relinked (s : Bcache) (b bucket x y : Nat) :
    sameBlock (relinked s b bucket) x y ↔ sameBlock s x y := by
  simp [sameBlock]

/-! ### C9: `bget` leaves held buffers alone -/

theorem mem_stolen_head (s : Bcache) (b dev blockno i bucket j x : Nat)
    (hx : x ≠ b) : x ∈ (stolen s b dev blockno i bucket).head j ↔ x ∈ s.head j := by
  rw [stolen_head s b dev blockno i bucket j]
  by_cases hj : j = bucket
  · subst hj
    simp [hx]
  · by_cases hji : j = i
    · subst hji
      simp only [hj, if_false, if_true]
      exact List.mem_erase_of_ne hx
    · simp [hj, hji]

/-! ### `binit` -/

theorem binitLoop_spec (cfg : BioCfg) (_hH : 0 < cfg.NBUFHASH) :
    ∀ (n b : Nat) (head : Nat → List Nat),
      (∀ i x, x ∈ head i ↔ (x < b ∧ x % cfg.NBUFHASH = i)) → (∀ i, (head i).Nodup) →
      (∀ i x, x ∈ binitLoop cfg n b (b % cfg.NBUFHASH) head i ↔
        (x < b + n ∧ x % cfg.NBUFHASH = i)) ∧
      ∀ i, (binitLoop cfg n b (b % cfg.NBUFHASH) head i).Nodup := by
  intro n
  induction n with
  | zero => intro b head hmem hnd; exact ⟨by simpa [binitLoop] using hmem, hnd⟩
  | succ n ih =>
    intro b head hmem hnd
    have hnext : (b % cfg.NBUFHASH + 1) % cfg.NBUFHASH = (b + 1) % cfg.NBUFHASH := by
      rw [Nat.add_mod b 1, Nat.add_mod (b % cfg.NBUFHASH) 1, Nat.mod_mod]
    have hstep := ih (b + 1)
      (Function.update head (b % cfg.NBUFHASH) (b :: head (b % cfg.NBUFHASH)))
      (by
        intro i x
        by_cases hi : i = b % cfg.NBUFHASH
        · subst hi
          simp only [Function.update_same, List.mem_cons, hmem]
          constructor
          · rintro (h | h)
            · subst h; exact ⟨by omega, rfl⟩
            · exact ⟨by omega, h.2⟩
          · rintro ⟨h1, h2⟩
            by_cases hxb : x = b
            · exact Or.inl hxb
            · exact Or.inr ⟨by omega, h2⟩
        · simp only [Function.update_noteq hi, hmem]
          constructor
          · rintro ⟨h1, h2⟩; exact ⟨by omega, h2⟩
          · rintro ⟨h1, h2⟩
            refine ⟨?_, h2⟩
            by_contra hge
            have : x = b := by omega
            subst this
            exact hi h2.symm)
      (by
        intro i
        by_cases hi : i = b % cfg.NBUFHASH
        · subst hi
          simp only [Function.update_same, List.nodup_cons]
          refine ⟨?_, hnd _⟩
          intro hb
          have := ((hmem _ _).mp hb).1
          omega
        · simp only [Function.update_noteq hi]
          exact hnd i)
    simp only [binitLoop, hnext]
    have e : b + (n + 1) = b + 1 + n := by omega
    rw [e]
    exact hstep

theorem binit_mem (cfg : BioCfg) (hH : 0 < cfg.NBUFHASH) (i x : Nat) :
    x ∈ (binit cfg bootCache).head i ↔ (x < cfg.NBUF ∧ x % cfg.NBUFHASH = i) := by
  have := (binitLoop_spec cfg hH cfg.NBUF 0
    (fun i => if i < cfg.NBUFHASH then [] else bootCache.head i)
    (by intro i x; simp [bootCache]) (by intro i; simp [bootCache])).1 i x
  simpa [binit] using this

theorem binit_nodup (cfg : BioCfg) (hH : 0 < cfg.NBUFHASH) (i : Nat) :
    ((binit cfg bootCache).head i).Nodup := by
  have := (binitLoop_spec cfg hH cfg.NBUF 0
    (fun i => if i < cfg.NBUFHASH then [] else bootCache.head i)
    (by intro i x; simp [bootCache]) (by intro i; simp [bootCache])).2 i
  simpa [binit] using this

theorem binit_refcnt (cfg : BioCfg) (b : Nat) : ((binit cfg bootCache).buf b).refcnt = 0 := rfl

theorem linked_binit (cfg : BioCfg) (hH : 0 < cfg.NBUFHASH) : Linked (binit cfg bootCache) := by
  refine ⟨binit_nodup cfg hH, ?_⟩
  intro i j b hi hj
  rw [binit_mem cfg hH] at hi hj
  omega

/-! ### The rings stay a partition -/

theorem linked_of_head_eq (s s1 : Bcache) (h : s1.head = s.head) (hL : Linked s) :
    Linked s1 := by
  unfold Linked at *
  rw [h]
  exact hL

theorem linked_stolen (s : Bcache) (b dev blockno i bucket : Nat) (hL : Linked s)
    (hib : i ≠ bucket) (hb : b ∈ s.head i) : Linked (stolen s b dev blockno i bucket) := by
  obtain ⟨hnd, hdis⟩ := hL
  have hnot : b ∉ s.head bucket := fun h => hib (hdis i bucket b hb h)
  have hmem : ∀ j x, x ∈ (stolen s b dev blockno i bucket).head j →
      (x = b ∧ j = bucket) ∨ (x ≠ b ∧ x ∈ s.head j) := by
    intro j x hx
    rw [stolen_head] at hx
    by_cases hj : j = bucket
    · subst hj
      simp only [if_true, List.mem_cons] at hx
      rcases hx with h | h
      · exact Or.inl ⟨h, rfl⟩
      · exact Or.inr ⟨fun e => hnot (e ▸ h), h⟩
    · simp only [hj, if_false] at hx
      by_cases hji : j = i
      · subst hji
        simp only [if_true] at hx
        have := (List.Nodup.mem_erase_iff (hnd j)).mp hx
        exact Or.inr ⟨this.1, this.2⟩
      · simp only [hji, if_false] at hx
        refine Or.inr ⟨?_, hx⟩
        intro e
        subst e
        exact hji (hdis j i x hx hb)
  refine ⟨?_, ?_⟩
  · intro j
    rw [stolen_head]
    by_cases hj : j = bucket
    · subst hj
      simp only [if_true, List.nodup_cons]
      exact ⟨hnot, hnd j⟩
    · simp only [hj, if_false]
      by_cases hji : j = i
      · subst hji
        simp only [if_true]
        exact (hnd j).erase b
      · simp only [hji, if_false]
        exact hnd j
  · intro j k x hj hk
    rcases hmem j x hj with ⟨h1, h2⟩ | ⟨h1, h2⟩
    · rcases hmem k x hk with ⟨_, h4⟩ | ⟨h3, _⟩
      · rw [h2, h4]
      · exact absurd h1 h3
    · rcases hmem k x hk with ⟨h3, _⟩ | ⟨_, h4⟩
      · exact absurd h3 h1
      · exact hdis j k x h2 h4

theorem linked_relinked (s : Bcache) (b bucket : Nat) (hL : Linked s) :
    Linked (relinked s b bucket) := by
  obtain ⟨hnd, hdis⟩ := hL
  have hmem : ∀ j x, x ∈ (relinked s b bucket).head j →
      (x = b ∧ j = bucket) ∨ (x ≠ b ∧ x ∈ s.head j) := by
    intro j x hx
    rw [relinked_head] at hx
    by_cases hj : j = bucket
    · simp only [hj, if_true, List.mem_cons] at hx
      rcases hx with h | h
      · exact Or.inl ⟨h, hj⟩
      · have := (List.Nodup.mem_erase_iff (hnd bucket)).mp h
        exact Or.inr ⟨this.1, hj ▸ this.2⟩
    · simp only [hj, if_false] at hx
      have := (List.Nodup.mem_erase_iff (hnd j)).mp hx
      exact Or.inr ⟨this.1, this.2⟩
  refine ⟨?_, ?_⟩
  · intro j
    rw [relinked_head]
    by_cases hj : j = bucket
    · simp only [hj, if_true, List.nodup_cons]
      exact ⟨(hnd bucket).not_mem_erase, (hnd bucket).erase b⟩
    · simp only [hj, if_false]
      exact (hnd j).erase b
  · intro j k x hj hk
    rcases hmem j x hj with ⟨h1, h2⟩ | ⟨h1, h2⟩
    · rcases hmem k x hk with ⟨_, h4⟩ | ⟨h3, _⟩
      · rw [h2, h4]
      · exact absurd h1 h3
    · rcases hmem k x hk with ⟨h3, _⟩ | ⟨_, h4⟩
      · exact absurd h3 h1
      · exact hdis j k x h2 h4

theorem mem_relinked_head (s : Bcache) (b bucket j x : Nat) (hx : x ≠ b)
    (h : x ∈ s.head j) : x ∈ (relinked s b bucket).head j := by
  rw [relinked_head]
  have := (List.mem_erase_of_ne hx).mpr h
  by_cases hj : j = bucket
  · simp only [hj, if_true]
    exact List.mem_cons_of_mem _ (hj ▸ this)
  · simp only [hj, if_false]
    exact this

theorem brelse_halt (cfg : BioCfg) (s : Bcache) (b : Nat) :
    brelse cfg s b false = .halt s := by
  simp [brelse]

theorem brelse_zero (cfg : BioCfg) (s : Bcache) (b : Nat) (h : (s.buf b).refcnt = 1) :
    brelse cfg s b true =
      .ret (relinked (decr s b) b ((s.buf b).blockno % cfg.NBUFHASH)) () := by
  simp [brelse, decr_refcnt, h]

theorem brelse_keep (cfg : BioCfg) (s : Bcache) (b : Nat) (h : (s.buf b).refcnt ≠ 1) :
    brelse cfg s b true = .ret (decr s b) () := by
  have : ¬ ((s.buf b).refcnt - 1 = 0) := by omega
  simp [brelse, decr_refcnt, this]

/-- Every call that returns changes the cache in one of the seven ways of `Change`. -/
theorem bstep_change (cfg : BioCfg) (s s1 : Bcache) (op : BOp) (v : Option Nat)
    (h : bstep cfg s op = .ret s1 v) : Change cfg s op s1 v := by
  cases op with
  | get dev blockno =>
    simp only [bstep] at h
    rcases bget_cases cfg s dev blockno with
      ⟨b0, l1, l2, hl, hid, hfirst, hres⟩ | ⟨b0, l1, l2, hnone, hl, h0, hno, hres⟩ |
      ⟨i, b0, l1, l2, hi, hib, hhome, hl, h0, hno, hres⟩ | ⟨hres, _, _⟩
    · rw [hres] at h
      simp only [Outcome.ret.injEq] at h
      rw [← h.1, ← h.2]
      exact Change.hit dev blockno b0 l1 l2 hl hid hfirst
    · rw [hres] at h
      simp only [Outcome.ret.injEq] at h
      rw [← h.1, ← h.2]
      exact Change.recycle dev blockno b0 l1 l2 hnone hl h0 hno
    · rw [hres] at h
      simp only [Outcome.ret.injEq] at h
      rw [← h.1, ← h.2]
      exact Change.steal dev blockno i b0 l1 l2 hi hib hhome hl h0 hno
    · rw [hres] at h; cases h
  | release b holding =>
    simp only [bstep] at h
    cases holding with
    | false => rw [brelse_halt] at h; cases h
    | true =>
      by_cases h1 : (s.buf b).refcnt = 1
      · rw [brelse_zero cfg s b h1] at h
        simp only [Outcome.ret.injEq] at h
        rw [← h.1, ← h.2]
        exact Change.relZero b h1
      · rw [brelse_keep cfg s b h1] at h
        simp only [Outcome.ret.injEq] at h
        rw [← h.1, ← h.2]
        exact Change.relKeep b h1
  | pin b =>
    simp only [bstep, Outcome.ret.injEq] at h
    rw [← h.1, ← h.2]
    exact Change.pin b
  | unpin b =>
    simp only [bstep, Outcome.ret.injEq] at h
    rw [← h.1, ← h.2]
    exact Change.unpin b

/-- Every call that returns keeps the rings a partition, however the interface is used. -/
theorem bstep_linked (cfg : BioCfg) (s s1 : Bcache) (op : BOp) (v : Option Nat)
    (hL : Linked s) (h : bstep cfg s op = .ret s1 v) : Linked s1 := by
  cases bstep_change cfg s s1 op v h with
  | hit dev blockno b l1 l2 hl hid hfirst => exact linked_of_head_eq s _ rfl hL
  | recycle dev blockno b l1 l2 hnone hl h0 hno => exact linked_of_head_eq s _ rfl hL
  | steal dev blockno i b l1 l2 hi hib hhome hl h0 hno =>
    exact linked_stolen s b dev blockno i _ hL hib (by rw [hl]; simp)
  | relZero b h1 => exact linked_relinked _ b _ (linked_of_head_eq s _ rfl hL)
  | relKeep b h1 => exact linked_of_head_eq s _ rfl hL
  | pin b => exact linked_of_head_eq s _ rfl hL
  | unpin b => exact linked_of_head_eq s _ rfl hL

theorem brun_linked (cfg : BioCfg) (hH : 0 < cfg.NBUFHASH) (use : Bcache → BOp → Prop)
    (g : Ghost) (s : Bcache) (h : BRun cfg use g s) : Linked s := by
  induction h with
  | init => exact linked_binit cfg hH
  | step g s s1 op v _ _ hs ih => exact bstep_linked cfg s s1 op v ih hs

/-! ### Held buffers live in their home bucket -/

theorem change_heldHome (cfg : BioCfg) (s s1 : Bcache) (op : BOp) (v : Option Nat)
    (hc : Change cfg s op s1 v) (hu : heldCalls s op) (hH : HeldHome cfg s) :
    HeldHome cfg s1 := by
  cases hc with
  | hit dev blockno b l1 l2 hl hid hfirst =>
    intro x hx
    simp only [incr_blockno, incr_head]
    by_cases hxb : x = b
    · subst hxb
      rw [hid.2, hl]
      simp
    · simp only [incr_refcnt, hxb, if_false] at hx
      exact hH x hx
  | recycle dev blockno b l1 l2 hnone hl h0 hno =>
    intro x hx
    simp only [recycled_blockno, recycled_head]
    by_cases hxb : x = b
    · subst hxb
      simp only [if_true, hl]
      simp
    · simp only [recycled_refcnt, hxb, if_false] at hx
      simp only [hxb, if_false]
      exact hH x hx
  | steal dev blockno i b l1 l2 hi hib hhome hl h0 hno =>
    intro x hx
    simp only [stolen_buf, recycled_blockno]
    by_cases hxb : x = b
    · subst hxb
      simp only [if_true, stolen_head]
      simp
    · simp only [stolen_buf, recycled_refcnt, hxb, if_false] at hx
      simp only [hxb, if_false]
      exact (mem_stolen_head s b dev blockno i _ _ x hxb).mpr (hH x hx)
  | relZero b h1 =>
    intro x hx
    simp only [relinked_buf, decr_blockno]
    simp only [relinked_buf, decr_refcnt] at hx
    by_cases hxb : x = b
    · subst hxb
      simp only [if_true] at hx
      omega
    · simp only [hxb, if_false] at hx
      exact mem_relinked_head _ b _ _ x hxb (hH x hx)
  | relKeep b h1 =>
    intro x hx
    simp only [decr_blockno, decr_head]
    simp only [decr_refcnt] at hx
    apply hH x
    split at hx <;> omega
  | pin b =>
    intro x hx
    simp only [incr_blockno, incr_head]
    simp only [incr_refcnt] at hx
    apply hH x
    by_cases hxb : x = b
    · subst hxb; exact hu
    · simpa [hxb] using hx
  | unpin b =>
    intro x hx
    simp only [decr_blockno, decr_head]
    simp only [decr_refcnt] at hx
    apply hH x
    split at hx <;> omega

/-! ### Of the buffers carrying one block, only the first of a ring can be held -/

theorem nodup_split_unique {α : Type} (b : α) :
    ∀ (l1 l2 m1 m2 : List α), (l1 ++ b :: l2).Nodup → l1 ++ b :: l2 = m1 ++ b :: m2 →
      l1 = m1 := by
  intro l1
  induction l1 with
  | nil =>
    intro l2 m1 m2 hnd h
    cases m1 with
    | nil => rfl
    | cons a m1 =>
      simp only [List.nil_append, List.cons_append, List.cons.injEq] at h
      obtain ⟨hba, hl2⟩ := h
      simp only [List.nil_append, List.nodup_cons] at hnd
      exact absurd (by rw [hl2]; simp) hnd.1
  | cons a l1 ih =>
    intro l2 m1 m2 hnd h
    cases m1 with
    | nil =>
      simp only [List.nil_append, List.cons_append, List.cons.injEq] at h
      obtain ⟨hab, _⟩ := h
      simp only [List.cons_append, List.nodup_cons] at hnd
      exact absurd (by rw [hab]; simp) hnd.1
    | cons a1 m1 =>
      simp only [List.cons_append, List.cons.injEq] at h
      simp only [List.cons_append, List.nodup_cons] at hnd
      rw [h.1, ih l2 m1 m2 hnd.2 h.2]

theorem sameBlock_symm (s : Bcache) (x y : Nat) (h : sameBlock s x y) : sameBlock s y x :=
  ⟨h.1.symm, h.2.symm⟩

theorem firstHeld_binit (cfg : BioCfg) : FirstHeld (binit cfg bootCache) := by
  intro i
  exact List.pairwise_of_forall (fun x y _ => binit_refcnt cfg y)

theorem change_firstHeld (cfg : BioCfg) (s s1 : Bcache) (op : BOp) (v : Option Nat)
    (hc : Change cfg s op s1 v) (hu : heldCalls s op) (hL : Linked s) (hH : HeldHome cfg s)
    (hF : FirstHeld s) : FirstHeld s1 := by
  cases hc with
  | hit dev blockno b l1 l2 hl hid hfirst =>
    intro i
    simp only [incr_head]
    apply pairwise_before _ _ b (s.head i) (hF i)
    · intro x y _ _ hyb hr hsame
      simp only [incr_refcnt, hyb, if_false]
      exact hr ((sameBlock_incr s b x y).mp hsame)
    · intro m1 m2 hm x hx hsame
      exfalso
      have hbi : b ∈ s.head i := by rw [hm]; simp
      have hbh : b ∈ s.head (blockno % cfg.NBUFHASH) := by rw [hl]; simp
      have hi := hL.2 i _ b hbi hbh
      subst hi
      have hnd := hL.1 (blockno % cfg.NBUFHASH)
      rw [hl] at hnd
      have := nodup_split_unique b l1 l2 m1 m2 hnd (hl.symm.trans hm)
      subst this
      have hs := (sameBlock_incr s b x b).mp hsame
      exact hfirst x hx ⟨hs.1.trans hid.1, hs.2.trans hid.2⟩
  | recycle dev blockno b l1 l2 hnone hl h0 hno =>
    intro i
    simp only [recycled_head]
    have hbh : b ∈ s.head (blockno % cfg.NBUFHASH) := by rw [hl]; simp
    apply pairwise_change _ _ (s.head i) (hF i) (hL.1 i)
    intro x y hx hy hxy hr hsame
    simp only [sameBlock, recycled_dev, recycled_blockno] at hsame
    by_cases hyb : y = b
    · exfalso
      subst hyb
      have hxb : x ≠ y := hxy
      have hi := hL.2 i _ y hy hbh
      subst hi
      simp only [hxb, if_false, if_true] at hsame
      exact hnone x hx hsame
    · simp only [recycled_refcnt, hyb, if_false]
      by_cases hxb : x = b
      · exfalso
        subst hxb
        have hi := hL.2 i _ x hx hbh
        subst hi
        simp only [hyb, if_false, if_true] at hsame
        exact hnone y hy ⟨hsame.1.symm, hsame.2.symm⟩
      · simp only [hxb, hyb, if_false] at hsame
        exact hr hsame
  | steal dev blockno i b l1 l2 hi hib hhome hl h0 hno =>
    have hbi : b ∈ s.head i := by rw [hl]; simp
    have hnot : b ∉ s.head (blockno % cfg.NBUFHASH) := fun h => hib (hL.2 i _ b hbi h)
    have hkeep : ∀ l : List Nat, b ∉ l → l.Pairwise
        (fun x y => sameBlock s x y → (s.buf y).refcnt = 0) →
        l.Pairwise (fun x y => sameBlock (stolen s b dev blockno i (blockno % cfg.NBUFHASH)) x y →
          ((stolen s b dev blockno i (blockno % cfg.NBUFHASH)).buf y).refcnt = 0) := by
      intro l hbl hp
      apply hp.imp_of_mem
      intro x y hx hy hr hsame
      have hxb : x ≠ b := fun e => hbl (e ▸ hx)
      have hyb : y ≠ b := fun e => hbl (e ▸ hy)
      simp only [sameBlock, stolen_buf, recycled_dev, recycled_blockno, hxb, hyb,
        if_false] at hsame
      simp only [stolen_buf, recycled_refcnt, hyb, if_false]
      exact hr hsame
    intro j
    rw [stolen_head]
    by_cases hj : j = blockno % cfg.NBUFHASH
    · simp only [hj, if_true, List.pairwise_cons]
      refine ⟨?_, hkeep _ hnot (hF _)⟩
      intro y hy hsame
      exfalso
      have hyb : y ≠ b := fun e => hnot (e ▸ hy)
      simp only [sameBlock, stolen_buf, recycled_dev, recycled_blockno, hyb, if_false,
        if_true] at hsame
      exact (hhome y hy).1 ⟨hsame.1.symm, hsame.2.symm⟩
    · simp only [hj, if_false]
      by_cases hji : j = i
      · simp only [hji, if_true]
        exact hkeep _ (hL.1 i).not_mem_erase ((hF i).sublist (List.erase_sublist b _))
      · simp only [hji, if_false]
        exact hkeep _ (fun h => hji (hL.2 j i b h hbi)) (hF j)
  | relZero b h1 =>
    have hbh : b ∈ s.head ((s.buf b).blockno % cfg.NBUFHASH) := hH b (by omega)
    have hkeep : ∀ l : List Nat, l.Pairwise
        (fun x y => sameBlock s x y → (s.buf y).refcnt = 0) →
        l.Pairwise (fun x y =>
          sameBlock (relinked (decr s b) b ((s.buf b).blockno % cfg.NBUFHASH)) x y →
          ((relinked (decr s b) b ((s.buf b).blockno % cfg.NBUFHASH)).buf y).refcnt = 0) := by
      intro l hp
      apply hp.imp
      intro x y hr hsame
      simp only [sameBlock_relinked, sameBlock_decr] at hsame
      simp only [relinked_buf, decr_refcnt]
      split
      · rename_i hyb; rw [hyb, h1]; rfl
      · exact hr hsame
    intro j
    rw [relinked_head]
    simp only [decr_head]
    by_cases hj : j = (s.buf b).blockno % cfg.NBUFHASH
    · simp only [hj, if_true, List.pairwise_cons]
      refine ⟨?_, hkeep _ ((hF _).sublist (List.erase_sublist b _))⟩
      intro y hy hsame
      simp only [sameBlock_relinked, sameBlock_decr] at hsame
      have hy2 := (List.Nodup.mem_erase_iff (hL.1 _)).mp hy
      simp only [relinked_buf, decr_refcnt, hy2.1, if_false]
      rcases pairwise_either _ _ (hF _) b y hbh hy2.2 (fun e => hy2.1 e.symm) with hr | hr
      · exact hr hsame
      · have := hr (sameBlock_symm s b y hsame)
        omega
    · simp only [hj, if_false]
      exact hkeep _ ((hF j).sublist (List.erase_sublist b _))
  | relKeep b h1 =>
    intro i
    simp only [decr_head]
    apply (hF i).imp
    intro x y hr hsame
    have hs := (sameBlock_decr s b x y).mp hsame
    simp only [decr_refcnt]
    split
    · rename_i hyb
      subst hyb
      have := hr hs
      simp only [heldCalls] at hu
      omega
    · exact hr hs
  | pin b =>
    intro i
    simp only [incr_head]
    apply (hF i).imp
    intro x y hr hsame
    have hs := (sameBlock_incr s b x y).mp hsame
    simp only [incr_refcnt]
    split
    · rename_i hyb
      subst hyb
      have := hr hs
      simp only [heldCalls] at hu
      omega
    · exact hr hs
  | unpin b =>
    intro i
    simp only [decr_head]
    apply (hF i).imp
    intro x y hr hsame
    have hs := (sameBlock_decr s b x y).mp hsame
    simp only [decr_refcnt]
    split
    · rename_i hyb
      subst hyb
      have := hr hs
      simp only [heldCalls] at hu
      omega
    · exact hr hs

theorem brun_held (cfg : BioCfg) (hH : 0 < cfg.NBUFHASH) (g : Ghost) (s : Bcache)
    (h : BRun cfg heldCalls g s) : Linked s ∧ HeldHome cfg s ∧ FirstHeld s := by
  induction h with
  | init =>
    refine ⟨linked_binit cfg hH, ?_, firstHeld_binit cfg⟩
    intro b hb
    rw [binit_refcnt] at hb
    omega
  | step g s s1 op v _ hu hs ih =>
    have hc := bstep_change cfg s s1 op v hs
    exact ⟨bstep_linked cfg s s1 op v ih.1 hs, change_heldHome cfg s s1 op v hc hu ih.2.1,
      change_firstHeld cfg s s1 op v hc hu ih.1 ih.2.1 ih.2.2⟩

/-! ### The count of a buffer is the number of its outstanding holders -/

theorem brun_refcnt (cfg : BioCfg) (use : Bcache → BOp → Prop) (g : Ghost) (s : Bcache)
    (h : BRun cfg use g s) : ∀ b, (s.buf b).refcnt = holders b g.hist := by
  induction h with
  | init => intro b; rfl
  | step g s s1 op v _ _ hs ih =>
    intro x
    have hx := ih x
    cases bstep_change cfg s s1 op v hs with
    | hit dev blockno b l1 l2 hl hid hfirst =>
      simp only [Ghost.record, holders, incr_refcnt, Option.some.injEq]
      by_cases hxb : x = b
      · subst hxb
        simp only [if_true]; omega
      · have hbx : ¬ b = x := fun e => hxb e.symm
        simp only [hxb, hbx, if_false]; omega
    | recycle dev blockno b l1 l2 hnone hl h0 hno =>
      simp only [Ghost.record, holders, recycled_refcnt, Option.some.injEq]
      by_cases hxb : x = b
      · subst hxb
        simp only [if_true]; omega
      · have hbx : ¬ b = x := fun e => hxb e.symm
        simp only [hxb, hbx, if_false]; omega
    | steal dev blockno i b l1 l2 hi hib hhome hl h0 hno =>
      simp only [Ghost.record, holders, stolen_buf, recycled_refcnt, Option.some.injEq]
      by_cases hxb : x = b
      · subst hxb
        simp only [if_true]; omega
      · have hbx : ¬ b = x := fun e => hxb e.symm
        simp only [hxb, hbx, if_false]; omega
    | relZero b h1 =>
      simp only [Ghost.record, holders, relinked_buf, decr_refcnt]
      by_cases hxb : x = b
      · subst hxb
        simp only [if_true]; omega
      · have hbx : ¬ b = x := fun e => hxb e.symm
        simp only [hxb, hbx, if_false]; omega
    | relKeep b h1 =>
      simp only [Ghost.record, holders, decr_refcnt]
      by_cases hxb : x = b
      · subst hxb
        simp only [if_true]; omega
      · have hbx : ¬ b = x := fun e => hxb e.symm
        simp only [hxb, hbx, if_false]; omega
    | pin b =>
      simp only [Ghost.record, holders, incr_refcnt]
      by_cases hxb : x = b
      · subst hxb
        simp only [if_true]; omega
      · have hbx : ¬ b = x := fun e => hxb e.symm
        simp only [hxb, hbx, if_false]; omega
    | unpin b =>
      simp only [Ghost.record, holders, decr_refcnt]
      by_cases hxb : x = b
      · subst hxb
        simp only [if_true]; omega
      · have hbx : ¬ b = x := fun e => hxb e.symm
        simp only [hxb, hbx, if_false]; omega

/-! ### Recency order of the unused buffers -/

theorem since_same (g : Ghost) (s s1 : Bcache) (op : BOp) (v : Option Nat)
    (h : ∀ x, ¬ ((s.buf x).refcnt ≠ 0 ∧ (s1.buf x).refcnt = 0)) :
    (g.record s s1 op v).since = g.since := by
  funext x
  simp only [Ghost.record, h x, if_false]

theorem lruOrdered_imp (g g1 : Ghost) (s s1 : Bcache) (l : List Nat)
    (hs : g1.since = g.since) (hz : ∀ x ∈ l, (s1.buf x).refcnt = 0 → (s.buf x).refcnt = 0)
    (h : l.Pairwise (fun x y => (s.buf x).refcnt = 0 → (s.buf y).refcnt = 0 →
      g.since y ≤ g.since x)) :
    l.Pairwise (fun x y => (s1.buf x).refcnt = 0 → (s1.buf y).refcnt = 0 →
      g1.since y ≤ g1.since x) := by
  apply h.imp_of_mem
  intro x y hx hy hr h1 h2
  rw [hs]
  exact hr (hz x hx h1) (hz y hy h2)

/-- Under `pinnedCalls` every call keeps the counts non-negative, the time stamps in the past, and
the unused buffers of each ring ordered by the time they became unused. -/
theorem change_lru (cfg : BioCfg) (g : Ghost) (s s1 : Bcache) (op : BOp) (v : Option Nat)
    (hc : Change cfg s op s1 v) (hu : pinnedCalls s op) (hL : Linked s)
    (hN : ∀ b, 0 ≤ (s.buf b).refcnt) (hT : ∀ b, g.since b ≤ g.hist.length)
    (hO : LruOrdered g s) :
    (∀ b, 0 ≤ (s1.buf b).refcnt) ∧
    (∀ b, (g.record s s1 op v).since b ≤ (g.record s s1 op v).hist.length) ∧
    LruOrdered (g.record s s1 op v) s1 := by
  have hT1 : ∀ b, (g.record s s1 op v).since b ≤ (g.record s s1 op v).hist.length := by
    intro b
    simp only [Ghost.record, List.length_cons]
    split
    · exact le_refl _
    · exact Nat.le_succ_of_le (hT b)
  cases hc with
  | hit dev blockno b l1 l2 hl hid hfirst =>
    have hN1 : ∀ x, 0 ≤ ((incr s b).buf x).refcnt := by
      intro x; have := hN x; simp only [incr_refcnt]; split <;> omega
    have hsame := since_same g s (incr s b) (.get dev blockno) (some b) (by
      intro x; have := hN x; simp only [incr_refcnt]; split <;> omega)
    refine ⟨hN1, hT1, fun i => lruOrdered_imp g _ s _ _ hsame ?_ (hO i)⟩
    intro x _; have := hN x; simp only [incr_refcnt]; split <;> omega
  | recycle dev blockno b l1 l2 hnone hl h0 hno =>
    have hN1 : ∀ x, 0 ≤ ((recycled s b dev blockno).buf x).refcnt := by
      intro x; have := hN x; simp only [recycled_refcnt]; split <;> omega
    have hsame := since_same g s (recycled s b dev blockno) (.get dev blockno) (some b) (by
      intro x; simp only [recycled_refcnt]; split <;> omega)
    refine ⟨hN1, hT1, fun i => lruOrdered_imp g _ s _ _ hsame ?_ (hO i)⟩
    intro x _; simp only [recycled_refcnt]; split <;> omega
  | steal dev blockno i b l1 l2 hi hib hhome hl h0 hno =>
    have hN1 : ∀ x, 0 ≤ ((stolen s b dev blockno i (blockno % cfg.NBUFHASH)).buf x).refcnt := by
      intro x; have := hN x; simp only [stolen_buf, recycled_refcnt]; split <;> omega
    have hsame := since_same g s (stolen s b dev blockno i (blockno % cfg.NBUFHASH))
      (.get dev blockno) (some b) (by
        intro x; simp only [stolen_buf, recycled_refcnt]; split <;> omega)
    have hz : ∀ x, ((stolen s b dev blockno i (blockno % cfg.NBUFHASH)).buf x).refcnt = 0 →
        (s.buf x).refcnt = 0 := by
      intro x; simp only [stolen_buf, recycled_refcnt]; split <;> omega
    refine ⟨hN1, hT1, ?_⟩
    intro j
    rw [stolen_head]
    by_cases hj : j = blockno % cfg.NBUFHASH
    · simp only [hj, if_true, List.pairwise_cons]
      refine ⟨?_, lruOrdered_imp g _ s _ _ hsame (fun x _ => hz x) (hO _)⟩
      intro y _ hb0
      simp [stolen_buf, recycled_refcnt] at hb0
    · simp only [hj, if_false]
      by_cases hji : j = i
      · simp only [hji, if_true]
        exact lruOrdered_imp g _ s _ _ hsame (fun x _ => hz x)
          ((hO i).sublist (List.erase_sublist b _))
      · simp only [hji, if_false]
        exact lruOrdered_imp g _ s _ _ hsame (fun x _ => hz x) (hO j)
  | relZero b h1 =>
    have hN1 : ∀ x, 0 ≤ ((relinked (decr s b) b ((s.buf b).blockno % cfg.NBUFHASH)).buf
        x).refcnt := by
      intro x; have := hN x; simp only [relinked_buf, decr_refcnt]
      split <;> [(subst_vars; omega); omega]
    have hsb : (g.record s (relinked (decr s b) b ((s.buf b).blockno % cfg.NBUFHASH))
        (.release b true) none).since b = g.hist.length + 1 := by
      simp [Ghost.record, relinked_buf, decr_refcnt, h1]
    have hsx : ∀ x, x ≠ b →
        (g.record s (relinked (decr s b) b ((s.buf b).blockno % cfg.NBUFHASH))
          (.release b true) none).since x = g.since x := by
      intro x hx
      simp [Ghost.record, relinked_buf, decr_refcnt, hx]
    have hkeep : ∀ l : List Nat, b ∉ l →
        l.Pairwise (fun x y => (s.buf x).refcnt = 0 → (s.buf y).refcnt = 0 →
          g.since y ≤ g.since x) →
        l.Pairwise (fun x y =>
          ((relinked (decr s b) b ((s.buf b).blockno % cfg.NBUFHASH)).buf x).refcnt = 0 →
          ((relinked (decr s b) b ((s.buf b).blockno % cfg.NBUFHASH)).buf y).refcnt = 0 →
          (g.record s (relinked (decr s b) b ((s.buf b).blockno % cfg.NBUFHASH))
            (.release b true) none).since y ≤
          (g.record s (relinked (decr s b) b ((s.buf b).blockno % cfg.NBUFHASH))
            (.release b true) none).since x) := by
      intro l hbl hp
      apply hp.imp_of_mem
      intro x y hx hy hr hx0 hy0
      have hxb : x ≠ b := fun e => hbl (e ▸ hx)
      have hyb : y ≠ b := fun e => hbl (e ▸ hy)
      simp only [relinked_buf, decr_refcnt, hxb, if_false] at hx0
      simp only [relinked_buf, decr_refcnt, hyb, if_false] at hy0
      rw [hsx x hxb, hsx y hyb]
      exact hr hx0 hy0
    refine ⟨hN1, hT1, ?_⟩
    intro j
    rw [relinked_head]
    simp only [decr_head]
    by_cases hj : j = (s.buf b).blockno % cfg.NBUFHASH
    · simp only [hj, if_true, List.pairwise_cons]
      refine ⟨?_, hkeep _ (hL.1 _).not_mem_erase ((hO _).sublist (List.erase_sublist b _))⟩
      intro y hy _ _
      have hyb := ((List.Nodup.mem_erase_iff (hL.1 _)).mp hy).1
      rw [hsb, hsx y hyb]
      exact Nat.le_succ_of_le (hT y)
    · simp only [hj, if_false]
      exact hkeep _ (hL.1 _).not_mem_erase ((hO j).sublist (List.erase_sublist b _))
  | relKeep b h1 =>
    simp only [pinnedCalls] at hu
    have hN1 : ∀ x, 0 ≤ ((decr s b).buf x).refcnt := by
      intro x; have := hN x; simp only [decr_refcnt]; split <;> [(subst_vars; omega); omega]
    have hsame := since_same g s (decr s b) (.release b true) none (by
      intro x; simp only [decr_refcnt]; split <;> [(subst_vars; omega); omega])
    refine ⟨hN1, hT1, fun i => lruOrdered_imp g _ s _ _ hsame ?_ (hO i)⟩
    intro x _; simp only [decr_refcnt]; split <;> [(subst_vars; omega); omega]
  | pin b =>
    have hN1 : ∀ x, 0 ≤ ((incr s b).buf x).refcnt := by
      intro x; have := hN x; simp only [incr_refcnt]; split <;> omega
    have hsame := since_same g s (incr s b) (.pin b) none (by
      intro x; have := hN x; simp only [incr_refcnt]; split <;> omega)
    refine ⟨hN1, hT1, fun i => lruOrdered_imp g _ s _ _ hsame ?_ (hO i)⟩
    intro x _; have := hN x; simp only [incr_refcnt]; split <;> omega
  | unpin b =>
    simp only [pinnedCalls] at hu
    have hN1 : ∀ x, 0 ≤ ((decr s b).buf x).refcnt := by
      intro x; have := hN x; simp only [decr_refcnt]; split <;> [(subst_vars; omega); omega]
    have hsame := since_same g s (decr s b) (.unpin b) none (by
      intro x; simp only [decr_refcnt]; split <;> [(subst_vars; omega); omega])
    refine ⟨hN1, hT1, fun i => lruOrdered_imp g _ s _ _ hsame ?_ (hO i)⟩
    intro x _; simp only [decr_refcnt]; split <;> [(subst_vars; omega); omega]

theorem brun_lru (cfg : BioCfg) (hH : 0 < cfg.NBUFHASH) (g : Ghost) (s : Bcache)
    (h : BRun cfg pinnedCalls g s) :
    Linked s ∧ (∀ b, 0 ≤ (s.buf b).refcnt) ∧ (∀ b, g.since b ≤ g.hist.length) ∧
      LruOrdered g s := by
  induction h with
  | init =>
    refine ⟨linked_binit cfg hH, fun b => by rw [binit_refcnt], fun b => le_refl _, ?_⟩
    intro i
    exact List.pairwise_of_forall (fun x y _ _ => le_refl _)
  | step g s s1 op v _ hu hs ih =>
    have hc := bstep_change cfg s s1 op v hs
    exact ⟨bstep_linked cfg s s1 op v ih.1 hs,
      change_lru cfg g s s1 op v hc hu ih.1 ih.2.1 ih.2.2.1 ih.2.2.2⟩

/-- The buffer a backward scan finds was made unused no later than any unused buffer of the
ring. -/
theorem lru_choice (g : Ghost) (s : Bcache) (l1 l2 : List Nat) (b x : Nat)
    (hO : (l1 ++ b :: l2).Pairwise (fun x y => (s.buf x).refcnt = 0 → (s.buf y).refcnt = 0 →
      g.since y ≤ g.since x))
    (h0 : (s.buf b).refcnt = 0) (hno : ∀ a ∈ l2, (s.buf a).refcnt ≠ 0)
    (hx : x ∈ l1 ++ b :: l2) (hx0 : (s.buf x).refcnt = 0) : g.since b ≤ g.since x := by
  rcases List.mem_append.mp hx with h | h
  · exact (List.pairwise_append.mp hO).2.2 x h b (List.mem_cons_self _ _) hx0 h0
  · rcases List.mem_cons.mp h with h | h
    · rw [h]
    · exact absurd hx0 (hno x h)

end Bio

namespace Bio

/-- What `bget` does to a buffer other than one it recycles: label, validity flag, payload and
ring membership stay; only a buffer whose count was 0 is relabelled, and at most one is. -/
theorem bget_frame (cfg : BioCfg) (s : Bcache) (dev blockno : Nat) :
    ∃ b0 : Nat, ∀ x,
      (x = b0 ∧ (s.buf x).refcnt = 0) ∨
      (((bget cfg s dev blockno).state.buf x).dev = (s.buf x).dev ∧
        ((bget cfg s dev blockno).state.buf x).blockno = (s.buf x).blockno ∧
        ((bget cfg s dev blockno).state.buf x).valid = (s.buf x).valid ∧
        ((bget cfg s dev blockno).state.buf x).data = (s.buf x).data ∧
        ((s.buf x).refcnt ≠ 0 →
          ∀ i, x ∈ (bget cfg s dev blockno).state.head i ↔ x ∈ s.head i)) := by
  rcases bget_cases cfg s dev blockno with
    ⟨b0, l1, l2, _, _, _, hres⟩ | ⟨b0, l1, l2, _, _, h0, _, hres⟩ |
    ⟨i, b0, l1, l2, _, hib, _, _, h0, _, hres⟩ | ⟨hres, _, _⟩
  · refine ⟨b0, fun x => Or.inr ?_⟩
    rw [hres]
    simp [Outcome.state]
  · refine ⟨b0, fun x => ?_⟩
    rw [hres]
    by_cases hx : x = b0
    · subst hx; exact Or.inl ⟨rfl, h0⟩
    · right
      simp [Outcome.state, recycled_dev, recycled_blockno, recycled_valid, hx]
  · refine ⟨b0, fun x => ?_⟩
    rw [hres]
    by_cases hx : x = b0
    · subst hx; exact Or.inl ⟨rfl, h0⟩
    · right
      simp only [Outcome.state, stolen_buf, recycled_dev, recycled_blockno, recycled_valid,
        recycled_data, hx, if_false, true_and]
      intro _ j
      exact mem_stolen_head s b0 dev blockno i _ j x hx
  · refine ⟨0, fun x => Or.inr ?_⟩
    rw [hres]
    simp [Outcome.state]

/-- C9. For every cache state and every `bget(dev, blockno)`, a buffer whose reference count is
not 0 before the call (so every buffer with a count of at least 1) keeps its device, block
number, validity flag and payload, and is in exactly the rings it was in; a buffer whose device
or block number the call changes had reference count 0 right before, and the call changes those
of at most one buffer. -/
theorem bget_keeps_held_buffers (cfg : BioCfg) (s : Bcache) (dev blockno b : Nat)
    (h : (s.buf b).refcnt ≠ 0) :
    (((bget cfg s dev blockno).state.buf b).dev = (s.buf b).dev ∧
      ((bget cfg s dev blockno).state.buf b).blockno = (s.buf b).blockno ∧
      ((bget cfg s dev blockno).state.buf b).valid = (s.buf b).valid ∧
      ((bget cfg s dev blockno).state.buf b).data = (s.buf b).data ∧
      ∀ i, b ∈ (bget cfg s dev blockno).state.head i ↔ b ∈ s.head i) ∧
    (∀ x, (((bget cfg s dev blockno).state.buf x).dev ≠ (s.buf x).dev ∨
        ((bget cfg s dev blockno).state.buf x).blockno ≠ (s.buf x).blockno) →
      (s.buf x).refcnt = 0) ∧
    (∀ x y, (((bget cfg s dev blockno).state.buf x).dev ≠ (s.buf x).dev ∨
        ((bget cfg s dev blockno).state.buf x).blockno ≠ (s.buf x).blockno) →
      (((bget cfg s dev blockno).state.buf y).dev ≠ (s.buf y).dev ∨
        ((bget cfg s dev blockno).state.buf y).blockno ≠ (s.buf y).blockno) → x = y) := by
  obtain ⟨b0, hfr⟩ := bget_frame cfg s dev blockno
  refine ⟨?_, ?_, ?_⟩
  · rcases hfr b with ⟨_, h0⟩ | ⟨h1, h2, h3, h4, h5⟩
    · exact absurd h0 h
    · exact ⟨h1, h2, h3, h4, h5 h⟩
  · intro x hx
    rcases hfr x with ⟨_, h0⟩ | ⟨h1, h2, _⟩
    · exact h0
    · rcases hx with hx | hx
      · exact absurd h1 hx
      · exact absurd h2 hx
  · intro x y hx hy
    rcases hfr x with ⟨hxb, _⟩ | ⟨h1, h2, _⟩
    · rcases hfr y with ⟨hyb, _⟩ | ⟨h3, h4, _⟩
      · rw [hxb, hyb]
      · rcases hy with hy | hy
        · exact absurd h3 hy
        · exact absurd h4 hy
    · rcases hx with hx | hx
      · exact absurd h1 hx
      · exact absurd h2 hx

/-- Witness for C9: in the 2-buffer cache buffer 1 is held for block (0, 0); `bget(1, 5)`
recycles buffer 0 and leaves buffer 1 alone. -/
theorem bget_keeps_held_buffers_witness :
    (demoHeld.buf 1).refcnt ≠ 0 ∧
    ((((bget smallCfg demoHeld 1 5).state.buf 1).dev = (demoHeld.buf 1).dev ∧
      ((bget smallCfg demoHeld 1 5).state.buf 1).blockno = (demoHeld.buf 1).blockno ∧
      ((bget smallCfg demoHeld 1 5).state.buf 1).valid = (demoHeld.buf 1).valid ∧
      ((bget smallCfg demoHeld 1 5).state.buf 1).data = (demoHeld.buf 1).data ∧
      ∀ i, 1 ∈ (bget smallCfg demoHeld 1 5).state.head i ↔ 1 ∈ demoHeld.head i) ∧
    (∀ x, (((bget smallCfg demoHeld 1 5).state.buf x).dev ≠ (demoHeld.buf x).dev ∨
        ((bget smallCfg demoHeld 1 5).state.buf x).blockno ≠ (demoHeld.buf x).blockno) →
      (demoHeld.buf x).refcnt = 0) ∧
    (∀ x y, (((bget smallCfg demoHeld 1 5).state.buf x).dev ≠ (demoHeld.buf x).dev ∨
        ((bget smallCfg demoHeld 1 5).state.buf x).blockno ≠ (demoHeld.buf x).blockno) →
      (((bget smallCfg demoHeld 1 5).state.buf y).dev ≠ (demoHeld.buf y).dev ∨
        ((bget smallCfg demoHeld 1 5).state.buf y).blockno ≠ (demoHeld.buf y).blockno) →
      x = y)) :=
  ⟨by decide, bget_keeps_held_buffers smallCfg demoHeld 1 5 1 (by decide)⟩

/-- Calls that do not overlap. In every state reached from `binit` by `bget`, `brelse`, `bpin`
and `bunpin` calls, each run to its end before the next begins and the last three applied only
to buffers whose reference count is at least 1: no two different buffers
with a count of at least 1 carry the same (device, block number); `bget` for the block of a
buffer `b` with a count of at least 1 returns `b`, raises its count by exactly 1 and changes
nothing else; and the count of every buffer equals the number of `bget` and `bpin` calls on it
minus the number of `brelse` and `bunpin` calls on it. -/
theorem held_block_has_one_buffer (cfg : BioCfg) (hH : 0 < cfg.NBUFHASH) (g : Ghost) (s : Bcache)
    (hr : BRun cfg heldCalls g s) :
    (∀ b1 b2, 1 ≤ (s.buf b1).refcnt → 1 ≤ (s.buf b2).refcnt →
      (s.buf b1).dev = (s.buf b2).dev → (s.buf b1).blockno = (s.buf b2).blockno → b1 = b2) ∧
    (∀ b, 1 ≤ (s.buf b).refcnt →
      ∃ s1, bget cfg s (s.buf b).dev (s.buf b).blockno = .ret s1 b ∧
        (s1.buf b).refcnt = (s.buf b).refcnt + 1 ∧ (s1.buf b).dev = (s.buf b).dev ∧
        (s1.buf b).blockno = (s.buf b).blockno ∧ (s1.buf b).valid = (s.buf b).valid ∧
        (s1.buf b).data = (s.buf b).data ∧
        (∀ x, x ≠ b → s1.buf x = s.buf x) ∧ s1.head = s.head) ∧
    (∀ b, (s.buf b).refcnt = holders b g.hist) := by
  obtain ⟨hL, hHome, hF⟩ := brun_held cfg hH g s hr
  refine ⟨?_, ?_, brun_refcnt cfg heldCalls g s hr⟩
  · intro b1 b2 h1 h2 hd hb
    by_contra hne
    have hm1 := hHome b1 h1
    have hm2 := hHome b2 h2
    rw [← hb] at hm2
    rcases pairwise_either _ _ (hF _) b1 b2 hm1 hm2 hne with hr1 | hr1
    · have := hr1 ⟨hd, hb⟩
      omega
    · have := hr1 ⟨hd.symm, hb.symm⟩
      omega
  · intro b hb
    have hmem := hHome b hb
    rcases bget_cases cfg s (s.buf b).dev (s.buf b).blockno with
      ⟨b0, l1, l2, hl, hid, hfirst, hres⟩ | ⟨b0, l1, l2, hnone, _, _, _, _⟩ |
      ⟨i, b0, l1, l2, _, _, hhome, _, _, _, _⟩ | ⟨_, hnone, _⟩
    · have hb0 : b0 = b := by
        rw [hl] at hmem
        rcases List.mem_append.mp hmem with h | h
        · exact absurd ⟨rfl, rfl⟩ (hfirst b h)
        · rcases List.mem_cons.mp h with h | h
          · exact h.symm
          · have hp := hF ((s.buf b).blockno % cfg.NBUFHASH)
            rw [hl] at hp
            have := (List.pairwise_cons.mp (List.pairwise_append.mp hp).2.1).1 b h
              ⟨hid.1, hid.2⟩
            omega
      subst hb0
      refine ⟨incr s b0, hres, ?_, ?_, ?_, ?_, ?_, ?_, rfl⟩
      · simp [incr_refcnt]
      · simp
      · simp
      · simp
      · simp
      · intro x hx
        rw [incr_buf]
        simp [hx]
    · exact absurd ⟨rfl, rfl⟩ (hnone b hmem)
    · exact absurd ⟨rfl, rfl⟩ (hhome b hmem).1
    · exact absurd ⟨rfl, rfl⟩ (hnone b hmem)

/-- An instance of `held_block_has_one_buffer`: the 2-buffer cache after `binit` and
`bget(0, 0)`. -/
theorem held_block_has_one_buffer_witness :
    (0 < smallCfg.NBUFHASH ∧ BRun smallCfg heldCalls demoGhost demoHeld) ∧
    ((∀ b1 b2, 1 ≤ (demoHeld.buf b1).refcnt → 1 ≤ (demoHeld.buf b2).refcnt →
      (demoHeld.buf b1).dev = (demoHeld.buf b2).dev →
      (demoHeld.buf b1).blockno = (demoHeld.buf b2).blockno → b1 = b2) ∧
    (∀ b, 1 ≤ (demoHeld.buf b).refcnt →
      ∃ s1, bget smallCfg demoHeld (demoHeld.buf b).dev (demoHeld.buf b).blockno = .ret s1 b ∧
        (s1.buf b).refcnt = (demoHeld.buf b).refcnt + 1 ∧
        (s1.buf b).dev = (demoHeld.buf b).dev ∧
        (s1.buf b).blockno = (demoHeld.buf b).blockno ∧
        (s1.buf b).valid = (demoHeld.buf b).valid ∧
        (s1.buf b).data = (demoHeld.buf b).data ∧
        (∀ x, x ≠ b → s1.buf x = demoHeld.buf x) ∧ s1.head = demoHeld.head) ∧
    (∀ b, (demoHeld.buf b).refcnt = holders b demoGhost.hist)) :=
  ⟨⟨by decide, BRun.step _ _ demoHeld (.get 0 0) (some 1) BRun.init trivial rfl⟩,
    held_block_has_one_buffer smallCfg (by decide) demoGhost demoHeld
      (BRun.step _ _ demoHeld (.get 0 0) (some 1) BRun.init trivial rfl)⟩

/-- C10, counterexample. In the 2-buffer, 1-bucket cache run `bget(0, 0)` (buffer 1),
`bget(1, 5)` (buffer 0), `brelse` of buffer 1 as call 3 and `bunpin` of buffer 0 as call 4; each
of the last two is applied to a buffer `bget` returned whose count is 1.  Both buffers are then
unused, buffer 1 since call 3 and buffer 0 since call 4, yet `bget(1, 7)`, which finds the
block not cached, recycles buffer 0 out of the bucket: buffer 1 has been unused for longer. -/
theorem bunpin_to_zero_breaks_lru :
    BRun smallCfg heldCalls lruG4 lruS4 ∧
    (∀ a ∈ lruS4.head (7 % smallCfg.NBUFHASH),
      ¬ ((lruS4.buf a).dev = 1 ∧ (lruS4.buf a).blockno = 7)) ∧
    bget smallCfg lruS4 1 7 = .ret (recycled lruS4 0 1 7) 0 ∧
    0 ∈ lruS4.head 0 ∧ 1 ∈ lruS4.head 0 ∧ (lruS4.buf 1).refcnt = 0 ∧
    lruG4.since 1 = 3 ∧ lruG4.since 0 = 4 :=
  ⟨BRun.step _ _ lruS4 (.unpin 0) none
      (BRun.step _ _ lruS3 (.release 1 true) none
        (BRun.step _ _ lruS2 (.get 1 5) (some 0)
          (BRun.step _ _ demoHeld (.get 0 0) (some 1) BRun.init trivial rfl)
          trivial rfl)
        (by decide) rfl)
      (by decide) rfl,
    by decide, rfl, by decide, by decide, by decide, by decide, by decide⟩

/-- C10, amended. In every state reached from `binit` by `bget`, `brelse`, `bpin` and `bunpin`
calls, where `brelse` is applied only to buffers with a count of at least 1 and `bunpin` only
to buffers with a count of at least 2 (so that a count reaches 0 through `brelse` only):
whenever `bget` does not find the block cached and recycles buffer `b` out of bucket `j`,
`b` is unused and no unused buffer of bucket `j` has been unused for longer than `b`. -/
theorem bget_recycles_least_recently_used (cfg : BioCfg) (hH : 0 < cfg.NBUFHASH) (g : Ghost)
    (s : Bcache) (hr : BRun cfg pinnedCalls g s) (dev blockno : Nat) (s1 : Bcache) (b : Nat)
    (hget : bget cfg s dev blockno = .ret s1 b)
    (hmiss : ∀ a ∈ s.head (blockno % cfg.NBUFHASH),
      ¬ ((s.buf a).dev = dev ∧ (s.buf a).blockno = blockno))
    (j : Nat) (hj : b ∈ s.head j) (x : Nat) (hx : x ∈ s.head j)
    (hx0 : (s.buf x).refcnt = 0) :
    (s.buf b).refcnt = 0 ∧ ¬ (g.since x < g.since b) := by
  obtain ⟨hL, _, _, hO⟩ := brun_lru cfg hH g s hr
  rcases bget_cases cfg s dev blockno with
    ⟨b0, l1, l2, hl, hid, _, _⟩ | ⟨b0, l1, l2, _, hl, h0, hno, hres⟩ |
    ⟨i, b0, l1, l2, _, _, _, hl, h0, hno, hres⟩ | ⟨hres, _, _⟩
  · exact absurd hid (hmiss b0 (by rw [hl]; simp))
  · rw [hres] at hget
    simp only [Outcome.ret.injEq] at hget
    obtain ⟨_, hb⟩ := hget
    subst hb
    have hjh : j = blockno % cfg.NBUFHASH := hL.2 j _ b0 hj (by rw [hl]; simp)
    subst hjh
    have hp := hO (blockno % cfg.NBUFHASH)
    rw [hl] at hp hx
    exact ⟨h0, Nat.not_lt.mpr (lru_choice g s l1 l2 b0 x hp h0 hno hx hx0)⟩
  · rw [hres] at hget
    simp only [Outcome.ret.injEq] at hget
    obtain ⟨_, hb⟩ := hget
    subst hb
    have hji : j = i := hL.2 j i b0 hj (by rw [hl]; simp)
    subst hji
    have hp := hO j
    rw [hl] at hp hx
    exact ⟨h0, Nat.not_lt.mpr (lru_choice g s l1 l2 b0 x hp h0 hno hx hx0)⟩
  · rw [hres] at hget; cases hget

/-- Witness for C10: the run `bget(0, 0)`, `bget(1, 5)`, `brelse` of buffer 1, `brelse` of
buffer 0; `bget(1, 7)` then recycles buffer 1, unused since call 3, rather than buffer 0,
unused since call 4. -/
theorem bget_recycles_least_recently_used_witness :
    (0 < smallCfg.NBUFHASH ∧ BRun smallCfg pinnedCalls lruH4 lruT4 ∧
      bget smallCfg lruT4 1 7 = .ret (recycled lruT4 1 1 7) 1 ∧
      (∀ a ∈ lruT4.head (7 % smallCfg.NBUFHASH),
        ¬ ((lruT4.buf a).dev = 1 ∧ (lruT4.buf a).blockno = 7)) ∧
      1 ∈ lruT4.head 0 ∧ 0 ∈ lruT4.head 0 ∧ (lruT4.buf 0).refcnt = 0) ∧
    ((lruT4.buf 1).refcnt = 0 ∧ ¬ (lruH4.since 0 < lruH4.since 1)) :=
  ⟨⟨by decide,
      BRun.step _ _ lruT4 (.release 0 true) none
        (BRun.step _ _ lruS3 (.release 1 true) none
          (BRun.step _ _ lruS2 (.get 1 5) (some 0)
            (BRun.step _ _ demoHeld (.get 0 0) (some 1) BRun.init trivial rfl)
            trivial rfl)
          (by decide) rfl)
        (by decide) rfl,
      rfl, by decide, by decide, by decide, by decide⟩,
    bget_recycles_least_recently_used smallCfg (by decide) lruH4 lruT4
      (BRun.step _ _ lruT4 (.release 0 true) none
        (BRun.step _ _ lruS3 (.release 1 true) none
          (BRun.step _ _ lruS2 (.get 1 5) (some 0)
            (BRun.step _ _ demoHeld (.get 0 0) (some 1) BRun.init trivial rfl)
            trivial rfl)
          (by decide) rfl)
        (by decide) rfl)
      1 7 (recycled lruT4 1 1 7) 1 rfl (by decide) 0 (by decide) 0 (by decide) (by decide)⟩

end Bio

namespace Bio

/-- C11. For every cache state, `bget(dev, blockno)` stops in `panic("bget: no buffers")` if and
only if no buffer of the home bucket `blockno % NBUFHASH` carries (dev, blockno) and no buffer
of any bucket has reference count 0; in every other case it returns a buffer, and a `bget` that
panics leaves the cache as it was. -/
theorem bget_halts_iff_no_buffer (cfg : BioCfg) (hH : 0 < cfg.NBUFHASH) (s : Bcache)
    (dev blockno : Nat) :
    ((bget cfg s dev blockno).returned = false ↔
      ((∀ a ∈ s.head (blockno % cfg.NBUFHASH),
          ¬ ((s.buf a).dev = dev ∧ (s.buf a).blockno = blockno)) ∧
        ∀ i, i < cfg.NBUFHASH → ∀ a ∈ s.head i, (s.buf a).refcnt ≠ 0)) ∧
    ((bget cfg s dev blockno).returned = false → bget cfg s dev blockno = .halt s) ∧
    ((bget cfg s dev blockno).returned = true →
      ∃ s1 b, bget cfg s dev blockno = .ret s1 b) := by
  have hhome : blockno % cfg.NBUFHASH < cfg.NBUFHASH := Nat.mod_lt _ hH
  rcases bget_cases cfg s dev blockno with
    ⟨b0, l1, l2, hl, hid, _, hres⟩ | ⟨b0, l1, l2, _, hl, h0, _, hres⟩ |
    ⟨i, b0, l1, l2, hi, _, _, hl, h0, _, hres⟩ | ⟨hres, hnone, hused⟩
  · rw [hres]
    refine ⟨⟨fun h => (by cases h), fun h => ?_⟩, fun h => (by cases h), fun _ => ⟨_, _, rfl⟩⟩
    exact absurd hid (h.1 b0 (by rw [hl]; simp))
  · rw [hres]
    refine ⟨⟨fun h => (by cases h), fun h => ?_⟩, fun h => (by cases h), fun _ => ⟨_, _, rfl⟩⟩
    exact absurd h0 (h.2 _ hhome b0 (by rw [hl]; simp))
  · rw [hres]
    refine ⟨⟨fun h => (by cases h), fun h => ?_⟩, fun h => (by cases h), fun _ => ⟨_, _, rfl⟩⟩
    exact absurd h0 (h.2 i hi b0 (by rw [hl]; simp))
  · rw [hres]
    exact ⟨⟨fun _ => ⟨hnone, hused⟩, fun _ => rfl⟩, fun _ => rfl, fun h => (by cases h)⟩

/-- Witness for C11: the 2-buffer cache with buffer 1 held for block (0, 0). -/
theorem bget_halts_iff_no_buffer_witness :
    0 < smallCfg.NBUFHASH ∧
    (((bget smallCfg demoHeld 1 5).returned = false ↔
      ((∀ a ∈ demoHeld.head (5 % smallCfg.NBUFHASH),
          ¬ ((demoHeld.buf a).dev = 1 ∧ (demoHeld.buf a).blockno = 5)) ∧
        ∀ i, i < smallCfg.NBUFHASH → ∀ a ∈ demoHeld.head i, (demoHeld.buf a).refcnt ≠ 0)) ∧
    ((bget smallCfg demoHeld 1 5).returned = false →
      bget smallCfg demoHeld 1 5 = .halt demoHeld) ∧
    ((bget smallCfg demoHeld 1 5).returned = true →
      ∃ s1 b, bget smallCfg demoHeld 1 5 = .ret s1 b)) :=
  ⟨by decide, bget_halts_iff_no_buffer smallCfg (by decide) demoHeld 1 5⟩

/-! ### Every buffer of the pool is in exactly one ring -/

theorem pooled_binit (cfg : BioCfg) (hH : 0 < cfg.NBUFHASH) :
    Pooled cfg (binit cfg bootCache) := by
  refine ⟨?_, ?_⟩
  · intro j x hx
    rw [binit_mem cfg hH] at hx
    exact ⟨hx.2 ▸ Nat.mod_lt _ hH, hx.1⟩
  · intro x hx
    exact ⟨x % cfg.NBUFHASH, (binit_mem cfg hH _ x).mpr ⟨hx, rfl⟩⟩

theorem pooled_of_head_eq (cfg : BioCfg) (s s1 : Bcache) (h : s1.head = s.head)
    (hP : Pooled cfg s) : Pooled cfg s1 := by
  unfold Pooled at *
  rw [h]
  exact hP

theorem change_pooled (cfg : BioCfg) (hH : 0 < cfg.NBUFHASH) (s s1 : Bcache) (op : BOp)
    (v : Option Nat) (hc : Change cfg s op s1 v) (hu : poolCalls cfg s op)
    (hP : Pooled cfg s) : Pooled cfg s1 := by
  cases hc with
  | hit dev blockno b l1 l2 hl hid hfirst => exact pooled_of_head_eq cfg s _ rfl hP
  | recycle dev blockno b l1 l2 hnone hl h0 hno => exact pooled_of_head_eq cfg s _ rfl hP
  | steal dev blockno i b l1 l2 hi hib hhome hl h0 hno =>
    have hbi : b ∈ s.head i := by rw [hl]; simp
    refine ⟨?_, ?_⟩
    · intro j x hx
      rw [stolen_head] at hx
      by_cases hj : j = blockno % cfg.NBUFHASH
      · simp only [hj, if_true, List.mem_cons] at hx
        refine ⟨hj ▸ Nat.mod_lt _ hH, ?_⟩
        rcases hx with h | h
        · rw [h]; exact (hP.1 i b hbi).2
        · exact (hP.1 _ x h).2
      · simp only [hj, if_false] at hx
        by_cases hji : j = i
        · simp only [hji, if_true] at hx
          rw [hji]
          exact hP.1 i x (List.mem_of_mem_erase hx)
        · simp only [hji, if_false] at hx
          exact hP.1 j x hx
    · intro x hx
      by_cases hxb : x = b
      · refine ⟨blockno % cfg.NBUFHASH, ?_⟩
        rw [stolen_head, hxb]
        simp
      · obtain ⟨k, hk⟩ := hP.2 x hx
        exact ⟨k, (mem_stolen_head s b dev blockno i _ k x hxb).mpr hk⟩
  | relZero b h1 =>
    simp only [poolCalls] at hu
    refine ⟨?_, ?_⟩
    · intro j x hx
      rw [relinked_head] at hx
      simp only [decr_head] at hx
      by_cases hj : j = (s.buf b).blockno % cfg.NBUFHASH
      · simp only [hj, if_true, List.mem_cons] at hx
        refine ⟨hj ▸ Nat.mod_lt _ hH, ?_⟩
        rcases hx with h | h
        · rw [h]; exact hu
        · exact (hP.1 _ x (List.mem_of_mem_erase h)).2
      · simp only [hj, if_false] at hx
        exact hP.1 j x (List.mem_of_mem_erase hx)
    · intro x hx
      by_cases hxb : x = b
      · refine ⟨(s.buf b).blockno % cfg.NBUFHASH, ?_⟩
        rw [relinked_head, hxb]
        simp
      · obtain ⟨k, hk⟩ := hP.2 x hx
        exact ⟨k, mem_relinked_head _ b _ k x hxb hk⟩
  | relKeep b h1 => exact pooled_of_head_eq cfg s _ rfl hP
  | pin b => exact pooled_of_head_eq cfg s _ rfl hP
  | unpin b => exact pooled_of_head_eq cfg s _ rfl hP

theorem brun_pooled (cfg : BioCfg) (hH : 0 < cfg.NBUFHASH) (g : Ghost) (s : Bcache)
    (h : BRun cfg (poolCalls cfg) g s) : Pooled cfg s := by
  induction h with
  | init => exact pooled_binit cfg hH
  | step g s s1 op v _ hu hs ih =>
    exact change_pooled cfg hH s s1 op v (bstep_change cfg s s1 op v hs) hu ih

theorem sum_map_one (f : Nat → Nat) (i : Nat) (hone : f i = 1) :
    ∀ l : List Nat, l.Nodup → i ∈ l → (∀ j ∈ l, j ≠ i → f j = 0) → (l.map f).sum = 1 := by
  intro l
  induction l with
  | nil => intro _ hi; cases hi
  | cons a t ih =>
    intro hnd hi hz
    rw [List.nodup_cons] at hnd
    simp only [List.map_cons, List.sum_cons]
    by_cases hai : a = i
    · subst hai
      have : (t.map f).sum = 0 := by
        rw [List.sum_eq_zero_iff]
        intro x hx
        obtain ⟨j, hj, rfl⟩ := List.mem_map.mp hx
        exact hz j (List.mem_cons_of_mem _ hj) (fun e => hnd.1 (e ▸ hj))
      omega
    · have hit : i ∈ t := by
        rcases List.mem_cons.mp hi with h | h
        · exact absurd h.symm hai
        · exact h
      have := ih hnd.2 hit (fun j hj hji => hz j (List.mem_cons_of_mem _ hj) hji)
      have ha := hz a (List.mem_cons_self _ _) hai
      omega

/-- C15. In every state reached from `binit` by `bget`, `brelse`, `bpin` and `bunpin` calls on
buffers of the pool, every one of the `NBUF` buffers is in the ring of exactly one bucket and
occurs in it exactly once, the rings hold nothing else, and the concatenation of the rings of
all buckets is a permutation of the pool. -/
theorem every_buffer_in_one_ring (cfg : BioCfg) (hH : 0 < cfg.NBUFHASH) (g : Ghost)
    (s : Bcache) (hr : BRun cfg (poolCalls cfg) g s) :
    (∀ b, b < cfg.NBUF → ∃ i, i < cfg.NBUFHASH ∧ b ∈ s.head i ∧ (s.head i).count b = 1 ∧
      ∀ j, b ∈ s.head j → j = i) ∧
    (∀ j x, x ∈ s.head j → j < cfg.NBUFHASH ∧ x < cfg.NBUF) ∧
    ((List.range cfg.NBUFHASH).flatMap s.head).Perm (List.range cfg.NBUF) := by
  have hL := brun_linked cfg hH (poolCalls cfg) g s hr
  have hP := brun_pooled cfg hH g s hr
  have hone : ∀ b, b < cfg.NBUF → ∃ i, i < cfg.NBUFHASH ∧ b ∈ s.head i ∧
      (s.head i).count b = 1 ∧ ∀ j, b ∈ s.head j → j = i := by
    intro b hb
    obtain ⟨i, hi⟩ := hP.2 b hb
    exact ⟨i, (hP.1 i b hi).1, hi, List.count_eq_one_of_mem (hL.1 i) hi,
      fun j hj => hL.2 j i b hj hi⟩
  refine ⟨hone, hP.1, ?_⟩
  rw [List.perm_iff_count]
  intro x
  rw [List.count_flatMap]
  by_cases hx : x < cfg.NBUF
  · obtain ⟨i, hi, _, hc, huniq⟩ := hone x hx
    rw [List.count_eq_one_of_mem (List.nodup_range _) (List.mem_range.mpr hx)]
    apply sum_map_one _ i hc _ (List.nodup_range _) (List.mem_range.mpr hi)
    intro j _ hji
    exact List.count_eq_zero_of_not_mem (fun h => hji (huniq j h))
  · rw [List.count_eq_zero_of_not_mem (fun h => hx (List.mem_range.mp h))]
    rw [List.sum_eq_zero_iff]
    intro y hy
    obtain ⟨j, _, rfl⟩ := List.mem_map.mp hy
    exact List.count_eq_zero_of_not_mem (fun h => hx (hP.1 j x h).2)

/-- Witness for C15: the 2-buffer cache after `binit` and `bget(0, 0)`. -/
theorem every_buffer_in_one_ring_witness :
    (0 < smallCfg.NBUFHASH ∧ BRun smallCfg (poolCalls smallCfg) demoGhost demoHeld) ∧
    ((∀ b, b < smallCfg.NBUF → ∃ i, i < smallCfg.NBUFHASH ∧ b ∈ demoHeld.head i ∧
      (demoHeld.head i).count b = 1 ∧ ∀ j, b ∈ demoHeld.head j → j = i) ∧
    (∀ j x, x ∈ demoHeld.head j → j < smallCfg.NBUFHASH ∧ x < smallCfg.NBUF) ∧
    ((List.range smallCfg.NBUFHASH).flatMap demoHeld.head).Perm (List.range smallCfg.NBUF)) :=
  ⟨⟨by decide, BRun.step _ _ demoHeld (.get 0 0) (some 1) BRun.init trivial rfl⟩,
    every_buffer_in_one_ring smallCfg (by decide) demoGhost demoHeld
      (BRun.step _ _ demoHeld (.get 0 0) (some 1) BRun.init trivial rfl)⟩

/-- C20. In every state reached from `binit` by `bget`, `brelse`, `bpin` and `bunpin` calls, the
last three applied only to buffers whose reference count is at least 1, every buffer with a
reference count of at least 1 is in the ring of the bucket `blockno % NBUFHASH` of its block
number and in no other ring: the bucket `brelse`, `bpin` and `bunpin` compute, lock and relink
into is the one whose ring holds the buffer. -/
theorem held_buffer_in_home_bucket (cfg : BioCfg) (hH : 0 < cfg.NBUFHASH) (g : Ghost)
    (s : Bcache) (hr : BRun cfg heldCalls g s) (b : Nat) (hb : 1 ≤ (s.buf b).refcnt) :
    b ∈ s.head ((s.buf b).blockno % cfg.NBUFHASH) ∧
    (s.head ((s.buf b).blockno % cfg.NBUFHASH)).count b = 1 ∧
    ∀ j, b ∈ s.head j → j = (s.buf b).blockno % cfg.NBUFHASH := by
  obtain ⟨hL, hHome, _⟩ := brun_held cfg hH g s hr
  have hm := hHome b hb
  exact ⟨hm, List.count_eq_one_of_mem (hL.1 _) hm, fun j hj => hL.2 j _ b hj hm⟩

/-- Witness for C20: buffer 0 of the 2-buffer cache, held for block (1, 5). -/
theorem held_buffer_in_home_bucket_witness :
    (0 < smallCfg.NBUFHASH ∧ BRun smallCfg heldCalls lruG2 lruS2 ∧
      1 ≤ (lruS2.buf 0).refcnt) ∧
    (0 ∈ lruS2.head ((lruS2.buf 0).blockno % smallCfg.NBUFHASH) ∧
    (lruS2.head ((lruS2.buf 0).blockno % smallCfg.NBUFHASH)).count 0 = 1 ∧
    ∀ j, 0 ∈ lruS2.head j → j = (lruS2.buf 0).blockno % smallCfg.NBUFHASH) :=
  ⟨⟨by decide,
      BRun.step _ _ lruS2 (.get 1 5) (some 0)
        (BRun.step _ _ demoHeld (.get 0 0) (some 1) BRun.init trivial rfl) trivial rfl,
      by decide⟩,
    held_buffer_in_home_bucket smallCfg (by decide) lruG2 lruS2
      (BRun.step _ _ lruS2 (.get 1 5) (some 0)
        (BRun.step _ _ demoHeld (.get 0 0) (some 1) BRun.init trivial rfl) trivial rfl)
      0 (by decide)⟩

/-! ### The bucket locks of one `bget` -/

theorem locksOk_pair (first second : Nat) (h : first < second) (evs : List LockEv)
    (hrest : locksOk [] evs) :
    locksOk [] (.acquire first :: .acquire second :: .release second :: .release first ::
      evs) := by
  have hne : second ≠ first := by omega
  simp [locksOk, h, hne, hrest]

theorem locksOk_bgetStealEv (s : Bcache) (bucket : Nat) (l : List Nat) :
    locksOk [] (bgetStealEv s bucket l) := by
  induction l with
  | nil => simp [bgetStealEv, locksOk]
  | cons i rest ih =>
    unfold bgetStealEv
    by_cases hib : i = bucket
    · simp only [hib, if_true]; exact ih
    · simp only [hib, if_false]
      have hlt : (if bucket > i then i else bucket) < (if bucket > i then bucket else i) := by
        split <;> omega
      cases lruUnused s i with
      | some b => exact locksOk_pair _ _ hlt _ (by simp [locksOk])
      | none => exact locksOk_pair _ _ hlt _ ih

theorem bgetStealEv_end (s : Bcache) (dev blockno bucket : Nat) (l : List Nat) :
    (∀ s1 b, bgetSteal s dev blockno bucket l = .ret s1 b →
      ∃ pre, bgetStealEv s bucket l = pre ++ [.acquiresleep b, .done]) ∧
    (∀ s1, bgetSteal s dev blockno bucket l = .halt s1 →
      ∃ pre, bgetStealEv s bucket l = pre ++ [.stop]) := by
  induction l with
  | nil =>
    refine ⟨fun s1 b h => ?_, fun s1 _ => ⟨[], rfl⟩⟩
    simp [bgetSteal] at h
  | cons i rest ih =>
    unfold bgetSteal bgetStealEv
    by_cases hib : i = bucket
    · simp only [hib, if_true]; exact ih
    · simp only [hib, if_false]
      cases lruUnused s i with
      | some b0 =>
        refine ⟨fun s1 b h => ?_, fun s1 h => ?_⟩
        · simp only [Outcome.ret.injEq] at h
          rw [← h.2]
          exact ⟨[.acquire (if bucket > i then i else bucket),
            .acquire (if bucket > i then bucket else i),
            .release (if bucket > i then bucket else i),
            .release (if bucket > i then i else bucket)], rfl⟩
        · cases h
      | none =>
        refine ⟨fun s1 b h => ?_, fun s1 h => ?_⟩
        · obtain ⟨pre, hpre⟩ := ih.1 s1 b h
          exact ⟨[.acquire (if bucket > i then i else bucket),
            .acquire (if bucket > i then bucket else i),
            .release (if bucket > i then bucket else i),
            .release (if bucket > i then i else bucket)] ++ pre,
            by simp only [hpre, List.append_assoc]⟩
        · obtain ⟨pre, hpre⟩ := ih.2 s1 h
          exact ⟨[.acquire (if bucket > i then i else bucket),
            .acquire (if bucket > i then bucket else i),
            .release (if bucket > i then bucket else i),
            .release (if bucket > i then i else bucket)] ++ pre,
            by simp only [hpre, List.append_assoc]⟩

/-- C12. For every cache state and every `bget(dev, blockno)`, along the lock events of the
call (decided by the same scans as its result): a bucket lock is acquired only while every held
bucket lock has a smaller index and fewer than two are held, so at most two are held at once; a
released lock is held; and no bucket lock is held at the `acquiresleep` of the content lock, at
the `return`, at the `panic`, or at the end.  The events end with the `acquiresleep` of the
returned buffer and the `return` when `bget` returns, and with the `panic` when it panics. -/
theorem bget_locks_in_order (cfg : BioCfg) (s : Bcache) (dev blockno : Nat) :
    locksOk [] (bgetEv cfg s dev blockno) ∧
    (∀ s1 b, bget cfg s dev blockno = .ret s1 b →
      ∃ pre, bgetEv cfg s dev blockno = pre ++ [.acquiresleep b, .done]) ∧
    (∀ s1, bget cfg s dev blockno = .halt s1 →
      ∃ pre, bgetEv cfg s dev blockno = pre ++ [.stop]) := by
  cases hfind : (s.head (blockno % cfg.NBUFHASH)).find? (isBlock s dev blockno) with
  | some b0 =>
    rw [bget_hit cfg s dev blockno b0 hfind]
    simp only [bgetEv, hfind]
    refine ⟨by simp [locksOk], fun s1 b h => ?_, fun s1 h => (by cases h)⟩
    simp only [Outcome.ret.injEq] at h
    rw [← h.2]
    exact ⟨[.acquire (blockno % cfg.NBUFHASH), .release (blockno % cfg.NBUFHASH)], rfl⟩
  | none =>
    cases hlru : lruUnused s (blockno % cfg.NBUFHASH) with
    | some b0 =>
      rw [bget_local cfg s dev blockno b0 hfind hlru]
      simp only [bgetEv, hfind, hlru]
      refine ⟨by simp [locksOk], fun s1 b h => ?_, fun s1 h => (by cases h)⟩
      simp only [Outcome.ret.injEq] at h
      rw [← h.2]
      exact ⟨[.acquire (blockno % cfg.NBUFHASH), .release (blockno % cfg.NBUFHASH)], rfl⟩
    | none =>
      rw [bget_other cfg s dev blockno hfind hlru]
      simp only [bgetEv, hfind, hlru]
      have hev := bgetStealEv_end s dev blockno (blockno % cfg.NBUFHASH)
        (List.range cfg.NBUFHASH)
      refine ⟨?_, fun s1 b h => ?_, fun s1 h => ?_⟩
      · simp only [List.cons_append, List.nil_append, locksOk]
        simp [locksOk_bgetStealEv]
      · obtain ⟨pre, hpre⟩ := hev.1 s1 b h
        exact ⟨[.acquire (blockno % cfg.NBUFHASH), .release (blockno % cfg.NBUFHASH)] ++ pre,
          by simp only [hpre, List.append_assoc]⟩
      · obtain ⟨pre, hpre⟩ := hev.2 s1 h
        exact ⟨[.acquire (blockno % cfg.NBUFHASH), .release (blockno % cfg.NBUFHASH)] ++ pre,
          by simp only [hpre, List.append_assoc]⟩

/-- Witness for C12: 2 buckets with one buffer each, buffer 0 held; `bget(1, 2)` finds nothing
in bucket 0 and takes buffer 1 over from bucket 1, holding the locks of both buckets. -/
theorem bget_locks_in_order_witness :
    bget pairCfg pairHeld 1 2 = .ret (stolen pairHeld 1 1 2 1 0) 1 ∧
    locksOk [] (bgetEv pairCfg pairHeld 1 2) ∧
    bgetEv pairCfg pairHeld 1 2 =
      [.acquire 0, .release 0, .acquire 0, .acquire 1, .release 1, .release 0,
        .acquiresleep 1, .done] ∧
    ∃ pre, bgetEv pairCfg pairHeld 1 2 = pre ++ [.acquiresleep 1, .done] :=
  ⟨rfl, (bget_locks_in_order pairCfg pairHeld 1 2).1, by decide,
    (bget_locks_in_order pairCfg pairHeld 1 2).2.1 _ 1 rfl⟩

/-- C16. For every cache state in which the ring of the home bucket `blockno % NBUFHASH` holds a
buffer carrying (dev, blockno) or a buffer with reference count 0, `bget(dev, blockno)` returns
a buffer of that ring; the only bucket lock it acquires is the home bucket's (its lock events
are acquire, release, `acquiresleep`, `return`); it leaves the ring of every bucket as it was,
and every field of every buffer outside the home ring. -/
theorem bget_served_by_home_bucket (cfg : BioCfg) (s : Bcache) (dev blockno : Nat)
    (h : ∃ a ∈ s.head (blockno % cfg.NBUFHASH),
      ((s.buf a).dev = dev ∧ (s.buf a).blockno = blockno) ∨ (s.buf a).refcnt = 0) :
    ∃ s1 b, bget cfg s dev blockno = .ret s1 b ∧ b ∈ s.head (blockno % cfg.NBUFHASH) ∧
      bgetEv cfg s dev blockno =
        [.acquire (blockno % cfg.NBUFHASH), .release (blockno % cfg.NBUFHASH),
          .acquiresleep b, .done] ∧
      s1.head = s.head ∧ ∀ x, x ∉ s.head (blockno % cfg.NBUFHASH) → s1.buf x = s.buf x := by
  cases hfind : (s.head (blockno % cfg.NBUFHASH)).find? (isBlock s dev blockno) with
  | some b0 =>
    have hmem := List.mem_of_find?_eq_some hfind
    refine ⟨incr s b0, b0, bget_hit cfg s dev blockno b0 hfind, hmem, ?_, rfl, ?_⟩
    · simp only [bgetEv, hfind]
    · intro x hx
      have hxb : x ≠ b0 := fun e => hx (e ▸ hmem)
      rw [incr_buf]; simp [hxb]
  | none =>
    cases hlru : lruUnused s (blockno % cfg.NBUFHASH) with
    | some b0 =>
      obtain ⟨l1, l2, hl, _, _⟩ := lruUnused_some s _ b0 hlru
      have hmem : b0 ∈ s.head (blockno % cfg.NBUFHASH) := by rw [hl]; simp
      refine ⟨recycled s b0 dev blockno, b0, bget_local cfg s dev blockno b0 hfind hlru, hmem,
        ?_, rfl, ?_⟩
      · simp only [bgetEv, hfind, hlru]
      · intro x hx
        have hxb : x ≠ b0 := fun e => hx (e ▸ hmem)
        rw [recycled_buf]; simp [hxb]
    | none =>
      exfalso
      obtain ⟨a, ha, hor⟩ := h
      rcases hor with hblk | h0
      · exact List.find?_eq_none.mp hfind a ha ((isBlock_iff s dev blockno a).mpr hblk)
      · exact lruUnused_none s _ hlru a ha h0

/-- Witness for C16: the scenario of the specification, 2 buckets with one buffer each;
`bget(1, 1)` is served from bucket 1 while the buffer of bucket 0 is held. -/
theorem bget_served_by_home_bucket_witness :
    (∃ a ∈ pairHeld.head (1 % pairCfg.NBUFHASH),
      ((pairHeld.buf a).dev = 1 ∧ (pairHeld.buf a).blockno = 1) ∨ (pairHeld.buf a).refcnt = 0) ∧
    ∃ s1 b, bget pairCfg pairHeld 1 1 = .ret s1 b ∧ b ∈ pairHeld.head (1 % pairCfg.NBUFHASH) ∧
      bgetEv pairCfg pairHeld 1 1 =
        [.acquire (1 % pairCfg.NBUFHASH), .release (1 % pairCfg.NBUFHASH),
          .acquiresleep b, .done] ∧
      s1.head = pairHeld.head ∧
      ∀ x, x ∉ pairHeld.head (1 % pairCfg.NBUFHASH) → s1.buf x = pairHeld.buf x :=
  ⟨⟨1, by decide, Or.inr (by decide)⟩,
    bget_served_by_home_bucket pairCfg pairHeld 1 1 ⟨1, by decide, Or.inr (by decide)⟩⟩

/-- C19. For every cache state in which `bget(dev, blockno)` returns, the returned buffer then
carries (dev, blockno) and is in the ring of the home bucket `blockno % NBUFHASH`.  When the
block was cached in that ring (a hit) the count of the buffer is one more than before, its
validity flag and payload are unchanged and so is every ring.  When it was not (a recycle) the
count of the buffer is 1 and its validity flag is cleared; if the buffer was in the home ring
every ring is unchanged, and otherwise it was in the ring of another bucket, which loses exactly
this buffer, while the home ring gains it in front and every other ring is unchanged. -/
theorem bget_returns_requested_block (cfg : BioCfg) (s : Bcache) (dev blockno : Nat)
    (s1 : Bcache) (b : Nat) (hget : bget cfg s dev blockno = .ret s1 b) :
    ((s1.buf b).dev = dev ∧ (s1.buf b).blockno = blockno ∧
      b ∈ s1.head (blockno % cfg.NBUFHASH)) ∧
    ((∃ a ∈ s.head (blockno % cfg.NBUFHASH),
        (s.buf a).dev = dev ∧ (s.buf a).blockno = blockno) →
      (s1.buf b).refcnt = (s.buf b).refcnt + 1 ∧ (s1.buf b).valid = (s.buf b).valid ∧
        (s1.buf b).data = (s.buf b).data ∧ s1.head = s.head) ∧
    ((∀ a ∈ s.head (blockno % cfg.NBUFHASH),
        ¬ ((s.buf a).dev = dev ∧ (s.buf a).blockno = blockno)) →
      (s1.buf b).refcnt = 1 ∧ (s1.buf b).valid = false ∧
      (b ∈ s.head (blockno % cfg.NBUFHASH) → s1.head = s.head) ∧
      (b ∉ s.head (blockno % cfg.NBUFHASH) →
        ∃ i, i < cfg.NBUFHASH ∧ i ≠ blockno % cfg.NBUFHASH ∧ b ∈ s.head i ∧
          s1.head i = (s.head i).erase b ∧
          s1.head (blockno % cfg.NBUFHASH) = b :: s.head (blockno % cfg.NBUFHASH) ∧
          ∀ j, j ≠ i → j ≠ blockno % cfg.NBUFHASH → s1.head j = s.head j)) := by
  rcases bget_cases cfg s dev blockno with
    ⟨b0, l1, l2, hl, hid, _, hres⟩ | ⟨b0, l1, l2, hnone, hl, h0, _, hres⟩ |
    ⟨i, b0, l1, l2, hi, hib, hhome, hl, h0, _, hres⟩ | ⟨hres, _, _⟩
  · rw [hres] at hget
    simp only [Outcome.ret.injEq] at hget
    obtain ⟨hs, hb⟩ := hget
    subst hs; subst hb
    have hmem : b0 ∈ s.head (blockno % cfg.NBUFHASH) := by rw [hl]; simp
    refine ⟨⟨by simp [hid.1], by simp [hid.2], hmem⟩, fun _ => ?_, fun hnone => ?_⟩
    · exact ⟨by simp [incr_refcnt], by simp, by simp, rfl⟩
    · exact absurd hid (hnone b0 hmem)
  · rw [hres] at hget
    simp only [Outcome.ret.injEq] at hget
    obtain ⟨hs, hb⟩ := hget
    subst hs; subst hb
    have hmem : b0 ∈ s.head (blockno % cfg.NBUFHASH) := by rw [hl]; simp
    refine ⟨⟨by simp [recycled_dev], by simp [recycled_blockno], hmem⟩, fun hex => ?_,
      fun _ => ?_⟩
    · obtain ⟨a, ha, hblk⟩ := hex
      exact absurd hblk (hnone a ha)
    · exact ⟨by simp [recycled_refcnt], by simp [recycled_valid], fun _ => rfl,
        fun hn => absurd hmem hn⟩
  · rw [hres] at hget
    simp only [Outcome.ret.injEq] at hget
    obtain ⟨hs, hb⟩ := hget
    subst hs; subst hb
    have hmem : b0 ∈ s.head i := by rw [hl]; simp
    have hnot : b0 ∉ s.head (blockno % cfg.NBUFHASH) := fun hm => (hhome b0 hm).2 h0
    refine ⟨⟨by simp [recycled_dev], by simp [recycled_blockno], ?_⟩, fun hex => ?_,
      fun _ => ?_⟩
    · rw [stolen_head]; simp
    · obtain ⟨a, ha, hblk⟩ := hex
      exact absurd hblk (hhome a ha).1
    · refine ⟨by simp [recycled_refcnt], by simp [recycled_valid], fun hm => absurd hm hnot,
        fun _ => ⟨i, hi, hib, hmem, ?_, ?_, ?_⟩⟩
      · rw [stolen_head]; simp [hib]
      · rw [stolen_head]; simp
      · intro j hji hjh
        rw [stolen_head]; simp [hji, hjh]
  · rw [hres] at hget; cases hget

/-- Witness for C19: in the 2-bucket cache with buffer 0 held for block (1, 0), `bget(1, 2)`
finds nothing unused in bucket 0 and moves buffer 1 over from bucket 1. -/
theorem bget_returns_requested_block_witness :
    bget pairCfg pairHeld 1 2 = .ret (stolen pairHeld 1 1 2 1 0) 1 ∧
    ((((stolen pairHeld 1 1 2 1 0).buf 1).dev = 1 ∧ ((stolen pairHeld 1 1 2 1 0).buf 1).blockno = 2 ∧
      1 ∈ (stolen pairHeld 1 1 2 1 0).head (2 % pairCfg.NBUFHASH)) ∧
    ((∃ a ∈ pairHeld.head (2 % pairCfg.NBUFHASH),
        (pairHeld.buf a).dev = 1 ∧ (pairHeld.buf a).blockno = 2) →
      ((stolen pairHeld 1 1 2 1 0).buf 1).refcnt = (pairHeld.buf 1).refcnt + 1 ∧
        ((stolen pairHeld 1 1 2 1 0).buf 1).valid = (pairHeld.buf 1).valid ∧
        ((stolen pairHeld 1 1 2 1 0).buf 1).data = (pairHeld.buf 1).data ∧
        (stolen pairHeld 1 1 2 1 0).head = pairHeld.head) ∧
    ((∀ a ∈ pairHeld.head (2 % pairCfg.NBUFHASH),
        ¬ ((pairHeld.buf a).dev = 1 ∧ (pairHeld.buf a).blockno = 2)) →
      ((stolen pairHeld 1 1 2 1 0).buf 1).refcnt = 1 ∧
      ((stolen pairHeld 1 1 2 1 0).buf 1).valid = false ∧
      (1 ∈ pairHeld.head (2 % pairCfg.NBUFHASH) →
        (stolen pairHeld 1 1 2 1 0).head = pairHeld.head) ∧
      (1 ∉ pairHeld.head (2 % pairCfg.NBUFHASH) →
        ∃ i, i < pairCfg.NBUFHASH ∧ i ≠ 2 % pairCfg.NBUFHASH ∧ 1 ∈ pairHeld.head i ∧
          (stolen pairHeld 1 1 2 1 0).head i = (pairHeld.head i).erase 1 ∧
          (stolen pairHeld 1 1 2 1 0).head (2 % pairCfg.NBUFHASH) =
            1 :: pairHeld.head (2 % pairCfg.NBUFHASH) ∧
          ∀ j, j ≠ i → j ≠ 2 % pairCfg.NBUFHASH →
            (stolen pairHeld 1 1 2 1 0).head j = pairHeld.head j))) :=
  ⟨rfl, bget_returns_requested_block pairCfg pairHeld 1 2 (stolen pairHeld 1 1 2 1 0) 1 rfl⟩

/-! ### `brelse` -/

/-- C14. In every state reached from `binit` by `bget`, `brelse`, `bpin` and `bunpin` calls, the
last three applied only to buffers whose reference count is at least 1: for a buffer `b` with
count `c >= 1`, `brelse(b)` by a caller holding the sleep lock returns and leaves the count at
`c - 1` and the other fields of `b` and every other buffer as they were; when `c = 1` the ring
of the bucket `blockno % NBUFHASH` of `b`, which held `b` between `l1` and `l2`, becomes `b`
followed by `l1` and `l2`, and every other ring is unchanged; when `c > 1` every ring is
unchanged.  By a caller not holding the sleep lock, `brelse(b)` halts with the state
unchanged. -/
theorem brelse_lowers_count_and_relinks (cfg : BioCfg) (hH : 0 < cfg.NBUFHASH) (g : Ghost)
    (s : Bcache) (hr : BRun cfg heldCalls g s) (b : Nat) (hb : 1 ≤ (s.buf b).refcnt) :
    (∃ s1, brelse cfg s b true = .ret s1 () ∧
      s1.buf b = { s.buf b with refcnt := (s.buf b).refcnt - 1 } ∧
      (∀ x, x ≠ b → s1.buf x = s.buf x) ∧
      ((s.buf b).refcnt = 1 → ∃ l1 l2,
        s.head ((s.buf b).blockno % cfg.NBUFHASH) = l1 ++ b :: l2 ∧ b ∉ l1 ++ l2 ∧
        s1.head ((s.buf b).blockno % cfg.NBUFHASH) = b :: (l1 ++ l2) ∧
        ∀ i, i ≠ (s.buf b).blockno % cfg.NBUFHASH → s1.head i = s.head i) ∧
      (1 < (s.buf b).refcnt → s1.head = s.head)) ∧
    brelse cfg s b false = .halt s := by
  obtain ⟨hL, hHome, _⟩ := brun_held cfg hH g s hr
  refine ⟨?_, brelse_halt cfg s b⟩
  by_cases h1 : (s.buf b).refcnt = 1
  · refine ⟨_, brelse_zero cfg s b h1, ?_, ?_, ?_, ?_⟩
    · show (decr s b).buf b = _
      rw [decr_buf, if_pos rfl]
    · intro x hx
      show (decr s b).buf x = _
      rw [decr_buf, if_neg hx]
    · intro _
      have hm := hHome b hb
      obtain ⟨l1, l2, hl⟩ := List.append_of_mem hm
      have hnd := hL.1 ((s.buf b).blockno % cfg.NBUFHASH)
      rw [hl] at hnd
      have hb1 : b ∉ l1 := by
        intro hin
        have := (List.nodup_append.mp hnd).2.2
        exact this hin (List.mem_cons_self _ _) 
      have hb2 : b ∉ l2 := by
        have := (List.nodup_append.mp hnd).2.1
        exact (List.nodup_cons.mp this).1
      refine ⟨l1, l2, hl, ?_, ?_, ?_⟩
      · intro hin
        rcases List.mem_append.mp hin with h | h
        · exact hb1 h
        · exact hb2 h
      · rw [relinked_head, if_pos rfl]
        show b :: (s.head ((s.buf b).blockno % cfg.NBUFHASH)).erase b = _
        rw [hl, List.erase_append_right _ hb1, List.erase_cons_head]
      · intro i hi
        rw [relinked_head, if_neg hi]
        show (s.head i).erase b = _
        apply List.erase_of_not_mem
        intro hin
        exact hi (hL.2 i _ b hin hm)
    · intro h
      omega
  · refine ⟨_, brelse_keep cfg s b h1, ?_, ?_, ?_, ?_⟩
    · rw [decr_buf, if_pos rfl]
    · intro x hx
      rw [decr_buf, if_neg hx]
    · intro h
      exact absurd h h1
    · intro _
      rfl

/-- Witness for C14: buffer 0 of the 2-buffer cache, held once for block (1, 5) behind buffer 1
in the only ring. -/
theorem brelse_lowers_count_and_relinks_witness :
    (0 < smallCfg.NBUFHASH ∧ BRun smallCfg heldCalls lruG2 lruS2 ∧
      1 ≤ (lruS2.buf 0).refcnt) ∧
    ((∃ s1, brelse smallCfg lruS2 0 true = .ret s1 () ∧
      s1.buf 0 = { lruS2.buf 0 with refcnt := (lruS2.buf 0).refcnt - 1 } ∧
      (∀ x, x ≠ 0 → s1.buf x = lruS2.buf x) ∧
      ((lruS2.buf 0).refcnt = 1 → ∃ l1 l2,
        lruS2.head ((lruS2.buf 0).blockno % smallCfg.NBUFHASH) = l1 ++ 0 :: l2 ∧
        0 ∉ l1 ++ l2 ∧
        s1.head ((lruS2.buf 0).blockno % smallCfg.NBUFHASH) = 0 :: (l1 ++ l2) ∧
        ∀ i, i ≠ (lruS2.buf 0).blockno % smallCfg.NBUFHASH → s1.head i = lruS2.head i) ∧
      (1 < (lruS2.buf 0).refcnt → s1.head = lruS2.head)) ∧
    brelse smallCfg lruS2 0 false = .halt lruS2) :=
  ⟨⟨by decide,
      BRun.step _ _ lruS2 (.get 1 5) (some 0)
        (BRun.step _ _ demoHeld (.get 0 0) (some 1) BRun.init trivial rfl) trivial rfl,
      by decide⟩,
    brelse_lowers_count_and_relinks smallCfg (by decide) lruG2 lruS2
      (BRun.step _ _ lruS2 (.get 1 5) (some 0)
        (BRun.step _ _ demoHeld (.get 0 0) (some 1) BRun.init trivial rfl) trivial rfl)
      0 (by decide)⟩

end Bio

namespace Bio

/-! ### The cache in front of the disk: fields -/

@[simp] theorem setData_head (s : Bcache) (b : Nat) (data : List Nat) :
    (setData s b data).head = s.head := rfl

@[simp] theorem setValid_head (s : Bcache) (b : Nat) : (setValid s b).head = s.head := rfl

theorem setData_buf (s : Bcache) (b : Nat) (data : List Nat) (x : Nat) :
    (setData s b data).buf x = if x = b then { s.buf b with data := data } else s.buf x := by
  simp only [setData, Function.update_apply]

theorem setValid_buf (s : Bcache) (b x : Nat) :
    (setValid s b).buf x = if x = b then { s.buf b with valid := true } else s.buf x := by
  simp only [setValid, Function.update_apply]

@[simp] theorem setData_dev (s : Bcache) (b : Nat) (data : List Nat) (x : Nat) :
    ((setData s b data).buf x).dev = (s.buf x).dev := by
  rw [setData_buf]; split <;> simp_all

@[simp] theorem setData_blockno (s : Bcache) (b : Nat) (data : List Nat) (x : Nat) :
    ((setData s b data).buf x).blockno = (s.buf x).blockno := by
  rw [setData_buf]; split <;> simp_all

@[simp] theorem setData_refcnt (s : Bcache) (b : Nat) (data : List Nat) (x : Nat) :
    ((setData s b data).buf x).refcnt = (s.buf x).refcnt := by
  rw [setData_buf]; split <;> simp_all

@[simp] theorem setData_valid (s : Bcache) (b : Nat) (data : List Nat) (x : Nat) :
    ((setData s b data).buf x).valid = (s.buf x).valid := by
  rw [setData_buf]; split <;> simp_all

theorem setData_data (s : Bcache) (b : Nat) (data : List Nat) (x : Nat) :
    ((setData s b data).buf x).data = if x = b then data else (s.buf x).data := by
  rw [setData_buf]; split <;> simp_all

@[simp] theorem setValid_dev (s : Bcache) (b x : Nat) :
    ((setValid s b).buf x).dev = (s.buf x).dev := by
  rw [setValid_buf]; split <;> simp_all

@[simp] theorem setValid_blockno (s : Bcache) (b x : Nat) :
    ((setValid s b).buf x).blockno = (s.buf x).blockno := by
  rw [setValid_buf]; split <;> simp_all

@[simp] theorem setValid_refcnt (s : Bcache) (b x : Nat) :
    ((setValid s b).buf x).refcnt = (s.buf x).refcnt := by
  rw [setValid_buf]; split <;> simp_all

@[simp] theorem setValid_data (s : Bcache) (b x : Nat) :
    ((setValid s b).buf x).data = (s.buf x).data := by
  rw [setValid_buf]; split <;> simp_all

theorem setValid_valid (s : Bcache) (b x : Nat) :
    ((setValid s b).buf x).valid = if x = b then true else (s.buf x).valid := by
  rw [setValid_buf]; split <;> simp_all

@[simp] theorem decr_valid (s : Bcache) (b x : Nat) :
    ((decr s b).buf x).valid = (s.buf x).valid := by
  rw [decr_buf]; split <;> simp_all

@[simp] theorem decr_data (s : Bcache) (b x : Nat) :
    ((decr s b).buf x).data = (s.buf x).data := by
  rw [decr_buf]; split <;> simp_all

@[simp] theorem sameBlock_setData (s : Bcache) (b : Nat) (data : List Nat) (x y : Nat) :
    sameBlock (setData s b data) x y ↔ sameBlock s x y := by
  simp [sameBlock]

@[simp] theorem sameBlock_setValid (s : Bcache) (b x y : Nat) :
    sameBlock (setValid s b) x y ↔ sameBlock s x y := by
  simp [sameBlock]

/-! ### The three ways `bread` can go -/

theorem bread_cases (cfg : BioCfg) (m : Machine) (dev blockno : Nat) :
    (∃ s1, bget cfg m.cache dev blockno = .halt s1 ∧
      bread cfg m dev blockno = .halt ⟨s1, m.disk⟩) ∨
    (∃ s1 b, bget cfg m.cache dev blockno = .ret s1 b ∧ (s1.buf b).valid = true ∧
      bread cfg m dev blockno = .ret ⟨s1, m.disk⟩ b) ∨
    (∃ s1 b, bget cfg m.cache dev blockno = .ret s1 b ∧ (s1.buf b).valid = false ∧
      bread cfg m dev blockno =
        .ret ⟨setValid (setData s1 b (m.disk (s1.buf b).dev (s1.buf b).blockno)) b, m.disk⟩
          b) := by
  cases hg : bget cfg m.cache dev blockno with
  | halt s1 =>
    left
    refine ⟨s1, rfl, ?_⟩
    simp only [bread, hg]
  | ret s1 b =>
    right
    cases hv : (s1.buf b).valid with
    | true =>
      left
      refine ⟨s1, b, rfl, hv, ?_⟩
      simp [bread, hg, hv]
    | false =>
      right
      refine ⟨s1, b, rfl, hv, ?_⟩
      simp [bread, hg, hv, virtio_disk_rw]

theorem mstep_cache (cfg : BioCfg) (m m1 : Machine) (op : BOp) (v : Option Nat)
    (h : mstep cfg m (.cache op) = .ret m1 v) :
    bstep cfg m.cache op = .ret m1.cache v ∧ m1.disk = m.disk := by
  simp only [mstep] at h
  cases hb : bstep cfg m.cache op with
  | ret s1 v1 =>
    rw [hb] at h
    simp only [Outcome.ret.injEq] at h
    obtain ⟨h1, h2⟩ := h
    subst h1
    subst h2
    exact ⟨rfl, rfl⟩
  | halt s1 =>
    rw [hb] at h
    cases h

theorem mstep_read (cfg : BioCfg) (m m1 : Machine) (dev blockno : Nat) (v : Option Nat)
    (h : mstep cfg m (.read dev blockno) = .ret m1 v) :
    ∃ b, v = some b ∧ bread cfg m dev blockno = .ret m1 b := by
  simp only [mstep] at h
  cases hb : bread cfg m dev blockno with
  | ret s1 b =>
    rw [hb] at h
    simp only [Outcome.ret.injEq] at h
    exact ⟨b, h.2.symm, by rw [h.1]⟩
  | halt s1 =>
    rw [hb] at h
    cases h

theorem bwrite_ret (m m1 : Machine) (b : Nat) (holding : Bool)
    (h : bwrite m b holding = .ret m1 ()) : holding = true ∧ m1 = virtio_disk_rw m b true := by
  cases holding with
  | true =>
    simp only [bwrite, Bool.not_true, Bool.false_eq_true, if_false, Outcome.ret.injEq,
      and_true] at h
    exact ⟨rfl, h.symm⟩
  | false =>
    simp [bwrite] at h

theorem mstep_write (cfg : BioCfg) (m m1 : Machine) (b : Nat) (holding : Bool) (v : Option Nat)
    (h : mstep cfg m (.write b holding) = .ret m1 v) : m1 = virtio_disk_rw m b true := by
  simp only [mstep] at h
  cases hb : bwrite m b holding with
  | ret s1 u =>
    rw [hb] at h
    simp only [Outcome.ret.injEq] at h
    rw [← h.1]
    exact (bwrite_ret m s1 b holding hb).2
  | halt s1 =>
    rw [hb] at h
    cases h

theorem mstep_store (cfg : BioCfg) (m m1 : Machine) (b : Nat) (data : List Nat)
    (v : Option Nat) (h : mstep cfg m (.store b data) = .ret m1 v) : m1 = store m b data := by
  simp only [mstep, Outcome.ret.injEq] at h
  exact h.1.symm

theorem virtio_write_cache (m : Machine) (b : Nat) : (virtio_disk_rw m b true).cache = m.cache := by
  simp [virtio_disk_rw]

theorem virtio_write_disk (m : Machine) (b d n : Nat) :
    (virtio_disk_rw m b true).disk d n =
      if d = (m.cache.buf b).dev ∧ n = (m.cache.buf b).blockno then (m.cache.buf b).data
      else m.disk d n := by
  simp [virtio_disk_rw]

/-! ### Valid buffers: in their home ring, and first among the buffers of their block -/

theorem change_validHome (cfg : BioCfg) (s s1 : Bcache) (op : BOp) (v : Option Nat)
    (hc : Change cfg s op s1 v) (hV : ValidHome cfg s) : ValidHome cfg s1 := by
  cases hc with
  | hit dev blockno b l1 l2 hl hid hfirst =>
    intro x hx
    simp only [incr_blockno, incr_head]
    simp only [incr_valid] at hx
    exact hV x hx
  | recycle dev blockno b l1 l2 hnone hl h0 hno =>
    intro x hx
    by_cases hxb : x = b
    · subst hxb
      simp [recycled_valid] at hx
    · simp only [recycled_valid, hxb, if_false] at hx
      simp only [recycled_blockno, hxb, if_false, recycled_head]
      exact hV x hx
  | steal dev blockno i b l1 l2 hi hib hhome hl h0 hno =>
    intro x hx
    by_cases hxb : x = b
    · subst hxb
      simp [recycled_valid] at hx
    · simp only [stolen_buf, recycled_valid, hxb, if_false] at hx
      simp only [stolen_buf, recycled_blockno, hxb, if_false]
      exact (mem_stolen_head s b dev blockno i _ _ x hxb).mpr (hV x hx)
  | relZero b h1 =>
    intro x hx
    simp only [relinked_buf, decr_valid] at hx
    simp only [relinked_buf, decr_blockno]
    by_cases hxb : x = b
    · subst hxb
      rw [relinked_head, if_pos rfl]
      exact List.mem_cons_self _ _
    · exact mem_relinked_head _ b _ _ x hxb (hV x hx)
  | relKeep b h1 =>
    intro x hx
    simp only [decr_blockno, decr_head]
    simp only [decr_valid] at hx
    exact hV x hx
  | pin b =>
    intro x hx
    simp only [incr_blockno, incr_head]
    simp only [incr_valid] at hx
    exact hV x hx
  | unpin b =>
    intro x hx
    simp only [decr_blockno, decr_head]
    simp only [decr_valid] at hx
    exact hV x hx

theorem change_firstValid (cfg : BioCfg) (s s1 : Bcache) (op : BOp) (v : Option Nat)
    (hc : Change cfg s op s1 v) (hu : heldCalls s op) (hL : Linked s) (hH : HeldHome cfg s)
    (hF : FirstHeld s) (hFV : FirstValid s) : FirstValid s1 := by
  cases hc with
  | hit dev blockno b l1 l2 hl hid hfirst =>
    intro i
    simp only [incr_head]
    apply (hFV i).imp
    intro x y hr hsame
    rw [incr_valid]
    exact hr ((sameBlock_incr s b x y).mp hsame)
  | recycle dev blockno b l1 l2 hnone hl h0 hno =>
    intro i
    simp only [recycled_head]
    have hbh : b ∈ s.head (blockno % cfg.NBUFHASH) := by rw [hl]; simp
    apply pairwise_change _ _ (s.head i) (hFV i) (hL.1 i)
    intro x y hx hy hxy hr hsame
    simp only [sameBlock, recycled_dev, recycled_blockno] at hsame
    by_cases hyb : y = b
    · simp only [recycled_valid, hyb, if_true]
    · simp only [recycled_valid, hyb, if_false]
      by_cases hxb : x = b
      · exfalso
        subst hxb
        have hi := hL.2 i _ x hx hbh
        subst hi
        simp only [hyb, if_false, if_true] at hsame
        exact hnone y hy ⟨hsame.1.symm, hsame.2.symm⟩
      · simp only [hxb, hyb, if_false] at hsame
        exact hr hsame
  | steal dev blockno i b l1 l2 hi hib hhome hl h0 hno =>
    have hbi : b ∈ s.head i := by rw [hl]; simp
    have hnot : b ∉ s.head (blockno % cfg.NBUFHASH) := fun h => hib (hL.2 i _ b hbi h)
    have hkeep : ∀ l : List Nat, b ∉ l → l.Pairwise
        (fun x y => sameBlock s x y → (s.buf y).valid = false) →
        l.Pairwise (fun x y => sameBlock (stolen s b dev blockno i (blockno % cfg.NBUFHASH)) x y →
          ((stolen s b dev blockno i (blockno % cfg.NBUFHASH)).buf y).valid = false) := by
      intro l hbl hp
      apply hp.imp_of_mem
      intro x y hx hy hr hsame
      have hxb : x ≠ b := fun e => hbl (e ▸ hx)
      have hyb : y ≠ b := fun e => hbl (e ▸ hy)
      simp only [sameBlock, stolen_buf, recycled_dev, recycled_blockno, hxb, hyb,
        if_false] at hsame
      simp only [stolen_buf, recycled_valid, hyb, if_false]
      exact hr hsame
    intro j
    rw [stolen_head]
    by_cases hj : j = blockno % cfg.NBUFHASH
    · simp only [hj, if_true, List.pairwise_cons]
      refine ⟨?_, hkeep _ hnot (hFV _)⟩
      intro y hy hsame
      exfalso
      have hyb : y ≠ b := fun e => hnot (e ▸ hy)
      simp only [sameBlock, stolen_buf, recycled_dev, recycled_blockno, hyb, if_false,
        if_true] at hsame
      exact (hhome y hy).1 ⟨hsame.1.symm, hsame.2.symm⟩
    · simp only [hj, if_false]
      by_cases hji : j = i
      · simp only [hji, if_true]
        exact hkeep _ (hL.1 i).not_mem_erase ((hFV i).sublist (List.erase_sublist b _))
      · simp only [hji, if_false]
        exact hkeep _ (fun h => hji (hL.2 j i b h hbi)) (hFV j)
  | relZero b h1 =>
    have hbh : b ∈ s.head ((s.buf b).blockno % cfg.NBUFHASH) := hH b (by omega)
    have hkeep : ∀ l : List Nat, l.Pairwise
        (fun x y => sameBlock s x y → (s.buf y).valid = false) →
        l.Pairwise (fun x y =>
          sameBlock (relinked (decr s b) b ((s.buf b).blockno % cfg.NBUFHASH)) x y →
          ((relinked (decr s b) b ((s.buf b).blockno % cfg.NBUFHASH)).buf y).valid = false) := by
      intro l hp
      apply hp.imp
      intro x y hr hsame
      simp only [sameBlock_relinked, sameBlock_decr] at hsame
      simp only [relinked_buf, decr_valid]
      exact hr hsame
    intro j
    rw [relinked_head]
    simp only [decr_head]
    by_cases hj : j = (s.buf b).blockno % cfg.NBUFHASH
    · simp only [hj, if_true, List.pairwise_cons]
      refine ⟨?_, hkeep _ ((hFV _).sublist (List.erase_sublist b _))⟩
      intro y hy hsame
      simp only [sameBlock_relinked, sameBlock_decr] at hsame
      have hy2 := (List.Nodup.mem_erase_iff (hL.1 _)).mp hy
      simp only [relinked_buf, decr_valid]
      rcases pairwise_either _ _ ((hF _).and (hFV _)) b y hbh hy2.2 (fun e => hy2.1 e.symm)
        with hr | hr
      · exact hr.2 hsame
      · have := hr.1 (sameBlock_symm s b y hsame)
        omega
    · simp only [hj, if_false]
      exact hkeep _ ((hFV j).sublist (List.erase_sublist b _))
  | relKeep b h1 =>
    intro i
    simp only [decr_head]
    apply (hFV i).imp
    intro x y hr hsame
    rw [decr_valid]
    exact hr ((sameBlock_decr s b x y).mp hsame)
  | pin b =>
    intro i
    simp only [incr_head]
    apply (hFV i).imp
    intro x y hr hsame
    rw [incr_valid]
    exact hr ((sameBlock_incr s b x y).mp hsame)
  | unpin b =>
    intro i
    simp only [decr_head]
    apply (hFV i).imp
    intro x y hr hsame
    rw [decr_valid]
    exact hr ((sameBlock_decr s b x y).mp hsame)

/-- The buffer `bget` returns carries the requested label. -/
theorem change_get_label (cfg : BioCfg) (s s1 : Bcache) (dev blockno b : Nat)
    (hc : Change cfg s (.get dev blockno) s1 (some b)) :
    (s1.buf b).dev = dev ∧ (s1.buf b).blockno = blockno := by
  cases hc with
  | hit _ _ _ l1 l2 hl hid hfirst => simpa using hid
  | recycle _ _ _ l1 l2 hnone hl h0 hno => simp [recycled_dev, recycled_blockno]
  | steal _ _ i _ l1 l2 hi hib hhome hl h0 hno => simp [recycled_dev, recycled_blockno]

/-- The buffer `bget` returns is in the ring of the requested block's bucket, and no buffer
nearer to the head carries the requested label. -/
theorem change_get_first (cfg : BioCfg) (s s1 : Bcache) (dev blockno b : Nat)
    (hc : Change cfg s (.get dev blockno) s1 (some b)) (hL : Linked s) :
    ∃ l1 l2, s1.head (blockno % cfg.NBUFHASH) = l1 ++ b :: l2 ∧
      ∀ a ∈ l1, ¬ ((s1.buf a).dev = dev ∧ (s1.buf a).blockno = blockno) := by
  cases hc with
  | hit _ _ _ l1 l2 hl hid hfirst =>
    refine ⟨l1, l2, hl, ?_⟩
    intro a ha
    simpa using hfirst a ha
  | recycle _ _ _ l1 l2 hnone hl h0 hno =>
    refine ⟨l1, l2, hl, ?_⟩
    intro a ha
    have hnd := hL.1 (blockno % cfg.NBUFHASH)
    rw [hl] at hnd
    have hab : a ≠ b := by
      intro e
      subst e
      exact (List.nodup_append.mp hnd).2.2 ha (List.mem_cons_self _ _) 
    simp only [recycled_dev, recycled_blockno, hab, if_false]
    exact hnone a (by rw [hl]; exact List.mem_append_left _ ha)
  | steal _ _ i _ l1 l2 hi hib hhome hl h0 hno =>
    refine ⟨[], s.head (blockno % cfg.NBUFHASH), ?_, ?_⟩
    · rw [stolen_head, if_pos rfl]
      rfl
    · intro a ha
      cases ha

theorem sound_binit (cfg : BioCfg) (hH : 0 < cfg.NBUFHASH) : Sound cfg (binit cfg bootCache) := by
  refine ⟨linked_binit cfg hH, ?_, firstHeld_binit cfg, ?_, ?_⟩
  · intro b hb
    rw [binit_refcnt] at hb
    omega
  · intro i
    exact List.pairwise_of_forall (fun x y _ => rfl)
  · intro b hb
    have : ((binit cfg bootCache).buf b).valid = false := rfl
    rw [this] at hb
    cases hb

theorem sound_bstep (cfg : BioCfg) (s s1 : Bcache) (op : BOp) (v : Option Nat)
    (hs : bstep cfg s op = .ret s1 v) (hu : heldCalls s op) (h : Sound cfg s) :
    Sound cfg s1 := by
  obtain ⟨hL, hH, hF, hFV, hV⟩ := h
  have hc := bstep_change cfg s s1 op v hs
  exact ⟨bstep_linked cfg s s1 op v hL hs, change_heldHome cfg s s1 op v hc hu hH,
    change_firstHeld cfg s s1 op v hc hu hL hH hF,
    change_firstValid cfg s s1 op v hc hu hL hH hF hFV, change_validHome cfg s s1 op v hc hV⟩

theorem sound_setData (cfg : BioCfg) (s : Bcache) (b : Nat) (data : List Nat)
    (h : Sound cfg s) : Sound cfg (setData s b data) := by
  obtain ⟨hL, hH, hF, hFV, hV⟩ := h
  refine ⟨linked_of_head_eq s _ rfl hL, ?_, ?_, ?_, ?_⟩
  · intro x hx
    simp only [setData_refcnt] at hx
    simp only [setData_blockno, setData_head]
    exact hH x hx
  · intro i
    simp only [setData_head]
    apply (hF i).imp
    intro x y hr hsame
    rw [setData_refcnt]
    exact hr ((sameBlock_setData s b data x y).mp hsame)
  · intro i
    simp only [setData_head]
    apply (hFV i).imp
    intro x y hr hsame
    rw [setData_valid]
    exact hr ((sameBlock_setData s b data x y).mp hsame)
  · intro x hx
    simp only [setData_valid] at hx
    simp only [setData_blockno, setData_head]
    exact hV x hx

theorem sound_setValid (cfg : BioCfg) (s : Bcache) (b : Nat) (l1 l2 : List Nat)
    (hl : s.head ((s.buf b).blockno % cfg.NBUFHASH) = l1 ++ b :: l2)
    (hfirst : ∀ a ∈ l1, ¬ sameBlock s a b) (h : Sound cfg s) : Sound cfg (setValid s b) := by
  obtain ⟨hL, hH, hF, hFV, hV⟩ := h
  refine ⟨linked_of_head_eq s _ rfl hL, ?_, ?_, ?_, ?_⟩
  · intro x hx
    simp only [setValid_refcnt] at hx
    simp only [setValid_blockno, setValid_head]
    exact hH x hx
  · intro i
    simp only [setValid_head]
    apply (hF i).imp
    intro x y hr hsame
    rw [setValid_refcnt]
    exact hr ((sameBlock_setValid s b x y).mp hsame)
  · intro i
    simp only [setValid_head]
    apply pairwise_before _ _ b (s.head i) (hFV i)
    · intro x y _ _ hyb hr hsame
      simp only [setValid_valid, hyb, if_false]
      exact hr ((sameBlock_setValid s b x y).mp hsame)
    · intro m1 m2 hm x hx hsame
      exfalso
      have hbi : b ∈ s.head i := by rw [hm]; simp
      have hbh : b ∈ s.head ((s.buf b).blockno % cfg.NBUFHASH) := by rw [hl]; simp
      have hi := hL.2 i _ b hbi hbh
      subst hi
      have hnd := hL.1 ((s.buf b).blockno % cfg.NBUFHASH)
      rw [hl] at hnd
      have := nodup_split_unique b l1 l2 m1 m2 hnd (hl.symm.trans hm)
      subst this
      exact hfirst x hx ((sameBlock_setValid s b x b).mp hsame)
  · intro x hx
    simp only [setValid_blockno, setValid_head]
    by_cases hxb : x = b
    · subst hxb
      rw [hl]
      simp
    · simp only [setValid_valid, hxb, if_false] at hx
      exact hV x hx

/-- A `bread` that returns keeps the ring invariants. -/
theorem sound_bread (cfg : BioCfg) (m m1 : Machine) (dev blockno b : Nat)
    (h : bread cfg m dev blockno = .ret m1 b) (hS : Sound cfg m.cache) : Sound cfg m1.cache := by
  rcases bread_cases cfg m dev blockno with ⟨s1, _, hb⟩ | ⟨s1, b1, hg, _, hb⟩ |
    ⟨s1, b1, hg, _, hb⟩
  · rw [hb] at h
    cases h
  · rw [hb] at h
    simp only [Outcome.ret.injEq] at h
    rw [← h.1]
    have hs : bstep cfg m.cache (.get dev blockno) = .ret s1 (some b1) := by
      simp only [bstep, hg]
    exact sound_bstep cfg m.cache s1 _ _ hs trivial hS
  · rw [hb] at h
    simp only [Outcome.ret.injEq] at h
    rw [← h.1]
    have hs : bstep cfg m.cache (.get dev blockno) = .ret s1 (some b1) := by
      simp only [bstep, hg]
    have hS1 := sound_bstep cfg m.cache s1 _ _ hs trivial hS
    have hc := bstep_change cfg m.cache s1 _ _ hs
    obtain ⟨hd, hbn⟩ := change_get_label cfg m.cache s1 dev blockno b1 hc
    obtain ⟨l1, l2, hl, hfirst⟩ := change_get_first cfg m.cache s1 dev blockno b1 hc hS.1
    show Sound cfg (setValid (setData s1 b1 _) b1)
    apply sound_setValid cfg _ b1 l1 l2 _ _ (sound_setData cfg s1 b1 _ hS1)
    · simp only [setData_blockno, setData_head, hbn]
      exact hl
    · intro a ha hsame
      rw [sameBlock_setData] at hsame
      exact hfirst a ha ⟨hsame.1.trans hd, hsame.2.trans hbn⟩

/-- Every state reached by the intended use of the interface satisfies the ring invariants. -/
theorem mrun_sound (cfg : BioCfg) (hH : 0 < cfg.NBUFHASH) (m : Machine) (hr : MRun cfg m) :
    Sound cfg m.cache := by
  induction hr with
  | init disk => exact sound_binit cfg hH
  | step m m1 op v _ hu hs ih =>
    cases op with
    | cache op =>
      obtain ⟨h1, _⟩ := mstep_cache cfg m m1 op v hs
      exact sound_bstep cfg m.cache m1.cache op v h1 hu ih
    | read dev blockno =>
      obtain ⟨b, _, hb⟩ := mstep_read cfg m m1 dev blockno v hs
      exact sound_bread cfg m m1 dev blockno b hb ih
    | write b holding =>
      rw [mstep_write cfg m m1 b holding v hs, virtio_write_cache]
      exact ih
    | store b data =>
      rw [mstep_store cfg m m1 b data v hs]
      exact sound_setData cfg m.cache b data ih

/-! ### What the disk holds is what a valid buffer of the block holds -/

theorem coherent_change (cfg : BioCfg) (d n : Nat) (c : List Nat) (m : Machine) (s1 : Bcache)
    (op : BOp) (v : Option Nat) (hc : Change cfg m.cache op s1 v) (h : Coherent d n c m) :
    Coherent d n c ⟨s1, m.disk⟩ := by
  refine ⟨h.1, ?_⟩
  intro x hd hb hv
  cases hc with
  | hit dev blockno b l1 l2 hl hid hfirst =>
    simp only [incr_dev, incr_blockno, incr_valid, incr_data] at hd hb hv ⊢
    exact h.2 x hd hb hv
  | recycle dev blockno b l1 l2 hnone hl h0 hno =>
    by_cases hxb : x = b
    · subst hxb
      simp [recycled_valid] at hv
    · simp only [recycled_dev, recycled_blockno, recycled_valid, recycled_data, hxb,
        if_false] at hd hb hv ⊢
      exact h.2 x hd hb hv
  | steal dev blockno i b l1 l2 hi hib hhome hl h0 hno =>
    by_cases hxb : x = b
    · subst hxb
      simp [recycled_valid] at hv
    · simp only [stolen_buf, recycled_dev, recycled_blockno, recycled_valid, recycled_data,
        hxb, if_false] at hd hb hv ⊢
      exact h.2 x hd hb hv
  | relZero b h1 =>
    simp only [relinked_buf, decr_dev, decr_blockno, decr_valid, decr_data] at hd hb hv ⊢
    exact h.2 x hd hb hv
  | relKeep b h1 =>
    simp only [decr_dev, decr_blockno, decr_valid, decr_data] at hd hb hv ⊢
    exact h.2 x hd hb hv
  | pin b =>
    simp only [incr_dev, incr_blockno, incr_valid, incr_data] at hd hb hv ⊢
    exact h.2 x hd hb hv
  | unpin b =>
    simp only [decr_dev, decr_blockno, decr_valid, decr_data] at hd hb hv ⊢
    exact h.2 x hd hb hv

theorem coherent_bread (cfg : BioCfg) (d n : Nat) (c : List Nat) (m m1 : Machine)
    (dev blockno b : Nat) (hb : bread cfg m dev blockno = .ret m1 b) (h : Coherent d n c m) :
    Coherent d n c m1 := by
  rcases bread_cases cfg m dev blockno with ⟨s1, _, hr⟩ | ⟨s1, b1, hg, _, hr⟩ |
    ⟨s1, b1, hg, _, hr⟩
  · rw [hr] at hb
    cases hb
  · rw [hr] at hb
    simp only [Outcome.ret.injEq] at hb
    rw [← hb.1]
    have hs : bstep cfg m.cache (.get dev blockno) = .ret s1 (some b1) := by
      simp only [bstep, hg]
    exact coherent_change cfg d n c m s1 _ _ (bstep_change cfg m.cache s1 _ _ hs) h
  · rw [hr] at hb
    simp only [Outcome.ret.injEq] at hb
    rw [← hb.1]
    have hs : bstep cfg m.cache (.get dev blockno) = .ret s1 (some b1) := by
      simp only [bstep, hg]
    have h1 := coherent_change cfg d n c m s1 _ _ (bstep_change cfg m.cache s1 _ _ hs) h
    refine ⟨h.1, ?_⟩
    intro x hd hbn hv
    simp only [setValid_dev, setValid_blockno, setValid_data, setData_dev, setData_blockno,
      setData_data] at hd hbn hv ⊢
    by_cases hxb : x = b1
    · subst hxb
      simp only [if_true]
      rw [hd, hbn]
      exact h.1
    · simp only [hxb, if_false]
      simp only [setValid_valid, hxb, if_false, setData_valid] at hv
      exact h1.2 x hd hbn hv

theorem coherent_step (cfg : BioCfg) (d n : Nat) (c : List Nat) (m m1 : Machine) (op : MOp)
    (v : Option Nat) (hq : quietOp d n m op) (hs : mstep cfg m op = .ret m1 v)
    (h : Coherent d n c m) : Coherent d n c m1 := by
  cases op with
  | cache op =>
    obtain ⟨h1, h2⟩ := mstep_cache cfg m m1 op v hs
    have := coherent_change cfg d n c m m1.cache op v (bstep_change cfg m.cache m1.cache op v h1) h
    refine ⟨?_, this.2⟩
    rw [h2]
    exact h.1
  | read dev blockno =>
    obtain ⟨b, _, hb⟩ := mstep_read cfg m m1 dev blockno v hs
    exact coherent_bread cfg d n c m m1 dev blockno b hb h
  | write b holding =>
    rw [mstep_write cfg m m1 b holding v hs]
    refine ⟨?_, ?_⟩
    · rw [virtio_write_disk]
      have hq1 : ¬ ((m.cache.buf b).dev = d ∧ (m.cache.buf b).blockno = n) := hq
      have : ¬ (d = (m.cache.buf b).dev ∧ n = (m.cache.buf b).blockno) :=
        fun e => hq1 ⟨e.1.symm, e.2.symm⟩
      rw [if_neg this]
      exact h.1
    · rw [virtio_write_cache]
      exact h.2
  | store b data =>
    rw [mstep_store cfg m m1 b data v hs]
    refine ⟨h.1, ?_⟩
    intro x hd hbn hv
    have hq1 : ¬ ((m.cache.buf b).dev = d ∧ (m.cache.buf b).blockno = n) := hq
    simp only [store, setData_dev, setData_blockno, setData_valid, setData_data] at hd hbn hv ⊢
    by_cases hxb : x = b
    · subst hxb
      exact absurd ⟨hd, hbn⟩ hq1
    · simp only [hxb, if_false]
      exact h.2 x hd hbn hv

theorem coherent_quiet (cfg : BioCfg) (d n : Nat) (c : List Nat) (m m2 : Machine)
    (hq : QuietRun cfg d n m m2) (h : Coherent d n c m) : Coherent d n c m2 := by
  induction hq with
  | done m => exact h
  | step m m1 m2 op v hq hs _ ih => exact ih (coherent_step cfg d n c m m1 op v hq hs h)

/-- Right after `bwrite` of a held buffer, in a state reached by the intended use, the disk and
every valid buffer of the block hold the payload written. -/
theorem coherent_write (cfg : BioCfg) (m : Machine) (b : Nat) (hS : Sound cfg m.cache)
    (hb : 1 ≤ (m.cache.buf b).refcnt) :
    Coherent (m.cache.buf b).dev (m.cache.buf b).blockno (m.cache.buf b).data
      (virtio_disk_rw m b true) := by
  obtain ⟨hL, hH, hF, hFV, hV⟩ := hS
  refine ⟨?_, ?_⟩
  · rw [virtio_write_disk]
    simp
  · rw [virtio_write_cache]
    intro x hd hbn hv
    by_cases hxb : x = b
    · rw [hxb]
    · exfalso
      have hxh := hV x hv
      rw [hbn] at hxh
      have hbh := hH b hb
      rcases pairwise_either _ _ ((hF _).and (hFV _)) x b hxh hbh hxb with hr | hr
      · have := hr.1 ⟨hd, hbn⟩
        omega
      · have := hr.2 ⟨hd.symm, hbn.symm⟩
        rw [hv] at this
        cases this

theorem bread_returns (cfg : BioCfg) (m : Machine) (dev blockno : Nat)
    (ha : available cfg m.cache dev blockno) : ∃ m1 b, bread cfg m dev blockno = .ret m1 b := by
  rcases bread_cases cfg m dev blockno with ⟨s1, hg, _⟩ | ⟨s1, b1, _, _, hr⟩ |
    ⟨s1, b1, _, _, hr⟩
  · exfalso
    rcases bget_cases cfg m.cache dev blockno with
      ⟨b0, l1, l2, _, _, _, hres⟩ | ⟨b0, l1, l2, _, _, _, _, hres⟩ |
      ⟨i, b0, l1, l2, _, _, _, _, _, _, hres⟩ | ⟨_, hnone, hused⟩
    · rw [hres] at hg; cases hg
    · rw [hres] at hg; cases hg
    · rw [hres] at hg; cases hg
    · rcases ha with ⟨a, ha1, ha2⟩ | ⟨i, hi, a, ha1, ha2⟩
      · exact hnone a ha1 ha2
      · exact hused i hi a ha1 ha2
  · exact ⟨_, _, hr⟩
  · exact ⟨_, _, hr⟩

theorem bread_result (cfg : BioCfg) (m m1 : Machine) (dev blockno b : Nat) (c : List Nat)
    (hb : bread cfg m dev blockno = .ret m1 b) (h : Coherent dev blockno c m) :
    (m1.cache.buf b).valid = true ∧ (m1.cache.buf b).data = c ∧
    (m1.cache.buf b).dev = dev ∧ (m1.cache.buf b).blockno = blockno := by
  have h1 := coherent_bread cfg dev blockno c m m1 dev blockno b hb h
  have hlab : (m1.cache.buf b).valid = true ∧
      (m1.cache.buf b).dev = dev ∧ (m1.cache.buf b).blockno = blockno := by
    rcases bread_cases cfg m dev blockno with ⟨s1, _, hr⟩ | ⟨s1, b1, hg, hv, hr⟩ |
      ⟨s1, b1, hg, hv, hr⟩
    · rw [hr] at hb
      cases hb
    · rw [hr] at hb
      simp only [Outcome.ret.injEq] at hb
      rw [← hb.1, ← hb.2]
      have hs : bstep cfg m.cache (.get dev blockno) = .ret s1 (some b1) := by
        simp only [bstep, hg]
      exact ⟨hv, change_get_label cfg m.cache s1 dev blockno b1
        (bstep_change cfg m.cache s1 _ _ hs)⟩
    · rw [hr] at hb
      simp only [Outcome.ret.injEq] at hb
      rw [← hb.1, ← hb.2]
      have hs : bstep cfg m.cache (.get dev blockno) = .ret s1 (some b1) := by
        simp only [bstep, hg]
      have := change_get_label cfg m.cache s1 dev blockno b1
        (bstep_change cfg m.cache s1 _ _ hs)
      simp only [setValid_dev, setValid_blockno, setData_dev, setData_blockno, setValid_valid,
        if_true]
      exact ⟨trivial, this⟩
  exact ⟨hlab.1, h1.2 b hlab.2.1 hlab.2.2 hlab.1, hlab.2⟩

/-! ### C13: a block read back after it was written -/

/-- C13, counterexample. In the 1-buffer cache, `bread(0, 5)` returns buffer 0, its holder sets
the payload to `[7]`, `bwrite` writes it and `brelse` brings the count to 0; `bread(0, 9)`, a
call on another block, then recycles the buffer and holds it.  `bread(0, 5)` now does not return
a buffer: it halts in `panic("bget: no buffers")`. -/
theorem bread_after_bwrite_halts_on_full_cache :
    MRun oneCfg fullM ∧
    ((fullM.cache.buf 0).refcnt = 1 ∧ (fullM.cache.buf 0).dev = 0 ∧
      (fullM.cache.buf 0).blockno = 5 ∧ (fullM.cache.buf 0).data = [7]) ∧
    bwrite fullM 0 true = .ret fullM1 () ∧
    mstep oneCfg fullM1 (.cache (.release 0 true)) = .ret fullM2 none ∧
    (fullM2.cache.buf 0).refcnt = 0 ∧
    bread oneCfg fullM2 0 9 = .ret fullM3 0 ∧
    bread oneCfg fullM3 0 5 = .halt fullM3 ∧
    (bread oneCfg fullM3 0 5).returned = false :=
  ⟨MRun.step _ fullM (.store 0 [7]) none
      (MRun.step _ _ (.read 0 5) (some 0) (MRun.init _) trivial rfl) trivial rfl,
    by decide, rfl, rfl, by decide, rfl, rfl, by decide⟩

/-- C13, amended. In every state reached from `binit` by `bget`, `bread`, `bwrite`, `brelse`,
`bpin`, `bunpin` calls and payload changes, the `brelse`, `bpin` and `bunpin` calls applied only
to buffers whose reference count is at least 1: let `b` be a buffer with a count of at least 1,
labelled (d, n) and with payload c.  After `bwrite(b)` has returned, and after any sequence of
returning calls that are `bget`, `bread`, `brelse`, `bpin` or `bunpin` calls (the `brelse` calls
that bring the count of `b` to 0 among them, and calls that recycle `b`), or `bwrite` calls and
payload changes on buffers labelled with other blocks: if block (d, n) is still cached in its
bucket or some bucket has an unused buffer, `bread(d, n)` returns a buffer labelled (d, n) whose
validity flag is set and whose payload is c, and the disk holds c as block (d, n). -/
theorem bread_after_bwrite_returns_written (cfg : BioCfg) (hH : 0 < cfg.NBUFHASH) (m : Machine)
    (hr : MRun cfg m) (b : Nat) (hb : 1 ≤ (m.cache.buf b).refcnt) (holding : Bool)
    (m1 : Machine) (hw : bwrite m b holding = .ret m1 ()) (m2 : Machine)
    (hq : QuietRun cfg (m.cache.buf b).dev (m.cache.buf b).blockno m1 m2)
    (ha : available cfg m2.cache (m.cache.buf b).dev (m.cache.buf b).blockno) :
    ∃ m3 b3, bread cfg m2 (m.cache.buf b).dev (m.cache.buf b).blockno = .ret m3 b3 ∧
      (m3.cache.buf b3).valid = true ∧ (m3.cache.buf b3).data = (m.cache.buf b).data ∧
      (m3.cache.buf b3).dev = (m.cache.buf b).dev ∧
      (m3.cache.buf b3).blockno = (m.cache.buf b).blockno ∧
      m3.disk (m.cache.buf b).dev (m.cache.buf b).blockno = (m.cache.buf b).data := by
  have hS := mrun_sound cfg hH m hr
  have h1 := coherent_write cfg m b hS hb
  rw [← (bwrite_ret m m1 b holding hw).2] at h1
  have h2 := coherent_quiet cfg _ _ _ m1 m2 hq h1
  obtain ⟨m3, b3, hb3⟩ := bread_returns cfg m2 _ _ ha
  obtain ⟨hv, hd, hlab⟩ := bread_result cfg m2 m3 _ _ b3 _ hb3 h2
  exact ⟨m3, b3, hb3, hv, hd, hlab.1, hlab.2,
    (coherent_bread cfg _ _ _ m2 m3 _ _ b3 hb3 h2).1⟩

/-- Witness for C13: the 2-buffer cache; buffer 0 is written as block (0, 5) with payload `[7]`
and released, `bread(0, 9)` and `bread(0, 13)` recycle both buffers, both are released, and
`bread(0, 5)` is served from the disk. -/
theorem bread_after_bwrite_returns_written_witness :
    (0 < smallCfg.NBUFHASH ∧ MRun smallCfg wrM ∧ 1 ≤ (wrM.cache.buf 0).refcnt ∧
      bwrite wrM 0 true = .ret wrM1 () ∧
      QuietRun smallCfg (wrM.cache.buf 0).dev (wrM.cache.buf 0).blockno wrM1 wrM6 ∧
      available smallCfg wrM6.cache (wrM.cache.buf 0).dev (wrM.cache.buf 0).blockno) ∧
    ∃ m3 b3, bread smallCfg wrM6 (wrM.cache.buf 0).dev (wrM.cache.buf 0).blockno = .ret m3 b3 ∧
      (m3.cache.buf b3).valid = true ∧ (m3.cache.buf b3).data = (wrM.cache.buf 0).data ∧
      (m3.cache.buf b3).dev = (wrM.cache.buf 0).dev ∧
      (m3.cache.buf b3).blockno = (wrM.cache.buf 0).blockno ∧
      m3.disk (wrM.cache.buf 0).dev (wrM.cache.buf 0).blockno = (wrM.cache.buf 0).data :=
  ⟨⟨by decide,
      MRun.step _ wrM (.store 0 [7]) none
        (MRun.step _ _ (.read 0 5) (some 0) (MRun.init _) trivial rfl) trivial rfl,
      by decide, rfl,
      QuietRun.step wrM1 wrM2 wrM6 (.cache (.release 0 true)) none trivial rfl
        (QuietRun.step wrM2 wrM3 wrM6 (.read 0 9) (some 1) trivial rfl
          (QuietRun.step wrM3 wrM4 wrM6 (.read 0 13) (some 0) trivial rfl
            (QuietRun.step wrM4 wrM5 wrM6 (.cache (.release 1 true)) none trivial rfl
              (QuietRun.step wrM5 wrM6 wrM6 (.cache (.release 0 true)) none trivial rfl
                (QuietRun.done wrM6))))),
      Or.inr ⟨0, by decide, 0, by decide, by decide⟩⟩,
    bread_after_bwrite_returns_written smallCfg (by decide) wrM
      (MRun.step _ wrM (.store 0 [7]) none
        (MRun.step _ _ (.read 0 5) (some 0) (MRun.init _) trivial rfl) trivial rfl)
      0 (by decide) true wrM1 rfl wrM6
      (QuietRun.step wrM1 wrM2 wrM6 (.cache (.release 0 true)) none trivial rfl
        (QuietRun.step wrM2 wrM3 wrM6 (.read 0 9) (some 1) trivial rfl
          (QuietRun.step wrM3 wrM4 wrM6 (.read 0 13) (some 0) trivial rfl
            (QuietRun.step wrM4 wrM5 wrM6 (.cache (.release 1 true)) none trivial rfl
              (QuietRun.step wrM5 wrM6 wrM6 (.cache (.release 0 true)) none trivial rfl
                (QuietRun.done wrM6))))))
      (Or.inr ⟨0, by decide, 0, by decide, by decide⟩)⟩

end Bio

namespace Bio

/-! ### Overlapping `bget` calls -/

theorem bgetRun_got (cfg : BioCfg) (dev blockno : Nat) (n : Nat) (s : Bcache) (b : Nat) :
    bgetRun cfg dev blockno n (s, .got b) = (s, .got b) := by
  induction n with
  | zero => rfl
  | succ n ih => simpa [bgetRun, bgetSection] using ih

theorem bgetRun_stuck (cfg : BioCfg) (dev blockno : Nat) (n : Nat) (s : Bcache) :
    bgetRun cfg dev blockno n (s, .stuck) = (s, .stuck) := by
  induction n with
  | zero => rfl
  | succ n ih => simpa [bgetRun, bgetSection] using ih

theorem bgetRun_visit (cfg : BioCfg) (s : Bcache) (dev blockno : Nat) :
    ∀ (k i n : Nat), i + k = cfg.NBUFHASH → k + 1 ≤ n →
      bgetRun cfg dev blockno n (s, .visit i) =
        endOf (bgetSteal s dev blockno (blockno % cfg.NBUFHASH) (List.range' i k)) := by
  intro k
  induction k with
  | zero =>
    intro i n hi hn
    obtain ⟨m, rfl⟩ : ∃ m, n = m + 1 := ⟨n - 1, by omega⟩
    have : ¬ i < cfg.NBUFHASH := by omega
    simp only [bgetRun, bgetSection, this, if_false, List.range'_zero, bgetSteal, endOf]
    exact bgetRun_stuck cfg dev blockno m s
  | succ k ih =>
    intro i n hi hn
    obtain ⟨m, rfl⟩ : ∃ m, n = m + 1 := ⟨n - 1, by omega⟩
    have hlt : i < cfg.NBUFHASH := by omega
    simp only [bgetRun, bgetSection, hlt, if_true, List.range'_succ, bgetSteal]
    by_cases hib : i = blockno % cfg.NBUFHASH
    · simp only [if_pos hib]
      exact ih (i + 1) m (by omega) (by omega)
    · simp only [if_neg hib]
      cases hl : lruUnused s i with
      | some b =>
        simp only [endOf]
        exact bgetRun_got cfg dev blockno m _ b
      | none =>
        exact ih (i + 1) m (by omega) (by omega)

/-- A `bget` call whose critical sections run with no other call in between ends as the
uninterrupted `bget` does, after at most `NBUFHASH + 2` sections. -/
theorem bgetRun_bget (cfg : BioCfg) (s : Bcache) (dev blockno : Nat) :
    bgetRun cfg dev blockno (cfg.NBUFHASH + 2) (s, .home) = endOf (bget cfg s dev blockno) := by
  simp only [bgetRun, bgetSection, bget]
  cases hfind : (s.head (blockno % cfg.NBUFHASH)).find? (isBlock s dev blockno) with
  | some b =>
    simp only [endOf]
    exact bgetRun_got cfg dev blockno _ _ b
  | none =>
    cases hlru : lruUnused s (blockno % cfg.NBUFHASH) with
    | some b =>
      simp only [endOf]
      exact bgetRun_got cfg dev blockno _ _ b
    | none =>
      simp only [List.range_eq_range']
      exact bgetRun_visit cfg s dev blockno cfg.NBUFHASH 0 (cfg.NBUFHASH + 1) (by omega)
        (by omega)

/-- C8, failing run. In the cache of 3 buffers and 2 buckets, reached from `binit` by
`bget(1, 1)`, which holds the only buffer of bucket 1, two calls `bget(1, 3)` overlap: each
finds block (1, 3) not cached and no unused buffer in bucket 1 and releases the lock of that
bucket; the first then takes buffer 0 from bucket 0, and the second, which does not look at
bucket 1 again, takes buffer 2.  Both calls have chosen a buffer, the two buffers differ, both
carry (1, 3) and both have reference count 1, against the claim.  When the second call starts
after the first has finished, both choose buffer 0 and its count is 2. -/
theorem overlapping_bget_gives_two_buffers :
    BRun raceCfg heldCalls raceGhost raceHeld ∧
    (raceEnd.2.1.pc = .got 0 ∧ raceEnd.2.2.pc = .got 2) ∧
    ((raceEnd.1.buf 0).refcnt = 1 ∧ (raceEnd.1.buf 0).dev = 1 ∧
      (raceEnd.1.buf 0).blockno = 3) ∧
    ((raceEnd.1.buf 2).refcnt = 1 ∧ (raceEnd.1.buf 2).dev = 1 ∧
      (raceEnd.1.buf 2).blockno = 3) ∧
    raceEnd.1.head 1 = [2, 0, 1] ∧
    (¬ ∀ b1 b2, 1 ≤ (raceEnd.1.buf b1).refcnt → 1 ≤ (raceEnd.1.buf b2).refcnt →
      (raceEnd.1.buf b1).dev = (raceEnd.1.buf b2).dev →
      (raceEnd.1.buf b1).blockno = (raceEnd.1.buf b2).blockno → b1 = b2) ∧
    (raceSeq.2.1.pc = .got 0 ∧ raceSeq.2.2.pc = .got 0 ∧ (raceSeq.1.buf 0).refcnt = 2) :=
  ⟨BRun.step _ _ raceHeld (.get 1 1) (some 1) BRun.init trivial rfl,
    by decide, by decide, by decide, by decide,
    fun h => absurd (h 0 2 (by decide) (by decide) (by decide) (by decide)) (by decide),
    by decide⟩

end Bio
